import Mathlib

/-!
# AVL index and indexed database (`Project 3/AVL_Database.cpp`)

A shallow embedding of the AVL tree of `AVL_Database.cpp` and of the
`IndexedDatabase` wrapper around it, followed by the verification of the
index's contracts. The expression validator of `linked_calc.cpp` and the
in-memory file system of `Project2/FileSystem.cpp` are embedded after the
index, each under its own heading.

Modelling conventions.

* A `Record*` is a `Record` value (a label `key : String` and the ordering
  key `value : Int`). Records are never freed by `insert` / `deleteNode`, so a
  pointer and the value it points to are interchangeable. The type has no
  null record.
* An `AVLNode*` is an `AVLNode`: `nil` is the null pointer, `node` carries the
  four fields of the C++ class (`record`, `left`, `right`, `height`).
* C++ `int` is `Int`. Ordering keys are only ever compared, cached heights and
  the node count stay far below `2^31` for any tree that fits in memory.
* Dereferencing a null pointer is modelled by `none`; every function that may
  dereference returns an `Option`.
* The member variables `nodeCount` and `searchComparisonCount` are threaded
  explicitly through the helpers that update them.
-/

/-- The class `Record`: a label (`key`) and the integer ordering key (`value`). -/
structure Record where
  key : String
  value : Int
deriving DecidableEq

/-- The class `AVLNode`; `nil` stands for `nullptr`. -/
inductive AVLNode where
  | nil : AVLNode
  | node (record : Record) (left right : AVLNode) (height : Int) : AVLNode
deriving DecidableEq

/-- The class `AVLTree`: the root pointer and the two counters. -/
structure AVLTree where
  root : AVLNode
  nodeCount : Int
  searchComparisonCount : Int
deriving DecidableEq

/-- The class `IndexedDatabase`: a wrapper around one `AVLTree`. -/
structure IndexedDatabase where
  index : AVLTree
deriving DecidableEq

namespace AVLNode

/-- The constructor `AVLNode::AVLNode(Record* r)`: a leaf of cached height 1. -/
def mk1 (r : Record) : AVLNode := .node r .nil .nil 1

/-- Reading `node->record`; `none` when `node` is null. -/
def record? : AVLNode → Option Record
  | .nil => none
  | .node r _ _ _ => some r

/-- In-order sequence of the records of a tree (ghost function). -/
def inorder : AVLNode → List Record
  | .nil => []
  | .node r l rt _ => inorder l ++ r :: inorder rt

/-- Number of nodes reachable from a node (ghost function). -/
def size : AVLNode → Nat
  | .nil => 0
  | .node _ l rt _ => size l + 1 + size rt

end AVLNode

namespace AVLTree

/-- The constructor `AVLTree::AVLTree()`. -/
def empty : AVLTree := ⟨.nil, 0, 0⟩

/-- `AVLTree::height`: the cached height, 0 for null. -/
def height : AVLNode → Int
  | .nil => 0
  | .node _ _ _ h => h

/-- `AVLTree::updateHeight`. -/
def updateHeight : AVLNode → AVLNode
  | .nil => .nil
  | .node rec l r _ => .node rec l r (1 + max (height l) (height r))

/-- `AVLTree::getBalance`. -/
def getBalance : AVLNode → Int
  | .nil => 0
  | .node _ l r _ => height l - height r

/-- `AVLTree::rotateRight`; `none` when `y` or `y->left` is null. -/
def rotateRight : AVLNode → Option AVLNode
  | .node yrec (.node xrec xl T2 xh) yr yh =>
      let y := updateHeight (.node yrec T2 yr yh)
      some (updateHeight (.node xrec xl y xh))
  | _ => none

/-- `AVLTree::rotateLeft`; `none` when `x` or `x->right` is null. -/
def rotateLeft : AVLNode → Option AVLNode
  | .node xrec xl (.node yrec T2 yr yh) xh =>
      let x := updateHeight (.node xrec xl T2 xh)
      some (updateHeight (.node yrec x yr yh))
  | _ => none

/-- The short-circuit conjunction `a && b` where evaluating `b` may dereference. -/
def andThen (a : Bool) (b : Option Bool) : Option Bool :=
  if a then b else some false

/-- Lines 83-106 of `AVLTree::insertHelper`: height update and the four
rotation cases, applied to the node whose child has just been relinked. -/
def insertRebalance (node : AVLNode) (record : Record) : Option AVLNode :=
  match updateHeight node with
  | .nil => none
  | .node nrec l r h =>
    let balance := getBalance (.node nrec l r h)
    (andThen (balance > 1) (l.record?.map fun lr => decide (record.value < lr.value))).bind fun c1 =>
    if c1 then rotateRight (.node nrec l r h) else
    (andThen (balance < -1) (r.record?.map fun rr => decide (record.value > rr.value))).bind fun c2 =>
    if c2 then rotateLeft (.node nrec l r h) else
    (andThen (balance > 1) (l.record?.map fun lr => decide (record.value > lr.value))).bind fun c3 =>
    if c3 then (rotateLeft l).bind fun l1 => rotateRight (.node nrec l1 r h) else
    (andThen (balance < -1) (r.record?.map fun rr => decide (record.value < rr.value))).bind fun c4 =>
    if c4 then (rotateRight r).bind fun r1 => rotateLeft (.node nrec l r1 h) else
    some (.node nrec l r h)

/-- `AVLTree::insertHelper`, returning the new subtree root and the new
`nodeCount`. -/
def insertHelper (node : AVLNode) (record : Record) (nodeCount : Int) :
    Option (AVLNode × Int) :=
  match node with
  | .nil => some (AVLNode.mk1 record, nodeCount + 1)
  | .node nrec l r h =>
    if record.value < nrec.value then
      (insertHelper l record nodeCount).bind fun p =>
        (insertRebalance (.node nrec p.1 r h) record).map fun n => (n, p.2)
    else if record.value > nrec.value then
      (insertHelper r record nodeCount).bind fun p =>
        (insertRebalance (.node nrec l p.1 h) record).map fun n => (n, p.2)
    else
      some (.node nrec l r h, nodeCount)

/-- `AVLTree::insert`. -/
def insert (t : AVLTree) (record : Record) : Option AVLTree :=
  (insertHelper t.root record t.nodeCount).map fun p =>
    { t with root := p.1, nodeCount := p.2 }

/-- `AVLTree::minValueNode`: the leftmost node; `none` when called on null. -/
def minValueNode : AVLNode → Option AVLNode
  | .nil => none
  | .node rec .nil r h => some (.node rec .nil r h)
  | .node _ (.node lrec ll lr lh) _ _ => minValueNode (.node lrec ll lr lh)

/-- Lines 151-174 of `AVLTree::deleteHelper`: null check, height update and
the four rotation cases. -/
def deleteRebalance (node : AVLNode) : Option AVLNode :=
  match updateHeight node with
  | .nil => some .nil
  | .node nrec l r h =>
    let balance := getBalance (.node nrec l r h)
    if balance > 1 ∧ getBalance l ≥ 0 then rotateRight (.node nrec l r h)
    else if balance > 1 ∧ getBalance l < 0 then
      (rotateLeft l).bind fun l1 => rotateRight (.node nrec l1 r h)
    else if balance < -1 ∧ getBalance r ≤ 0 then rotateLeft (.node nrec l r h)
    else if balance < -1 ∧ getBalance r > 0 then
      (rotateRight r).bind fun r1 => rotateLeft (.node nrec l r1 h)
    else some (.node nrec l r h)

/-- `AVLTree::deleteHelper`, returning the new subtree root and the new
`nodeCount`. -/
def deleteHelper (node : AVLNode) (key : String) (value : Int) (nodeCount : Int) :
    Option (AVLNode × Int) :=
  match node with
  | .nil => some (.nil, nodeCount)
  | .node nrec l r h =>
    if value < nrec.value then
      (deleteHelper l key value nodeCount).bind fun p =>
        (deleteRebalance (.node nrec p.1 r h)).map fun n => (n, p.2)
    else if value > nrec.value then
      (deleteHelper r key value nodeCount).bind fun p =>
        (deleteRebalance (.node nrec l p.1 h)).map fun n => (n, p.2)
    else if key ≠ nrec.key then
      if value < nrec.value then
        (deleteHelper l key value nodeCount).bind fun p =>
          (deleteRebalance (.node nrec p.1 r h)).map fun n => (n, p.2)
      else
        (deleteHelper r key value nodeCount).bind fun p =>
          (deleteRebalance (.node nrec l p.1 h)).map fun n => (n, p.2)
    else if l = .nil ∨ r = .nil then
      -- `temp = node->left ? node->left : node->right`; with no child the node
      -- becomes null, with one child `*node = *temp`
      let temp := if l ≠ .nil then l else r
      (deleteRebalance temp).map fun n => (n, nodeCount - 1)
    else
      (minValueNode r).bind fun temp =>
      temp.record?.bind fun trec =>
      (deleteHelper r trec.key trec.value nodeCount).bind fun p =>
        (deleteRebalance (.node trec l p.1 h)).map fun n => (n, p.2)

/-- `AVLTree::deleteNode`. -/
def deleteNode (t : AVLTree) (key : String) (value : Int) : Option AVLTree :=
  (deleteHelper t.root key value t.nodeCount).map fun p =>
    { t with root := p.1, nodeCount := p.2 }

/-- `AVLTree::searchHelper`, threading `searchComparisonCount`; the result is
the node found or a fresh node holding `Record("", 0)`. -/
def searchHelper (node : AVLNode) (key : String) (value : Int) (count : Int) :
    AVLNode × Int :=
  match node with
  | .nil => (AVLNode.mk1 ⟨"", 0⟩, count + 1)
  | .node nrec l r h =>
    if value = nrec.value ∧ key = nrec.key then (.node nrec l r h, count + 1)
    else if value < nrec.value then searchHelper l key value (count + 1)
    else searchHelper r key value (count + 1)

/-- `AVLTree::search`: the record returned and the tree with its updated
comparison counter. -/
def search (t : AVLTree) (key : String) (value : Int) : Option (Record × AVLTree) :=
  let res := searchHelper t.root key value 0
  res.1.record?.map fun rec => (rec, { t with searchComparisonCount := res.2 })

/-- `AVLTree::getNodeCount`. -/
def getNodeCount (t : AVLTree) : Int := t.nodeCount

/-- `AVLTree::getLastSearchComparisons`. -/
def getLastSearchComparisons (t : AVLTree) : Int := t.searchComparisonCount

end AVLTree

namespace IndexedDatabase

/-- `IndexedDatabase::insert`. -/
def insert (db : IndexedDatabase) (record : Record) : Option IndexedDatabase :=
  (db.index.insert record).map fun t => ⟨t⟩

/-- `IndexedDatabase::search`. -/
def search (db : IndexedDatabase) (key : String) (value : Int) :
    Option (Record × IndexedDatabase) :=
  (db.index.search key value).map fun p => (p.1, ⟨p.2⟩)

/-- `IndexedDatabase::deleteRecord`. -/
def deleteRecord (db : IndexedDatabase) (key : String) (value : Int) :
    Option IndexedDatabase :=
  (db.index.deleteNode key value).map fun t => ⟨t⟩

/-- `IndexedDatabase::rangeQueryHelper`; `result` is the output vector. -/
def rangeQueryHelper (node : AVLNode) (start stop : Int) (result : List Record) :
    List Record :=
  match node with
  | .nil => result
  | .node nrec l r _ =>
    let result := if start ≤ nrec.value then rangeQueryHelper l start stop result else result
    let result := if start ≤ nrec.value ∧ nrec.value ≤ stop then result ++ [nrec] else result
    if nrec.value ≤ stop then rangeQueryHelper r start stop result else result

/-- `IndexedDatabase::rangeQuery`. -/
def rangeQuery (db : IndexedDatabase) (start stop : Int) : List Record :=
  rangeQueryHelper db.index.root start stop []

/-- `IndexedDatabase::calculateHeight`: the height recomputed from the shape. -/
def calculateHeight : AVLNode → Int
  | .nil => 0
  | .node _ l r _ => 1 + max (calculateHeight l) (calculateHeight r)

/-- `IndexedDatabase::getTreeHeight`. -/
def getTreeHeight (db : IndexedDatabase) : Int := calculateHeight db.index.root

/-- `IndexedDatabase::countRecords`. -/
def countRecords (db : IndexedDatabase) : Int := db.index.nodeCount

/-- `IndexedDatabase::clearHelper`: the records released, in the order of
their release (left subtree, right subtree, then the node itself). -/
def clearHelper : AVLNode → List Record
  | .nil => []
  | .node nrec l r _ => clearHelper l ++ clearHelper r ++ [nrec]

/-- `IndexedDatabase::clearDatabase`: every node is released and
`index.root` becomes null; no other member is assigned. -/
def clearDatabase (db : IndexedDatabase) : IndexedDatabase :=
  { db with index := { db.index with root := .nil } }

/-- `IndexedDatabase::getSearchComparisons`: the count read after the search
and the database left by that search. -/
def getSearchComparisons (db : IndexedDatabase) (key : String) (value : Int) :
    Option (Int × IndexedDatabase) :=
  (db.search key value).map fun p => (p.2.index.getLastSearchComparisons, p.2)

end IndexedDatabase

/-- A call made by a client of the index. -/
inductive Op where
  | insert (record : Record) : Op
  | deleteNode (key : String) (value : Int) : Op
deriving DecidableEq

/-- Performing one call on an index. -/
def Op.apply (t : AVLTree) : Op → Option AVLTree
  | .insert record => t.insert record
  | .deleteNode key value => t.deleteNode key value

/-- Performing a sequence of calls, first to last, on an index. -/
def applyOps : List Op → AVLTree → Option AVLTree
  | [], t => some t
  | op :: ops, t => (op.apply t).bind (applyOps ops)

/-- The index reached from the empty index by a sequence of calls. -/
def reach (ops : List Op) : Option AVLTree := applyOps ops AVLTree.empty

/-! ## Insertion with a record pointer that may be null

`AVLTree::insert` takes a `Record*` and never tests it. The embedding above
fixes the pointer to be non-null; the one below keeps `nullptr` (`none`) both
as an argument and as the `record` field of a node, to say what the code does
when it is handed a null record. -/

namespace Nullable

/-- The class `AVLNode`, with a `record` pointer that may be null. -/
inductive AVLNode where
  | nil : AVLNode
  | node (record : Option Record) (left right : AVLNode) (height : Int) : AVLNode
deriving DecidableEq

/-- The class `AVLTree` over such nodes. -/
structure AVLTree where
  root : AVLNode
  nodeCount : Int
  searchComparisonCount : Int
deriving DecidableEq

/-- The constructor `AVLTree::AVLTree()`. -/
def empty : AVLTree := ⟨.nil, 0, 0⟩

/-- `AVLTree::height`. -/
def height : AVLNode → Int
  | .nil => 0
  | .node _ _ _ h => h

/-- `AVLTree::updateHeight`. -/
def updateHeight : AVLNode → AVLNode
  | .nil => .nil
  | .node rec l r _ => .node rec l r (1 + max (height l) (height r))

/-- `AVLTree::getBalance`. -/
def getBalance : AVLNode → Int
  | .nil => 0
  | .node _ l r _ => height l - height r

/-- `AVLTree::rotateRight`. -/
def rotateRight : AVLNode → Option AVLNode
  | .node yrec (.node xrec xl T2 xh) yr yh =>
      let y := updateHeight (.node yrec T2 yr yh)
      some (updateHeight (.node xrec xl y xh))
  | _ => none

/-- `AVLTree::rotateLeft`. -/
def rotateLeft : AVLNode → Option AVLNode
  | .node xrec xl (.node yrec T2 yr yh) xh =>
      let x := updateHeight (.node xrec xl T2 xh)
      some (updateHeight (.node yrec x yr yh))
  | _ => none

/-- Reading `node->record->value`; `none` when `node` or `node->record` is
null. -/
def value? : AVLNode → Option Int
  | .nil => none
  | .node rec _ _ _ => rec.map Record.value

/-- Lines 83-106 of `AVLTree::insertHelper`. -/
def insertRebalance (node : AVLNode) (record : Option Record) : Option AVLNode :=
  match updateHeight node with
  | .nil => none
  | .node nrec l r h =>
    let balance := getBalance (.node nrec l r h)
    let lt (child : AVLNode) : Option Bool :=
      record.bind fun rc => (value? child).map fun cv => decide (rc.value < cv)
    let gt (child : AVLNode) : Option Bool :=
      record.bind fun rc => (value? child).map fun cv => decide (rc.value > cv)
    (AVLTree.andThen (balance > 1) (lt l)).bind fun c1 =>
    if c1 then rotateRight (.node nrec l r h) else
    (AVLTree.andThen (balance < -1) (gt r)).bind fun c2 =>
    if c2 then rotateLeft (.node nrec l r h) else
    (AVLTree.andThen (balance > 1) (gt l)).bind fun c3 =>
    if c3 then (rotateLeft l).bind fun l1 => rotateRight (.node nrec l1 r h) else
    (AVLTree.andThen (balance < -1) (lt r)).bind fun c4 =>
    if c4 then (rotateRight r).bind fun r1 => rotateLeft (.node nrec l r1 h) else
    some (.node nrec l r h)

/-- `AVLTree::insertHelper`. On a null `node` nothing is dereferenced; otherwise
line 76 reads `record->value` and `node->record->value`. -/
def insertHelper (node : AVLNode) (record : Option Record) (nodeCount : Int) :
    Option (AVLNode × Int) :=
  match node with
  | .nil => some (.node record .nil .nil 1, nodeCount + 1)
  | .node nrec l r h =>
    record.bind fun rc =>
    nrec.bind fun nr =>
    if rc.value < nr.value then
      (insertHelper l record nodeCount).bind fun p =>
        (insertRebalance (.node nrec p.1 r h) record).map fun n => (n, p.2)
    else if rc.value > nr.value then
      (insertHelper r record nodeCount).bind fun p =>
        (insertRebalance (.node nrec l p.1 h) record).map fun n => (n, p.2)
    else
      some (.node nrec l r h, nodeCount)

/-- `AVLTree::insert`. -/
def insert (t : AVLTree) (record : Option Record) : Option AVLTree :=
  (insertHelper t.root record t.nodeCount).map fun p =>
    { t with root := p.1, nodeCount := p.2 }

end Nullable

/-- A tree of the first embedding as a tree whose record pointers happen to be
non-null. -/
def embedNullable : AVLNode → Nullable.AVLNode
  | .nil => .nil
  | .node rec l r h => .node (some rec) (embedNullable l) (embedNullable r) h

/-! ## The expression validator of `linked_calc.cpp`

The linked list of `LinkedCalc<T>` is the list of the data of its nodes, head
first, at `T = char`. -/

/-- The class `LinkedCalc<char>`: the node data from `head` on. -/
structure LinkedCalc where
  head : List Char
deriving DecidableEq

namespace LinkedCalc

/-- `LinkedCalc::insert`: a new node at the end of the list. -/
def insert (lc : LinkedCalc) (value : Char) : LinkedCalc := ⟨lc.head ++ [value]⟩

/-- `LinkedCalc::isDigit`. -/
def isDigit (c : Char) : Bool := decide ('0' ≤ c ∧ c ≤ '9')

/-- The operator test of line 72. -/
def isOperator (c : Char) : Bool := c == '+' || c == '-' || c == '/' || c == '*'

/-- The loop of lines 70-89 of `validateExpression` followed by the return of
line 91, on the nodes from `tempNode` on and the two flags. -/
def validateLoop : List Char → Bool → Bool → Bool
  | [], foundDigit, _ => foundDigit
  | c :: rest, foundDigit, foundDecimal =>
    if isOperator c then
      if !foundDigit then false else validateLoop rest false false
    else if isDigit c then validateLoop rest true foundDecimal
    else if c = '.' then
      if foundDecimal then false else validateLoop rest foundDigit true
    else false

/-- `LinkedCalc::validateExpression`. -/
def validateExpression (lc : LinkedCalc) : Bool :=
  match lc.head with
  | [] => false
  | c :: rest => validateLoop (c :: rest) false false

end LinkedCalc

/-! ## The in-memory file system of `Project2/FileSystem.cpp`

A `FileSystemNode` is its name, its kind and the vector of its children. The
`parent` pointer of a node is not stored: `currentDirectory` is kept as the list
of child indices that leads from the root to it, and the parent of the node at
such a path is the node at the path without its last index (the root, at the
empty path, has the null parent). A path that leads nowhere is a dangling
`currentDirectory`. -/

/-- The class `FileSystemNode`. -/
inductive FileSystemNode where
  | mk (name : String) (isDirectory : Bool) (children : List FileSystemNode) : FileSystemNode

namespace FileSystemNode

/-- The member `name`. -/
def name : FileSystemNode → String
  | mk n _ _ => n

/-- The member `isDirectory`. -/
def isDirectory : FileSystemNode → Bool
  | mk _ d _ => d

/-- The member `children`. -/
def children : FileSystemNode → List FileSystemNode
  | mk _ _ ch => ch

/-- The node reached from `node` along a list of child indices. -/
def descend : FileSystemNode → List Nat → Option FileSystemNode
  | node, [] => some node
  | node, i :: path =>
    match node.children[i]? with
    | some child => descend child path
    | none => none

/-- The tree in which the node reached along `path` is replaced by its image
under `f`. -/
def updateAt : FileSystemNode → List Nat → (FileSystemNode → FileSystemNode) → FileSystemNode
  | node, [], f => f node
  | node, i :: path, f =>
    match node.children[i]? with
    | some child => mk node.name node.isDirectory (node.children.set i (updateAt child path f))
    | none => node

/-- The names of the nodes passed along `path`, the start node excluded. -/
def namesAlong : FileSystemNode → List Nat → Option (List String)
  | _, [] => some []
  | node, i :: path =>
    match node.children[i]? with
    | some child => (namesAlong child path).map (child.name :: ·)
    | none => none

/-- `children.push_back(child)` on a node. -/
def pushChild (child : FileSystemNode) (node : FileSystemNode) : FileSystemNode :=
  mk node.name node.isDirectory (node.children ++ [child])

/-- Index of the first element satisfying `p`. -/
def firstIndex (p : FileSystemNode → Bool) : List FileSystemNode → Option Nat
  | [] => none
  | x :: xs => if p x then some 0 else (firstIndex p xs).map (· + 1)

/-- The list without its first element satisfying `p`. -/
def eraseFirst (p : FileSystemNode → Bool) : List FileSystemNode → List FileSystemNode
  | [] => []
  | x :: xs => if p x then xs else x :: eraseFirst p xs

end FileSystemNode

/-- The class `FileSystem`: the root node and `currentDirectory` as a path from
the root. -/
structure FileSystem where
  root : FileSystemNode
  currentDirectory : List Nat

/-- How a call on a `FileSystem` ends: normally, with a `std::runtime_error`
thrown, or by dereferencing a dangling `currentDirectory`. The first two carry
the state the call leaves behind. -/
inductive Outcome where
  | ok (fs : FileSystem) : Outcome
  | raised (fs : FileSystem) (what : String) : Outcome
  | undefined : Outcome

namespace FileSystem

/-- The constructor `FileSystem::FileSystem()`. -/
def fresh : FileSystem := ⟨.mk "/" true [], []⟩

/-- The node `currentDirectory` points to. -/
def current? (fs : FileSystem) : Option FileSystemNode :=
  fs.root.descend fs.currentDirectory

/-- `FileSystem::mkdir`. -/
def mkdir (fs : FileSystem) (name : String) : Outcome :=
  match fs.current? with
  | none => .undefined
  | some cur =>
    if cur.children.any (fun child => child.name == name && child.isDirectory) then
      .raised fs "File already exists"
    else
      .ok { fs with
        root := fs.root.updateAt fs.currentDirectory (FileSystemNode.pushChild (.mk name true [])) }

/-- `FileSystem::touch`. -/
def touch (fs : FileSystem) (name : String) : Outcome :=
  match fs.current? with
  | none => .undefined
  | some cur =>
    if cur.children.any (fun child => child.name == name && !child.isDirectory) then
      .raised fs "File already exists"
    else
      .ok { fs with
        root := fs.root.updateAt fs.currentDirectory (FileSystemNode.pushChild (.mk name false [])) }

/-- `FileSystem::ls`. -/
def ls (fs : FileSystem) : Option String :=
  fs.current?.map fun cur =>
    String.join (cur.children.map fun child =>
      child.name ++ (if child.isDirectory then "/" else "") ++ "\n")

/-- `FileSystem::cd`. -/
def cd (fs : FileSystem) (path : String) : Outcome :=
  if path = "/" then .ok { fs with currentDirectory := [] }
  else
    match fs.current? with
    | none => .undefined
    | some cur =>
      if path = ".." then
        .ok { fs with currentDirectory := fs.currentDirectory.dropLast }
      else
        match FileSystemNode.firstIndex (fun child => child.name == path && child.isDirectory)
            cur.children with
        | some i => .ok { fs with currentDirectory := fs.currentDirectory ++ [i] }
        | none => .raised fs "Directory not found"

/-- `FileSystem::rm`. -/
def rm (fs : FileSystem) (name : String) : Outcome :=
  match fs.current? with
  | none => .undefined
  | some cur =>
    if cur.children.any (fun child => child.name == name) then
      .ok { fs with
        root := fs.root.updateAt fs.currentDirectory fun node =>
          .mk node.name node.isDirectory
            (FileSystemNode.eraseFirst (fun child => child.name == name) node.children) }
    else
      .raised fs "File or directory not found"

/-- `FileSystem::pwd`. -/
def pwd (fs : FileSystem) : Option String :=
  if fs.currentDirectory = [] then some "/"
  else
    (fs.root.namesAlong fs.currentDirectory).map fun names =>
      names.foldr (fun nm path => "/" ++ nm ++ path) "" ++ "/"

end FileSystem

/-! ## Specification-level definitions

Ghost predicates and functions used to state the contracts; none of them is
part of the C++ code. -/

namespace AVLNode
open AVLTree IndexedDatabase

/-- Cached heights are exact and sibling heights differ by at most one, at
every node. -/
def avl : AVLNode → Prop
  | .nil => True
  | .node _ l r h =>
      h = 1 + max (height l) (height r) ∧ height l - height r ≤ 1 ∧ height r - height l ≤ 1 ∧
        avl l ∧ avl r

instance decAvl : (t : AVLNode) → Decidable (avl t)
  | .nil => isTrue trivial
  | .node _ l r h =>
    have := decAvl l
    have := decAvl r
    inferInstanceAs (Decidable (h = 1 + max (height l) (height r) ∧ height l - height r ≤ 1 ∧
      height r - height l ≤ 1 ∧ avl l ∧ avl r))

/-- The subtree `t` is a node into whose strictly higher side the key of `e`
falls. -/
def grew (e : Record) (t : AVLNode) : Prop :=
  ∃ x l r h, t = .node x l r h ∧
    ((e.value < x.value ∧ height l = height r + 1) ∨
     (x.value < e.value ∧ height r = height l + 1))

/-- The balance condition on true subtree heights, at every node. -/
def balanced : AVLNode → Prop
  | .nil => True
  | .node _ l r _ => |calculateHeight l - calculateHeight r| ≤ 1 ∧ balanced l ∧ balanced r

/-- The ordering condition at every node: keys on the left are smaller, keys
on the right are larger. -/
def ordered : AVLNode → Prop
  | .nil => True
  | .node x l r _ =>
      (∀ a ∈ inorder l, a.value < x.value) ∧ (∀ b ∈ inorder r, x.value < b.value) ∧
        ordered l ∧ ordered r

instance decBalanced : (t : AVLNode) → Decidable (balanced t)
  | .nil => isTrue trivial
  | .node _ l r _ =>
    have := decBalanced l
    have := decBalanced r
    inferInstanceAs (Decidable (|calculateHeight l - calculateHeight r| ≤ 1 ∧ balanced l ∧
      balanced r))

instance decOrdered : (t : AVLNode) → Decidable (ordered t)
  | .nil => isTrue trivial
  | .node x l r _ =>
    have := decOrdered l
    have := decOrdered r
    inferInstanceAs (Decidable ((∀ a ∈ inorder l, a.value < x.value) ∧
      (∀ b ∈ inorder r, x.value < b.value) ∧ ordered l ∧ ordered r))

end AVLNode

/-- Strictly ascending ordering keys along a list of records. -/
def sortedKeys (L : List Record) : Prop := L.Pairwise fun a b => a.value < b.value

/-- Whether some record of the list has ordering key `v`. -/
def hasKey (v : Int) (L : List Record) : Prop := ∃ a ∈ L, a.value = v

/-- Insertion of a record into a key-sorted list, dropped when its ordering
key is already there. -/
def insertList (e : Record) : List Record → List Record
  | [] => [e]
  | x :: xs =>
    if e.value < x.value then e :: x :: xs
    else if x.value < e.value then x :: insertList e xs
    else x :: xs

instance : DecidablePred sortedKeys :=
  fun L => inferInstanceAs (Decidable (L.Pairwise fun (a b : Record) => a.value < b.value))

instance (v : Int) : DecidablePred (hasKey v) :=
  fun L => inferInstanceAs (Decidable (∃ a ∈ L, a.value = v))

/-- What holds of every index reached from the empty one: exact cached heights
and balance, ascending keys, and a node count equal to the number of nodes. -/
structure IndexInv (t : AVLTree) : Prop where
  avl : AVLNode.avl t.root
  sorted : sortedKeys (AVLNode.inorder t.root)
  count : t.nodeCount = (AVLNode.inorder t.root).length

/-- Performing a sequence of calls while counting the inserts after which the
tree has more nodes than before (second component) and the deletes after
which it has fewer (third component). -/
def tally : List Op → AVLTree → Option (AVLTree × Nat × Nat)
  | [], t => some (t, 0, 0)
  | op :: ops, t =>
    (op.apply t).bind fun t' =>
      (tally ops t').map fun res =>
        match op with
        | .insert _ =>
            (res.1, res.2.1 + (if t.root.size < t'.root.size then 1 else 0), res.2.2)
        | .deleteNode _ _ =>
            (res.1, res.2.1, res.2.2 + (if t'.root.size < t.root.size then 1 else 0))

/-- The calls of the first test group of `db_driver.cpp`. -/
def driverOps : List Op :=
  [.insert ⟨"1984", 40⟩, .insert ⟨"Pride and Prejudice", 20⟩, .insert ⟨"War and Peace", 70⟩,
   .insert ⟨"The Great Gatsby", 10⟩, .insert ⟨"To Kill a Mockingbird", 50⟩]

/-- The index built by `driverOps`. -/
def driverTree : AVLTree :=
  ⟨.node ⟨"1984", 40⟩
      (.node ⟨"Pride and Prejudice", 20⟩ (.node ⟨"The Great Gatsby", 10⟩ .nil .nil 1) .nil 2)
      (.node ⟨"War and Peace", 70⟩ (.node ⟨"To Kill a Mockingbird", 50⟩ .nil .nil 1) .nil 2)
      3, 5, 0⟩

namespace AVLNode
open AVLTree IndexedDatabase

/-- The cached height of every node is one more than the larger cached height
of its children. -/
def heightOK : AVLNode → Prop
  | .nil => True
  | .node _ l r h => h = 1 + max (height l) (height r) ∧ heightOK l ∧ heightOK r

instance decHeightOK : (t : AVLNode) → Decidable (heightOK t)
  | .nil => isTrue trivial
  | .node _ l r h =>
    have := decHeightOK l
    have := decHeightOK r
    inferInstanceAs (Decidable (h = 1 + max (height l) (height r) ∧ heightOK l ∧ heightOK r))

/-- Depth of the node holding record `e` (the root has depth 0); `none` when no
node holds it. -/
def depth? (e : Record) : AVLNode → Option Nat
  | .nil => none
  | .node x l r _ =>
    if x = e then some 0
    else match depth? e l with
      | some d => some (d + 1)
      | none => (depth? e r).map (· + 1)

end AVLNode

/-- The least number of nodes of a tree of height `h` whose sibling heights
differ by at most one. -/
def minNodes : Nat → Nat
  | 0 => 0
  | 1 => 1
  | h + 2 => minNodes (h + 1) + minNodes h + 1

/-- Seven records with distinct keys whose insertion, in this order, needs no
rotation and builds a tree of height 4. -/
def sparseRecords : List Record :=
  [⟨"e", 50⟩, ⟨"c", 30⟩, ⟨"g", 70⟩, ⟨"b", 20⟩, ⟨"d", 40⟩, ⟨"f", 60⟩, ⟨"a", 10⟩]

/-- The index built by inserting `sparseRecords`. -/
def sparseTree : AVLTree :=
  ⟨.node ⟨"e", 50⟩
      (.node ⟨"c", 30⟩
        (.node ⟨"b", 20⟩ (.node ⟨"a", 10⟩ .nil .nil 1) .nil 2)
        (.node ⟨"d", 40⟩ .nil .nil 1) 3)
      (.node ⟨"g", 70⟩ (.node ⟨"f", 60⟩ .nil .nil 1) .nil 2)
      4, 7, 0⟩

namespace AVLNode
open AVLTree IndexedDatabase

/-- Number of nodes of the tree that `searchHelper` visits on its way down. -/
def visitedNodes : AVLNode → String → Int → Nat
  | .nil, _, _ => 0
  | .node x l r _, key, value =>
    if value = x.value ∧ key = x.key then 1
    else if value < x.value then 1 + visitedNodes l key value
    else 1 + visitedNodes r key value

/-- Whether the descent of `deleteHelper` reaches a node with the given
ordering key and another label, where it takes the branch of line 125. -/
def takesMismatchBranch : AVLNode → String → Int → Bool
  | .nil, _, _ => false
  | .node x l r _, key, value =>
    if value < x.value then takesMismatchBranch l key value
    else if value > x.value then takesMismatchBranch r key value
    else decide (key ≠ x.key)

/-- The nodes handed to lines 83-106 of `insertHelper` during one insertion,
the deepest first: each ancestor of the insertion point with its child already
relinked to the subtree returned by the recursive call (which does not depend
on the node count passed along, here 0). -/
def rebalanceCalls : AVLNode → Record → List AVLNode
  | .nil, _ => []
  | .node nrec l r h, record =>
    if record.value < nrec.value then
      match insertHelper l record 0 with
      | some p => rebalanceCalls l record ++ [.node nrec p.1 r h]
      | none => rebalanceCalls l record
    else if record.value > nrec.value then
      match insertHelper r record 0 with
      | some p => rebalanceCalls r record ++ [.node nrec l p.1 h]
      | none => rebalanceCalls r record
    else []

/-- The Left Left condition of line 90. -/
def leftLeft (n : AVLNode) (e : Record) : Bool :=
  match n with
  | .node _ (.node lrec _ _ _) _ _ => decide (getBalance n > 1 ∧ e.value < lrec.value)
  | _ => false

/-- The Right Right condition of line 93. -/
def rightRight (n : AVLNode) (e : Record) : Bool :=
  match n with
  | .node _ _ (.node rrec _ _ _) _ => decide (getBalance n < -1 ∧ e.value > rrec.value)
  | _ => false

/-- The Left Right condition of line 96. -/
def leftRight (n : AVLNode) (e : Record) : Bool :=
  match n with
  | .node _ (.node lrec _ _ _) _ _ => decide (getBalance n > 1 ∧ e.value > lrec.value)
  | _ => false

/-- The Right Left condition of line 101. -/
def rightLeft (n : AVLNode) (e : Record) : Bool :=
  match n with
  | .node _ _ (.node rrec _ _ _) _ => decide (getBalance n < -1 ∧ e.value < rrec.value)
  | _ => false

/-- What `insertHelper` guarantees of a node it hands to its rebalancing
lines: both subtrees satisfy the AVL invariant, their heights differ by at most
two, and a difference of two comes from the insertion into the higher side. -/
def RebalanceInput (e : Record) (n : AVLNode) : Prop :=
  ∃ x l r h0, n = .node x l r h0 ∧ avl l ∧ avl r ∧
    height l - height r ≤ 2 ∧ height r - height l ≤ 2 ∧
    (height l - height r = 2 → grew e l) ∧ (height r - height l = 2 → grew e r)

end AVLNode

namespace LinkedCalc

/-- A number in the sense of the validator's contract: only digits and `.`, at
least one digit, at most one `.`. -/
def IsNumber (n : List Char) : Prop :=
  (∀ c ∈ n, isDigit c = true ∨ c = '.') ∧ (∃ c ∈ n, isDigit c = true) ∧ n.count '.' ≤ 1

/-- A non-empty sequence of numbers separated by single operator characters. -/
inductive WellFormed : List Char → Prop
  | single (n : List Char) : IsNumber n → WellFormed n
  | cons (n : List Char) (op : Char) (rest : List Char) :
      IsNumber n → isOperator op = true → WellFormed rest → WellFormed (n ++ op :: rest)

/-- What may follow when the number being read already has a digit
(`foundDigit`) or a `.` (`foundDecimal`): the rest `n` of that number. -/
def PartialNumber (foundDigit foundDecimal : Bool) (n : List Char) : Prop :=
  (∀ c ∈ n, isDigit c = true ∨ c = '.') ∧ (foundDigit = true ∨ ∃ c ∈ n, isDigit c = true) ∧
    n.count '.' + (if foundDecimal then 1 else 0) ≤ 1

/-- The lists accepted from a given state of the two flags: the rest of the
current number, then nothing or an operator and a well-formed expression. -/
def Accepted (foundDigit foundDecimal : Bool) (cs : List Char) : Prop :=
  ∃ n, PartialNumber foundDigit foundDecimal n ∧
    (cs = n ∨ ∃ op rest, isOperator op = true ∧ WellFormed rest ∧ cs = n ++ op :: rest)

end LinkedCalc

namespace FileSystem

/-- The state `fs'` is `fs` with `new` appended to the children of the current
directory `cur` and nothing else changed: same current directory, whose node
keeps its name and kind; the same subtree at every path that neither leads to
the current directory nor passes through it; the same name, kind and number of
children at every node above the current directory. -/
def Added (fs fs' : FileSystem) (cur new : FileSystemNode) : Prop :=
  fs'.currentDirectory = fs.currentDirectory ∧
  fs'.current? = some (.mk cur.name cur.isDirectory (cur.children ++ [new])) ∧
  (∀ q, ¬ fs.currentDirectory <+: q → ¬ q <+: fs.currentDirectory →
    fs'.root.descend q = fs.root.descend q) ∧
  (∀ q node, q <+: fs.currentDirectory → q ≠ fs.currentDirectory →
    fs.root.descend q = some node →
    ∃ node', fs'.root.descend q = some node' ∧ node'.name = node.name ∧
      node'.isDirectory = node.isDirectory ∧ node'.children.length = node.children.length)

end FileSystem

/-- The state a call leaves behind, whether it returned or raised; `none` when
it dereferenced a dangling `currentDirectory`. -/
def Outcome.state? : Outcome → Option FileSystem
  | .ok fs => some fs
  | .raised fs _ => some fs
  | .undefined => none

namespace FileSystem

/-- A call made by a client of the file system. -/
inductive Call where
  | mkdir (name : String) : Call
  | touch (name : String) : Call
  | cd (path : String) : Call
  | rm (name : String) : Call

/-- Performing one call on a file system. -/
def Call.apply (fs : FileSystem) : Call → Outcome
  | .mkdir name => fs.mkdir name
  | .touch name => fs.touch name
  | .cd path => fs.cd path
  | .rm name => fs.rm name

/-- Performing a sequence of calls, first to last, by a client that catches
every exception and goes on with the state the raising call left behind. -/
def runCalls : List Call → FileSystem → Option FileSystem
  | [], fs => some fs
  | c :: cs, fs => (c.apply fs).state?.bind (runCalls cs)

/-- Every step of the path kept in `currentDirectory` leads to a node of the
tree under the root, and every node on it, from the root to the current
directory, is a directory. -/
def DirectoryPath (fs : FileSystem) : Prop :=
  ∀ q, q <+: fs.currentDirectory → ∃ nd, fs.root.descend q = some nd ∧ nd.isDirectory = true

end FileSystem

/-! # Verification -/

/-! ## Elementary facts about the helpers -/

namespace AVLTree

@[simp] theorem height_nil : height .nil = 0 := rfl

@[simp] theorem height_node (x : Record) (l r : AVLNode) (h : Int) :
    height (.node x l r h) = h := rfl

@[simp] theorem updateHeight_node (x : Record) (l r : AVLNode) (h : Int) :
    updateHeight (.node x l r h) = .node x l r (1 + max (height l) (height r)) := rfl

@[simp] theorem getBalance_nil : getBalance .nil = 0 := rfl

@[simp] theorem getBalance_node (x : Record) (l r : AVLNode) (h : Int) :
    getBalance (.node x l r h) = height l - height r := rfl

theorem rotateRight_node (y x : Record) (a b c : AVLNode) (hx hy : Int) :
    rotateRight (.node y (.node x a b hx) c hy) =
      some (.node x a (.node y b c (1 + max (height b) (height c)))
        (1 + max (height a) (1 + max (height b) (height c)))) := rfl

theorem rotateLeft_node (x y : Record) (a b c : AVLNode) (hx hy : Int) :
    rotateLeft (.node x a (.node y b c hy) hx) =
      some (.node y (.node x a b (1 + max (height a) (height b))) c
        (1 + max (1 + max (height a) (height b)) (height c))) := rfl

@[simp] theorem andThen_false (b : Option Bool) : andThen false b = some false := rfl

@[simp] theorem andThen_true (b : Option Bool) : andThen true b = b := rfl

end AVLTree

namespace AVLNode

@[simp] theorem record?_node (x : Record) (l r : AVLNode) (h : Int) :
    record? (.node x l r h) = some x := rfl

@[simp] theorem record?_nil : record? .nil = none := rfl

@[simp] theorem inorder_nil : inorder .nil = [] := rfl

@[simp] theorem inorder_node (x : Record) (l r : AVLNode) (h : Int) :
    inorder (.node x l r h) = inorder l ++ x :: inorder r := rfl

end AVLNode

/-! ## The AVL invariant on cached heights -/

namespace AVLNode
open AVLTree IndexedDatabase

@[simp] theorem avl_nil : avl .nil := trivial

theorem avl_node (x : Record) (l r : AVLNode) (h : Int) :
    avl (.node x l r h) ↔
      h = 1 + max (height l) (height r) ∧ height l - height r ≤ 1 ∧ height r - height l ≤ 1 ∧
        avl l ∧ avl r := Iff.rfl

theorem avl_height_nonneg : ∀ t : AVLNode, avl t → 0 ≤ height t
  | .nil, _ => by simp
  | .node _ l r h, ht => by
      obtain ⟨h1, -, -, hl, hr⟩ := ht
      have := avl_height_nonneg l hl
      have := avl_height_nonneg r hr
      simp only [height_node]
      omega

theorem avl_height_pos_node (x : Record) (l r : AVLNode) (h : Int)
    (ht : avl (.node x l r h)) : 1 ≤ h := by
  obtain ⟨h1, -, -, hl, hr⟩ := ht
  have := avl_height_nonneg l hl
  have := avl_height_nonneg r hr
  omega

theorem avl_exists_node (t : AVLNode) (ht : avl t) (hpos : 1 ≤ height t) :
    ∃ x l r h, t = .node x l r h := by
  cases t with
  | nil => simp at hpos
  | node x l r h => exact ⟨x, l, r, h, rfl⟩

theorem insertRebalance_spec (x : Record) (l r : AVLNode) (h0 : Int) (e : Record)
    (hl : avl l) (hr : avl r)
    (hb1 : height l - height r ≤ 2) (hb2 : height r - height l ≤ 2)
    (hgl : height l - height r = 2 → grew e l)
    (hgr : height r - height l = 2 → grew e r) :
    ∃ t, insertRebalance (.node x l r h0) e = some t ∧ avl t ∧
      (height l - height r ≤ 1 → height r - height l ≤ 1 →
        t = .node x l r (1 + max (height l) (height r))) ∧
      (height l - height r = 2 → height t = height l) ∧
      (height r - height l = 2 → height t = height r) := by
  have hnl := avl_height_nonneg l hl
  have hnr := avl_height_nonneg r hr
  by_cases c1 : height l - height r = 2
  · obtain ⟨lx, ll, lr, lh, rfl, hcase⟩ := hgl c1
    obtain ⟨hlh, hl1, hl2, hll, hlr⟩ := hl
    have hnll := avl_height_nonneg ll hll
    have hnlr := avl_height_nonneg lr hlr
    simp only [height_node] at c1 hb1 hb2 hnl
    have hbal : (1:Int) < lh - height r := by omega
    have hbal2 : ¬ (lh - height r < -1) := by omega
    rcases hcase with ⟨hlt, hh⟩ | ⟨hgt, hh⟩
    · refine ⟨.node lx ll (.node x lr r (1 + max (height lr) (height r)))
        (1 + max (height ll) (1 + max (height lr) (height r))), ?_, ?_, ?_, ?_, ?_⟩
      · simp [insertRebalance, hbal, hlt, rotateRight_node]
      · rw [avl_node, avl_node]
        refine ⟨rfl, ?_, ?_, hll, rfl, ?_, ?_, hlr, hr⟩ <;>
          (try simp only [height_node]) <;> omega
      · intro h; simp only [height_node] at h; omega
      · intro _; simp only [height_node]; omega
      · intro h; simp only [height_node] at h; omega
    · obtain ⟨y, a, b, hy, rfl⟩ := avl_exists_node lr hlr (by omega)
      obtain ⟨hyh, hy1, hy2, ha, hb⟩ := hlr
      have hna := avl_height_nonneg a ha
      have hnb := avl_height_nonneg b hb
      simp only [height_node] at hh hl1 hl2 hlh hnlr
      have hnlt : ¬ (e.value < lx.value) := by omega
      refine ⟨.node y (.node lx ll a (1 + max (height ll) (height a)))
        (.node x b r (1 + max (height b) (height r)))
        (1 + max (1 + max (height ll) (height a)) (1 + max (height b) (height r))),
        ?_, ?_, ?_, ?_, ?_⟩
      · simp [insertRebalance, hbal, hbal2, hnlt, hgt, rotateRight_node, rotateLeft_node]
      · rw [avl_node, avl_node, avl_node]
        refine ⟨rfl, ?_, ?_, ⟨rfl, ?_, ?_, hll, ha⟩, rfl, ?_, ?_, hb, hr⟩ <;>
          (try simp only [height_node]) <;> omega
      · intro h; simp only [height_node] at h; omega
      · intro _; simp only [height_node]; omega
      · intro h; simp only [height_node] at h; omega
  by_cases c2 : height r - height l = 2
  · obtain ⟨rx, rl, rr, rh, rfl, hcase⟩ := hgr c2
    obtain ⟨hrh, hr1, hr2, hrl, hrr⟩ := hr
    have hnrl := avl_height_nonneg rl hrl
    have hnrr := avl_height_nonneg rr hrr
    simp only [height_node] at c2 hb1 hb2 hnr
    have hbal : ¬ ((1:Int) < height l - rh) := by omega
    have hbal2 : height l - rh < -1 := by omega
    rcases hcase with ⟨hlt, hh⟩ | ⟨hgt, hh⟩
    · obtain ⟨y, a, b, hy, rfl⟩ := avl_exists_node rl hrl (by omega)
      obtain ⟨hyh, hy1, hy2, ha, hb⟩ := hrl
      have hna := avl_height_nonneg a ha
      have hnb := avl_height_nonneg b hb
      simp only [height_node] at hh hr1 hr2 hrh hnrl
      have hngt : ¬ (rx.value < e.value) := by omega
      refine ⟨.node y (.node x l a (1 + max (height l) (height a)))
        (.node rx b rr (1 + max (height b) (height rr)))
        (1 + max (1 + max (height l) (height a)) (1 + max (height b) (height rr))),
        ?_, ?_, ?_, ?_, ?_⟩
      · simp [insertRebalance, hbal, hbal2, hngt, hlt, rotateRight_node, rotateLeft_node]
      · rw [avl_node, avl_node, avl_node]
        refine ⟨rfl, ?_, ?_, ⟨rfl, ?_, ?_, hl, ha⟩, rfl, ?_, ?_, hb, hrr⟩ <;>
          (try simp only [height_node]) <;> omega
      · intro _ h; simp only [height_node] at h; omega
      · intro h; simp only [height_node] at h; omega
      · intro _; simp only [height_node]; omega
    · refine ⟨.node rx (.node x l rl (1 + max (height l) (height rl))) rr
        (1 + max (1 + max (height l) (height rl)) (height rr)), ?_, ?_, ?_, ?_, ?_⟩
      · simp [insertRebalance, hbal, hbal2, hgt, rotateLeft_node]
      · rw [avl_node, avl_node]
        refine ⟨rfl, ?_, ?_, ⟨rfl, ?_, ?_, hl, hrl⟩, hrr⟩ <;>
          (try simp only [height_node]) <;> omega
      · intro _ h; simp only [height_node] at h; omega
      · intro h; simp only [height_node] at h; omega
      · intro _; simp only [height_node]; omega
  · have hbal : ¬ ((1:Int) < height l - height r) := by omega
    have hbal2 : ¬ (height l - height r < -1) := by omega
    refine ⟨.node x l r (1 + max (height l) (height r)), ?_, ?_, ?_, ?_, ?_⟩
    · simp [insertRebalance, hbal, hbal2]
    · rw [avl_node]
      refine ⟨rfl, ?_, ?_, hl, hr⟩ <;> omega
    · intro _ _; rfl
    · intro h; omega
    · intro h; omega

/-- Balance part of the correctness of `insertHelper`: on an AVL tree it
returns an AVL tree whose height is the old one or one more, and in the latter
case the key went into the strictly higher side of the new root. -/
theorem insertHelper_avl (e : Record) :
    ∀ (t : AVLNode) (c : Int), avl t →
      ∃ t' c', insertHelper t e c = some (t', c') ∧ avl t' ∧
        (height t' = height t ∨ (height t' = height t + 1 ∧ (t = .nil ∨ grew e t')))
  | .nil, c, _ => by
      refine ⟨mk1 e, c + 1, rfl, ?_, Or.inr ⟨rfl, Or.inl rfl⟩⟩
      simp [mk1, avl_node]
  | .node x l r h, c, ht => by
      obtain ⟨hh, hb1, hb2, hl, hr⟩ := ht
      have hnl := avl_height_nonneg l hl
      have hnr := avl_height_nonneg r hr
      by_cases hlt : e.value < x.value
      · obtain ⟨l', c', hins, hl', hgrow⟩ := insertHelper_avl e l c hl
        obtain ⟨t, hreb, htavl, hsame, hrotL, hrotR⟩ :=
          insertRebalance_spec x l' r h e hl' hr (by omega) (by omega)
            (by
              intro h2
              rcases hgrow with h3 | ⟨h3, h4 | h4⟩
              · omega
              · subst h4; simp only [height_nil] at h3; omega
              · exact h4)
            (by intro h2; omega)
        refine ⟨t, c', ?_, htavl, ?_⟩
        · simp [insertHelper, hlt, hins, hreb]
        · simp only [height_node]
          by_cases hbig : height l' - height r = 2
          · left; rw [hrotL hbig]; omega
          · have ht := hsame (by omega) (by omega)
            subst ht
            simp only [height_node]
            rcases hgrow with h3 | ⟨h3, -⟩
            · left; omega
            · by_cases hle : height l + 1 ≤ height r
              · left; omega
              · right
                refine ⟨by omega, Or.inr ⟨x, l', r, _, rfl, Or.inl ⟨hlt, by omega⟩⟩⟩
      · by_cases hgt : x.value < e.value
        · obtain ⟨r', c', hins, hr', hgrow⟩ := insertHelper_avl e r c hr
          obtain ⟨t, hreb, htavl, hsame, hrotL, hrotR⟩ :=
            insertRebalance_spec x l r' h e hl hr' (by omega) (by omega)
              (by intro h2; omega)
              (by
                intro h2
                rcases hgrow with h3 | ⟨h3, h4 | h4⟩
                · omega
                · subst h4; simp only [height_nil] at h3; omega
                · exact h4)
          refine ⟨t, c', ?_, htavl, ?_⟩
          · simp [insertHelper, hlt, hgt, hins, hreb]
          · simp only [height_node]
            by_cases hbig : height r' - height l = 2
            · left; rw [hrotR hbig]; omega
            · have ht := hsame (by omega) (by omega)
              subst ht
              simp only [height_node]
              rcases hgrow with h3 | ⟨h3, -⟩
              · left; omega
              · by_cases hle : height r + 1 ≤ height l
                · left; omega
                · right
                  refine ⟨by omega, Or.inr ⟨x, l, r', _, rfl, Or.inr ⟨hgt, by omega⟩⟩⟩
        · refine ⟨.node x l r h, c, ?_, ⟨hh, hb1, hb2, hl, hr⟩, Or.inl rfl⟩
          simp [insertHelper, hlt, hgt]

end AVLNode

/-! ## Deletion keeps the AVL invariant -/

namespace AVLNode
open AVLTree IndexedDatabase

theorem deleteRebalance_nil : deleteRebalance .nil = some .nil := rfl

theorem deleteRebalance_spec (x : Record) (l r : AVLNode) (h0 : Int)
    (hl : avl l) (hr : avl r)
    (hb1 : height l - height r ≤ 2) (hb2 : height r - height l ≤ 2) :
    ∃ t, deleteRebalance (.node x l r h0) = some t ∧ avl t ∧
      (height l - height r ≤ 1 → height r - height l ≤ 1 →
        t = .node x l r (1 + max (height l) (height r))) ∧
      (height l - height r = 2 → height t = height l ∨ height t = height l + 1) ∧
      (height r - height l = 2 → height t = height r ∨ height t = height r + 1) := by
  have hnl := avl_height_nonneg l hl
  have hnr := avl_height_nonneg r hr
  by_cases c1 : height l - height r = 2
  · obtain ⟨lx, ll, lr, lh, rfl⟩ := avl_exists_node l hl (by omega)
    obtain ⟨hlh, hl1, hl2, hll, hlr⟩ := hl
    have hnll := avl_height_nonneg ll hll
    have hnlr := avl_height_nonneg lr hlr
    simp only [height_node] at c1 hb1 hb2 hnl
    have hbal : (1:Int) < lh - height r := by omega
    by_cases hcase : 0 ≤ height ll - height lr
    · refine ⟨.node lx ll (.node x lr r (1 + max (height lr) (height r)))
        (1 + max (height ll) (1 + max (height lr) (height r))), ?_, ?_, ?_, ?_, ?_⟩
      · simp [deleteRebalance, hbal, hcase, rotateRight_node]
      · rw [avl_node, avl_node]
        refine ⟨rfl, ?_, ?_, hll, rfl, ?_, ?_, hlr, hr⟩ <;>
          (try simp only [height_node]) <;> omega
      · intro h; simp only [height_node] at h; omega
      · intro _; simp only [height_node]; omega
      · intro h; simp only [height_node] at h; omega
    · obtain ⟨y, a, b, hy, rfl⟩ := avl_exists_node lr hlr (by omega)
      obtain ⟨hyh, hy1, hy2, ha, hb⟩ := hlr
      have hna := avl_height_nonneg a ha
      have hnb := avl_height_nonneg b hb
      simp only [height_node] at hcase hl1 hl2 hlh hnlr
      have hcase2 : height ll - hy < 0 := by omega
      refine ⟨.node y (.node lx ll a (1 + max (height ll) (height a)))
        (.node x b r (1 + max (height b) (height r)))
        (1 + max (1 + max (height ll) (height a)) (1 + max (height b) (height r))),
        ?_, ?_, ?_, ?_, ?_⟩
      · simp [deleteRebalance, hbal, hcase, hcase2, rotateRight_node, rotateLeft_node]
      · rw [avl_node, avl_node, avl_node]
        refine ⟨rfl, ?_, ?_, ⟨rfl, ?_, ?_, hll, ha⟩, rfl, ?_, ?_, hb, hr⟩ <;>
          (try simp only [height_node]) <;> omega
      · intro h; simp only [height_node] at h; omega
      · intro _; simp only [height_node]; omega
      · intro h; simp only [height_node] at h; omega
  by_cases c2 : height r - height l = 2
  · obtain ⟨rx, rl, rr, rh, rfl⟩ := avl_exists_node r hr (by omega)
    obtain ⟨hrh, hr1, hr2, hrl, hrr⟩ := hr
    have hnrl := avl_height_nonneg rl hrl
    have hnrr := avl_height_nonneg rr hrr
    simp only [height_node] at c2 hb1 hb2 hnr
    have hbal : ¬ ((1:Int) < height l - rh) := by omega
    have hbal2 : height l - rh < -1 := by omega
    by_cases hcase : height rl - height rr ≤ 0
    · refine ⟨.node rx (.node x l rl (1 + max (height l) (height rl))) rr
        (1 + max (1 + max (height l) (height rl)) (height rr)), ?_, ?_, ?_, ?_, ?_⟩
      · simp [deleteRebalance, hbal, hbal2, hcase, rotateLeft_node]
      · rw [avl_node, avl_node]
        refine ⟨rfl, ?_, ?_, ⟨rfl, ?_, ?_, hl, hrl⟩, hrr⟩ <;>
          (try simp only [height_node]) <;> omega
      · intro _ h; simp only [height_node] at h; omega
      · intro h; simp only [height_node] at h; omega
      · intro _; simp only [height_node]; omega
    · obtain ⟨y, a, b, hy, rfl⟩ := avl_exists_node rl hrl (by omega)
      obtain ⟨hyh, hy1, hy2, ha, hb⟩ := hrl
      have hna := avl_height_nonneg a ha
      have hnb := avl_height_nonneg b hb
      simp only [height_node] at hcase hr1 hr2 hrh hnrl
      have hcase2 : 0 < hy - height rr := by omega
      refine ⟨.node y (.node x l a (1 + max (height l) (height a)))
        (.node rx b rr (1 + max (height b) (height rr)))
        (1 + max (1 + max (height l) (height a)) (1 + max (height b) (height rr))),
        ?_, ?_, ?_, ?_, ?_⟩
      · simp [deleteRebalance, hbal, hbal2, hcase, hcase2, rotateRight_node, rotateLeft_node]
      · rw [avl_node, avl_node, avl_node]
        refine ⟨rfl, ?_, ?_, ⟨rfl, ?_, ?_, hl, ha⟩, rfl, ?_, ?_, hb, hrr⟩ <;>
          (try simp only [height_node]) <;> omega
      · intro _ h; simp only [height_node] at h; omega
      · intro h; simp only [height_node] at h; omega
      · intro _; simp only [height_node]; omega
  · have hbal : ¬ ((1:Int) < height l - height r) := by omega
    have hbal2 : ¬ (height l - height r < -1) := by omega
    refine ⟨.node x l r (1 + max (height l) (height r)), ?_, ?_, ?_, ?_, ?_⟩
    · simp [deleteRebalance, hbal, hbal2]
    · rw [avl_node]
      refine ⟨rfl, ?_, ?_, hl, hr⟩ <;> omega
    · intro _ _; rfl
    · intro h; omega
    · intro h; omega

/-- On a tree that already satisfies the invariant the rebalancing step of
`deleteHelper` changes nothing. -/
theorem deleteRebalance_of_avl : ∀ t : AVLNode, avl t → deleteRebalance t = some t
  | .nil, _ => rfl
  | .node x l r h, ht => by
      obtain ⟨hh, hb1, hb2, hl, hr⟩ := ht
      obtain ⟨t, ht, -, hsame, -, -⟩ :=
        deleteRebalance_spec x l r h hl hr (by omega) (by omega)
      rw [ht, hsame hb1 hb2, hh]

/-- Likewise for the rebalancing step of `insertHelper`. -/
theorem insertRebalance_of_avl (x : Record) (l r : AVLNode) (h : Int) (e : Record)
    (ht : avl (.node x l r h)) : insertRebalance (.node x l r h) e = some (.node x l r h) := by
  obtain ⟨hh, hb1, hb2, hl, hr⟩ := ht
  obtain ⟨t, ht, -, hsame, -, -⟩ :=
    insertRebalance_spec x l r h e hl hr (by omega) (by omega) (by intro; omega)
      (by intro; omega)
  rw [ht, hsame hb1 hb2, hh]

/-- Rebalancing after the left child shrank by at most one. -/
theorem deleteRebalance_left (x : Record) (l l' r : AVLNode) (h0 : Int)
    (hl : avl l') (hr : avl r) (hb1 : height l - height r ≤ 1) (hb2 : height r - height l ≤ 1)
    (hs : height l' = height l ∨ height l' + 1 = height l) :
    ∃ t, deleteRebalance (.node x l' r h0) = some t ∧ avl t ∧
      (height t = 1 + max (height l) (height r) ∨
       height t + 1 = 1 + max (height l) (height r)) ∧
      (l' = l → t = .node x l r (1 + max (height l) (height r))) := by
  obtain ⟨t, ht, htavl, hsame, hrotL, hrotR⟩ :=
    deleteRebalance_spec x l' r h0 hl hr (by omega) (by omega)
  refine ⟨t, ht, htavl, ?_, ?_⟩
  · by_cases hbig : height r - height l' = 2
    · have := hrotR hbig; omega
    · have := hsame (by omega) (by omega)
      subst this
      simp only [height_node]; omega
  · intro h; subst h; exact hsame (by omega) (by omega)

/-- Rebalancing after the right child shrank by at most one. -/
theorem deleteRebalance_right (x : Record) (l r r' : AVLNode) (h0 : Int)
    (hl : avl l) (hr : avl r') (hb1 : height l - height r ≤ 1) (hb2 : height r - height l ≤ 1)
    (hs : height r' = height r ∨ height r' + 1 = height r) :
    ∃ t, deleteRebalance (.node x l r' h0) = some t ∧ avl t ∧
      (height t = 1 + max (height l) (height r) ∨
       height t + 1 = 1 + max (height l) (height r)) ∧
      (r' = r → t = .node x l r (1 + max (height l) (height r))) := by
  obtain ⟨t, ht, htavl, hsame, hrotL, hrotR⟩ :=
    deleteRebalance_spec x l r' h0 hl hr (by omega) (by omega)
  refine ⟨t, ht, htavl, ?_, ?_⟩
  · by_cases hbig : height l - height r' = 2
    · have := hrotL hbig; omega
    · have := hsame (by omega) (by omega)
      subst this
      simp only [height_node]; omega
  · intro h; subst h; exact hsame (by omega) (by omega)

/-- The leftmost node exists in every non-empty tree, has no left child and
holds the first record of the in-order sequence. -/
theorem minValueNode_spec : ∀ (x : Record) (l r : AVLNode) (h : Int),
    ∃ m mr mh rest, minValueNode (.node x l r h) = some (.node m .nil mr mh) ∧
      inorder (.node x l r h) = m :: rest
  | x, .nil, r, h => ⟨x, r, h, inorder r, rfl, rfl⟩
  | x, .node lx ll lr lh, r, h => by
      obtain ⟨m, mr, mh, rest, hm, hin⟩ := minValueNode_spec lx ll lr lh
      refine ⟨m, mr, mh, rest ++ x :: inorder r, ?_, ?_⟩
      · rw [minValueNode, hm]
      · rw [inorder_node, hin]; rfl

/-- Balance part of the correctness of `deleteHelper`: on an AVL tree it
returns an AVL tree whose height is the old one or one less. -/
theorem deleteHelper_avl :
    ∀ (t : AVLNode) (k : String) (v : Int) (c : Int), avl t →
      ∃ t' c', deleteHelper t k v c = some (t', c') ∧ avl t' ∧
        (height t' = height t ∨ height t' + 1 = height t)
  | .nil, k, v, c, _ => ⟨.nil, c, rfl, trivial, Or.inl rfl⟩
  | .node x l r h, k, v, c, ht => by
      obtain ⟨hh, hb1, hb2, hl, hr⟩ := ht
      have hnl := avl_height_nonneg l hl
      have hnr := avl_height_nonneg r hr
      have goLeft : ∀ k' v', ∃ t' c',
          ((deleteHelper l k' v' c).bind fun p =>
            (deleteRebalance (.node x p.1 r h)).map fun n => (n, p.2)) = some (t', c') ∧
          avl t' ∧ (height t' = h ∨ height t' + 1 = h) := by
        intro k' v'
        obtain ⟨l', c', hdel, hl', hs⟩ := deleteHelper_avl l k' v' c hl
        obtain ⟨t, ht, htavl, hht, -⟩ := deleteRebalance_left x l l' r h hl' hr hb1 hb2 hs
        exact ⟨t, c', by simp [hdel, ht], htavl, by omega⟩
      have goRight : ∀ (y : Record) k' v', ∃ t' c',
          ((deleteHelper r k' v' c).bind fun p =>
            (deleteRebalance (.node y l p.1 h)).map fun n => (n, p.2)) = some (t', c') ∧
          avl t' ∧ (height t' = h ∨ height t' + 1 = h) := by
        intro y k' v'
        obtain ⟨r', c', hdel, hr', hs⟩ := deleteHelper_avl r k' v' c hr
        obtain ⟨t, ht, htavl, hht, -⟩ := deleteRebalance_right y l r r' h hl hr' hb1 hb2 hs
        exact ⟨t, c', by simp [hdel, ht], htavl, by omega⟩
      by_cases hlt : v < x.value
      · obtain ⟨t', c', h1, h2, h3⟩ := goLeft k v
        exact ⟨t', c', by rw [deleteHelper, if_pos hlt]; exact h1, h2, h3⟩
      by_cases hgt : v > x.value
      · obtain ⟨t', c', h1, h2, h3⟩ := goRight x k v
        exact ⟨t', c', by rw [deleteHelper, if_neg hlt, if_pos hgt]; exact h1, h2, h3⟩
      by_cases hkey : k ≠ x.key
      · obtain ⟨t', c', h1, h2, h3⟩ := goRight x k v
        exact ⟨t', c', by
          rw [deleteHelper, if_neg hlt, if_neg hgt, if_pos hkey, if_neg hlt]; exact h1, h2, h3⟩
      by_cases hchild : l = .nil ∨ r = .nil
      · refine ⟨if l ≠ .nil then l else r, c - 1, ?_, ?_, ?_⟩
        · rw [deleteHelper, if_neg hlt, if_neg hgt, if_neg hkey, if_pos hchild]
          have : avl (if l ≠ .nil then l else r) := by split_ifs <;> assumption
          simp only [deleteRebalance_of_avl _ this, Option.map_some']
        · split_ifs <;> assumption
        · simp only [height_node]
          rcases hchild with h1 | h1
          · subst h1; simp only [height_nil] at *; simp; omega
          · subst h1
            by_cases h2 : l = .nil
            · subst h2; simp only [height_nil] at *; simp; omega
            · simp only [height_nil] at *; simp [h2]; omega
      · push_neg at hchild
        obtain ⟨rx, rl, rr, rh, rfl⟩ : ∃ rx rl rr rh, r = .node rx rl rr rh := by
          cases r with
          | nil => exact absurd rfl hchild.2
          | node rx rl rr rh => exact ⟨rx, rl, rr, rh, rfl⟩
        obtain ⟨m, mr, mh, rest, hm, -⟩ := minValueNode_spec rx rl rr rh
        obtain ⟨t', c', h1, h2, h3⟩ := goRight m m.key m.value
        refine ⟨t', c', ?_, h2, h3⟩
        rw [deleteHelper, if_neg hlt, if_neg hgt, if_neg hkey, if_neg (by simpa using hchild)]
        simp only [hm, Option.some_bind, record?_node]
        exact h1

end AVLNode

/-! ## In-order sequences: rotations, insertion and deletion -/

theorem sortedKeys_append_cons {L R : List Record} {x : Record} :
    sortedKeys (L ++ x :: R) ↔
      sortedKeys L ∧ sortedKeys R ∧ (∀ a ∈ L, a.value < x.value) ∧
        (∀ b ∈ R, x.value < b.value) := by
  unfold sortedKeys
  rw [List.pairwise_append, List.pairwise_cons]
  constructor
  · rintro ⟨h1, ⟨h2, h3⟩, h4⟩
    exact ⟨h1, h3, fun a ha => h4 a ha x (List.mem_cons_self _ _), h2⟩
  · rintro ⟨h1, h2, h3, h4⟩
    refine ⟨h1, ⟨h4, h2⟩, ?_⟩
    intro a ha b hb
    rcases List.mem_cons.1 hb with rfl | hb
    · exact h3 a ha
    · exact lt_trans (h3 a ha) (h4 b hb)

theorem insertList_append_lt (e x : Record) (R : List Record) (hlt : e.value < x.value) :
    ∀ L : List Record, insertList e (L ++ x :: R) = insertList e L ++ x :: R
  | [] => by simp [insertList, hlt]
  | a :: L => by
      have ih := insertList_append_lt e x R hlt L
      simp only [List.cons_append, insertList]
      split_ifs <;> simp [ih]

theorem insertList_append_gt (e x : Record) (R : List Record) (hgt : x.value < e.value) :
    ∀ L : List Record, (∀ a ∈ L, a.value < e.value) →
      insertList e (L ++ x :: R) = L ++ x :: insertList e R
  | [], _ => by
      have : ¬ e.value < x.value := by omega
      simp [insertList, hgt, this]
  | a :: L, h => by
      have ha : a.value < e.value := h a (List.mem_cons_self _ _)
      have hna : ¬ e.value < a.value := by omega
      have ih := insertList_append_gt e x R hgt L fun b hb => h b (List.mem_cons_of_mem _ hb)
      simp [insertList, ha, hna, ih]

theorem insertList_append_eq (e x : Record) (R : List Record) (heq : x.value = e.value) :
    ∀ L : List Record, (∀ a ∈ L, a.value < e.value) →
      insertList e (L ++ x :: R) = L ++ x :: R
  | [], _ => by simp [insertList, heq]
  | a :: L, h => by
      have ha : a.value < e.value := h a (List.mem_cons_self _ _)
      have hna : ¬ e.value < a.value := by omega
      have ih := insertList_append_eq e x R heq L fun b hb => h b (List.mem_cons_of_mem _ hb)
      simp [insertList, ha, hna, ih]

/-- On a sorted list holding the key, `insertList` changes nothing. -/
theorem insertList_of_hasKey (e : Record) :
    ∀ L : List Record, sortedKeys L → hasKey e.value L → insertList e L = L
  | [], _, h => by obtain ⟨a, ha, -⟩ := h; simp at ha
  | x :: xs, hs, h => by
      obtain ⟨a, ha, hav⟩ := h
      have hs' := List.pairwise_cons.1 hs
      rcases List.mem_cons.1 ha with rfl | ha
      · simp [insertList, hav]
      · have hxa := hs'.1 a ha
        have h1 : ¬ e.value < x.value := by omega
        have h2 : x.value < e.value := by omega
        simp [insertList, h1, h2, insertList_of_hasKey e xs hs'.2 ⟨a, ha, hav⟩]

/-- On a sorted list without the key, `insertList` puts the record between the
smaller and the larger keys and keeps every record. -/
theorem insertList_of_not_hasKey (e : Record) :
    ∀ L : List Record, sortedKeys L → ¬ hasKey e.value L →
      ∃ before after, L = before ++ after ∧ insertList e L = before ++ e :: after ∧
        (∀ a ∈ before, a.value < e.value) ∧ (∀ b ∈ after, e.value < b.value)
  | [], _, _ => ⟨[], [], rfl, rfl, by simp, by simp⟩
  | x :: xs, hs, h => by
      have hs' := List.pairwise_cons.1 hs
      have hne : x.value ≠ e.value := fun hx => h ⟨x, List.mem_cons_self _ _, hx⟩
      by_cases hlt : e.value < x.value
      · refine ⟨[], x :: xs, rfl, by simp [insertList, hlt], by simp, ?_⟩
        intro b hb
        rcases List.mem_cons.1 hb with rfl | hb
        · exact hlt
        · exact lt_trans hlt (hs'.1 b hb)
      · have hgt : x.value < e.value := by omega
        obtain ⟨before, after, h1, h2, h3, h4⟩ :=
          insertList_of_not_hasKey e xs hs'.2
            fun ⟨a, ha, hav⟩ => h ⟨a, List.mem_cons_of_mem _ ha, hav⟩
        refine ⟨x :: before, after, by simp [h1], by simp [insertList, hlt, hgt, h2], ?_, h4⟩
        intro a ha
        rcases List.mem_cons.1 ha with rfl | ha
        · exact hgt
        · exact h3 a ha

namespace AVLNode
open AVLTree IndexedDatabase

theorem rotateRight_inorder (t t' : AVLNode) (h : rotateRight t = some t') :
    inorder t' = inorder t := by
  cases t with
  | nil => simp [rotateRight] at h
  | node y l c hy =>
    cases l with
    | nil => simp [rotateRight] at h
    | node x a b hx =>
      rw [rotateRight_node] at h
      cases h
      simp

theorem rotateLeft_inorder (t t' : AVLNode) (h : rotateLeft t = some t') :
    inorder t' = inorder t := by
  cases t with
  | nil => simp [rotateLeft] at h
  | node x a r hx =>
    cases r with
    | nil => simp [rotateLeft] at h
    | node y b c hy =>
      rw [rotateLeft_node] at h
      cases h
      simp

theorem rotateLeft_rotateRight_inorder (x : Record) (l r : AVLNode) (h0 : Int) (t : AVLNode)
    (h : ((rotateLeft l).bind fun l1 => rotateRight (.node x l1 r h0)) = some t) :
    inorder t = inorder l ++ x :: inorder r := by
  cases hl : rotateLeft l with
  | none => simp [hl] at h
  | some l1 =>
    rw [hl] at h
    rw [rotateRight_inorder _ _ h, inorder_node, rotateLeft_inorder _ _ hl]

theorem rotateRight_rotateLeft_inorder (x : Record) (l r : AVLNode) (h0 : Int) (t : AVLNode)
    (h : ((rotateRight r).bind fun r1 => rotateLeft (.node x l r1 h0)) = some t) :
    inorder t = inorder l ++ x :: inorder r := by
  cases hr : rotateRight r with
  | none => simp [hr] at h
  | some r1 =>
    rw [hr] at h
    rw [rotateLeft_inorder _ _ h, inorder_node, rotateRight_inorder _ _ hr]

/-- A property shared by the five possible outcomes of the insert rebalancing
chain holds for its result. -/
theorem chain_some (P : AVLNode → Prop) (o1 o2 o3 o4 : Option Bool)
    (A B C D E : Option AVLNode)
    (hA : ∀ t, A = some t → P t) (hB : ∀ t, B = some t → P t) (hC : ∀ t, C = some t → P t)
    (hD : ∀ t, D = some t → P t) (hE : ∀ t, E = some t → P t) (t : AVLNode)
    (h : (o1.bind fun c1 => if c1 then A else
          o2.bind fun c2 => if c2 then B else
          o3.bind fun c3 => if c3 then C else
          o4.bind fun c4 => if c4 then D else E) = some t) : P t := by
  rcases o1 with _ | _ | _ <;> simp at h
  · rcases o2 with _ | _ | _ <;> simp at h
    · rcases o3 with _ | _ | _ <;> simp at h
      · rcases o4 with _ | _ | _ <;> simp at h
        · exact hE t h
        · exact hD t h
      · exact hC t h
    · exact hB t h
  · exact hA t h

theorem insertRebalance_inorder (x : Record) (l r : AVLNode) (h0 : Int) (e : Record)
    (t : AVLNode) (h : insertRebalance (.node x l r h0) e = some t) :
    inorder t = inorder l ++ x :: inorder r := by
  refine chain_some (fun t => inorder t = inorder l ++ x :: inorder r) _ _ _ _ _ _ _ _ _
    ?_ ?_ ?_ ?_ ?_ t h
  · intro t ht; rw [rotateRight_inorder _ _ ht]; rfl
  · intro t ht; rw [rotateLeft_inorder _ _ ht]; rfl
  · intro t ht; exact rotateLeft_rotateRight_inorder _ _ _ _ _ ht
  · intro t ht; exact rotateRight_rotateLeft_inorder _ _ _ _ _ ht
  · intro t ht; cases ht; rfl

theorem deleteRebalance_inorder (t t' : AVLNode) (h : deleteRebalance t = some t') :
    inorder t' = inorder t := by
  cases t with
  | nil => cases h; rfl
  | node x l r h0 =>
    simp only [deleteRebalance, updateHeight_node] at h
    split_ifs at h
    · rw [rotateRight_inorder _ _ h]; rfl
    · exact rotateLeft_rotateRight_inorder _ _ _ _ _ h
    · rw [rotateLeft_inorder _ _ h]; rfl
    · exact rotateRight_rotateLeft_inorder _ _ _ _ _ h
    · cases h; rfl

end AVLNode

/-! ## Insertion and deletion on the in-order sequence -/

namespace AVLNode
open AVLTree IndexedDatabase

/-- Order part of the correctness of `insertHelper`: the in-order sequence of
the result is the sorted insertion into the old one, and `nodeCount` moves
with the number of records. -/
theorem insertHelper_inorder (e : Record) :
    ∀ (t : AVLNode) (c : Int) (t' : AVLNode) (c' : Int),
      insertHelper t e c = some (t', c') → sortedKeys (inorder t) →
        inorder t' = insertList e (inorder t) ∧
          c' + (inorder t).length = c + (inorder t').length
  | .nil, c, t', c', h, _ => by
      simp only [insertHelper, Option.some.injEq, Prod.mk.injEq] at h
      obtain ⟨rfl, rfl⟩ := h
      simp [mk1, insertList]
  | .node x l r h0, c, t', c', h, hs => by
      rw [inorder_node] at hs
      obtain ⟨hsl, hsr, hlx, hxr⟩ := sortedKeys_append_cons.1 hs
      by_cases hlt : e.value < x.value
      · rw [insertHelper, if_pos hlt] at h
        cases hl : insertHelper l e c with
        | none => simp [hl] at h
        | some p =>
          obtain ⟨l', c1⟩ := p
          simp only [hl, Option.some_bind, Option.map_eq_some', Prod.mk.injEq] at h
          obtain ⟨n, hn, rfl, rfl⟩ := h
          obtain ⟨ih1, ih2⟩ := insertHelper_inorder e l c l' c1 hl hsl
          rw [insertRebalance_inorder _ _ _ _ _ _ hn, inorder_node,
            insertList_append_lt e x _ hlt, ih1]
          refine ⟨rfl, ?_⟩
          simp only [List.length_append, List.length_cons, ← ih1]
          push_cast
          omega
      by_cases hgt : e.value > x.value
      · rw [insertHelper, if_neg hlt, if_pos hgt] at h
        cases hr : insertHelper r e c with
        | none => simp [hr] at h
        | some p =>
          obtain ⟨r', c1⟩ := p
          simp only [hr, Option.some_bind, Option.map_eq_some', Prod.mk.injEq] at h
          obtain ⟨n, hn, rfl, rfl⟩ := h
          obtain ⟨ih1, ih2⟩ := insertHelper_inorder e r c r' c1 hr hsr
          rw [insertRebalance_inorder _ _ _ _ _ _ hn, inorder_node,
            insertList_append_gt e x _ hgt _ (fun a ha => lt_trans (hlx a ha) hgt), ih1]
          refine ⟨rfl, ?_⟩
          simp only [List.length_append, List.length_cons, ← ih1]
          push_cast
          omega
      · rw [insertHelper, if_neg hlt, if_neg hgt] at h
        simp only [Option.some.injEq, Prod.mk.injEq] at h
        obtain ⟨rfl, rfl⟩ := h
        have heq : x.value = e.value := by omega
        rw [inorder_node, insertList_append_eq e x _ heq _ (fun a ha => heq ▸ hlx a ha)]
        exact ⟨rfl, rfl⟩

/-- Inserting a record whose ordering key is stored returns the very same
tree and count. -/
theorem insertHelper_of_hasKey (e : Record) :
    ∀ (t : AVLNode) (c : Int), avl t → sortedKeys (inorder t) → hasKey e.value (inorder t) →
      insertHelper t e c = some (t, c)
  | .nil, c, _, _, h => by obtain ⟨a, ha, -⟩ := h; simp at ha
  | .node x l r h0, c, ht, hs, hk => by
      rw [inorder_node] at hs hk
      obtain ⟨hsl, hsr, hlx, hxr⟩ := sortedKeys_append_cons.1 hs
      obtain ⟨a, ha, hav⟩ := hk
      have ht' := ht
      obtain ⟨-, -, -, hl, hr⟩ := ht'
      by_cases hlt : e.value < x.value
      · have hal : a ∈ inorder l := by
          rcases List.mem_append.1 ha with h1 | h1
          · exact h1
          · rcases List.mem_cons.1 h1 with rfl | h2
            · omega
            · have := hxr a h2; omega
        rw [insertHelper, if_pos hlt, insertHelper_of_hasKey e l c hl hsl ⟨a, hal, hav⟩]
        simp [insertRebalance_of_avl x l r h0 e ht]
      by_cases hgt : e.value > x.value
      · have har : a ∈ inorder r := by
          rcases List.mem_append.1 ha with h1 | h1
          · have := hlx a h1; omega
          · rcases List.mem_cons.1 h1 with rfl | h2
            · omega
            · exact h2
        rw [insertHelper, if_neg hlt, if_pos hgt,
          insertHelper_of_hasKey e r c hr hsr ⟨a, har, hav⟩]
        simp [insertRebalance_of_avl x l r h0 e ht]
      · rw [insertHelper, if_neg hlt, if_neg hgt]

/-- Order part of the correctness of `deleteHelper`: the record with the given
label and ordering key is erased from the in-order sequence, and `nodeCount`
moves with the number of records. -/
theorem deleteHelper_inorder :
    ∀ (t : AVLNode) (k : String) (v : Int) (c : Int) (t' : AVLNode) (c' : Int),
      deleteHelper t k v c = some (t', c') → sortedKeys (inorder t) →
        inorder t' = (inorder t).erase ⟨k, v⟩ ∧
          c' + (inorder t).length = c + (inorder t').length
  | .nil, k, v, c, t', c', h, _ => by
      simp only [deleteHelper, Option.some.injEq, Prod.mk.injEq] at h
      obtain ⟨rfl, rfl⟩ := h
      simp
  | .node x l r h0, k, v, c, t', c', h, hs => by
      rw [inorder_node] at hs
      obtain ⟨hsl, hsr, hlx, hxr⟩ := sortedKeys_append_cons.1 hs
      have goLeft : v < x.value →
          ((deleteHelper l k v c).bind fun p =>
            (deleteRebalance (.node x p.1 r h0)).map fun n => (n, p.2)) = some (t', c') →
          inorder t' = (inorder (.node x l r h0)).erase ⟨k, v⟩ ∧
            c' + (inorder (.node x l r h0)).length = c + (inorder t').length := by
        intro hlt h
        cases hl : deleteHelper l k v c with
        | none => simp [hl] at h
        | some p =>
          obtain ⟨l', c1⟩ := p
          simp only [hl, Option.some_bind, Option.map_eq_some', Prod.mk.injEq] at h
          obtain ⟨n, hn, rfl, rfl⟩ := h
          obtain ⟨ih1, ih2⟩ := deleteHelper_inorder l k v c l' c1 hl hsl
          have hnot : (⟨k, v⟩ : Record) ∉ x :: inorder r := by
            intro hm
            rcases List.mem_cons.1 hm with h1 | h1
            · rw [← h1] at hlt; simp at hlt
            · have := hxr _ h1; simp at this; omega
          rw [deleteRebalance_inorder _ _ hn, inorder_node, inorder_node, ih1]
          constructor
          · by_cases hmem : (⟨k, v⟩ : Record) ∈ inorder l
            · rw [List.erase_append_left _ hmem]
            · rw [List.erase_append_right _ hmem, List.erase_of_not_mem hmem,
                List.erase_of_not_mem hnot]
          · simp only [List.length_append, List.length_cons, ← ih1]
            push_cast
            omega
      have goRight : x.value ≤ v → (⟨k, v⟩ : Record) ≠ x →
          ((deleteHelper r k v c).bind fun p =>
            (deleteRebalance (.node x l p.1 h0)).map fun n => (n, p.2)) = some (t', c') →
          inorder t' = (inorder (.node x l r h0)).erase ⟨k, v⟩ ∧
            c' + (inorder (.node x l r h0)).length = c + (inorder t').length := by
        intro hge hne h
        cases hr : deleteHelper r k v c with
        | none => simp [hr] at h
        | some p =>
          obtain ⟨r', c1⟩ := p
          simp only [hr, Option.some_bind, Option.map_eq_some', Prod.mk.injEq] at h
          obtain ⟨n, hn, rfl, rfl⟩ := h
          obtain ⟨ih1, ih2⟩ := deleteHelper_inorder r k v c r' c1 hr hsr
          have hnot : (⟨k, v⟩ : Record) ∉ inorder l := by
            intro hm
            have := hlx _ hm; simp at this; omega
          rw [deleteRebalance_inorder _ _ hn, inorder_node, inorder_node, ih1]
          constructor
          · rw [List.erase_append_right _ hnot, List.erase_cons_tail (by simpa using hne.symm)]
          · simp only [List.length_append, List.length_cons, ← ih1]
            push_cast
            omega
      by_cases hlt : v < x.value
      · rw [deleteHelper, if_pos hlt] at h
        exact goLeft hlt h
      by_cases hgt : v > x.value
      · rw [deleteHelper, if_neg hlt, if_pos hgt] at h
        exact goRight (by omega) (by intro he; rw [← he] at hgt; simp at hgt) h
      by_cases hkey : k ≠ x.key
      · rw [deleteHelper, if_neg hlt, if_neg hgt, if_pos hkey, if_neg hlt] at h
        exact goRight (by omega) (by intro he; rw [← he] at hkey; simp at hkey) h
      have hx : x = ⟨k, v⟩ := by
        have h1 : x.value = v := by omega
        have h2 : x.key = k := by
          by_contra hc; exact hkey fun h3 => hc h3.symm
        cases x; simp only at h1 h2; subst h1 h2; rfl
      have hnotl : (⟨k, v⟩ : Record) ∉ inorder l := by
        intro hm
        have := hlx _ hm; rw [hx] at this; simp at this
      have herase : (inorder (.node x l r h0)).erase ⟨k, v⟩ = inorder l ++ inorder r := by
        rw [inorder_node, List.erase_append_right _ hnotl, hx, List.erase_cons_head]
      by_cases hchild : l = .nil ∨ r = .nil
      · rw [deleteHelper, if_neg hlt, if_neg hgt, if_neg hkey, if_pos hchild] at h
        simp only [Option.map_eq_some', Prod.mk.injEq] at h
        obtain ⟨n, hn, rfl, rfl⟩ := h
        have htemp : inorder (if l ≠ .nil then l else r) = inorder l ++ inorder r := by
          rcases hchild with h1 | h1
          · subst h1; simp
          · subst h1
            by_cases h2 : l = .nil
            · subst h2; simp
            · simp [h2]
        rw [herase, deleteRebalance_inorder _ _ hn, htemp]
        refine ⟨rfl, ?_⟩
        simp only [inorder_node, List.length_append, List.length_cons]
        push_cast
        omega
      · rw [deleteHelper, if_neg hlt, if_neg hgt, if_neg hkey, if_neg hchild] at h
        push_neg at hchild
        obtain ⟨rx, rl, rr, rh, rfl⟩ : ∃ rx rl rr rh, r = .node rx rl rr rh := by
          cases r with
          | nil => exact absurd rfl hchild.2
          | node rx rl rr rh => exact ⟨rx, rl, rr, rh, rfl⟩
        obtain ⟨m, mr, mh, rest, hm, hin⟩ := minValueNode_spec rx rl rr rh
        simp only [hm, Option.some_bind, record?_node] at h
        cases hr : deleteHelper (.node rx rl rr rh) m.key m.value c with
        | none => simp [hr] at h
        | some p =>
          obtain ⟨r', c1⟩ := p
          simp only [hr, Option.some_bind, Option.map_eq_some', Prod.mk.injEq] at h
          obtain ⟨n, hn, rfl, rfl⟩ := h
          obtain ⟨ih1, ih2⟩ :=
            deleteHelper_inorder (.node rx rl rr rh) m.key m.value c r' c1 hr hsr
          have hr' : inorder r' = rest := by
            rw [ih1, hin]
            exact List.erase_cons_head m rest
          rw [herase, deleteRebalance_inorder _ _ hn, inorder_node, hr', hin]
          refine ⟨rfl, ?_⟩
          rw [hr', hin] at ih2
          simp only [inorder_node, hin, List.length_append, List.length_cons] at ih2 ⊢
          push_cast at ih2 ⊢
          omega

/-- Deleting a label and ordering key that no stored record carries returns
the very same tree and count. -/
theorem deleteHelper_of_not_mem :
    ∀ (t : AVLNode) (k : String) (v : Int) (c : Int), avl t → sortedKeys (inorder t) →
      (⟨k, v⟩ : Record) ∉ inorder t → deleteHelper t k v c = some (t, c)
  | .nil, k, v, c, _, _, _ => rfl
  | .node x l r h0, k, v, c, ht, hs, hk => by
      rw [inorder_node] at hs hk
      obtain ⟨hsl, hsr, hlx, hxr⟩ := sortedKeys_append_cons.1 hs
      have ht' := ht
      obtain ⟨-, -, -, hl, hr⟩ := ht'
      have hkl : (⟨k, v⟩ : Record) ∉ inorder l := fun hm => hk (List.mem_append_left _ hm)
      have hkr : (⟨k, v⟩ : Record) ∉ inorder r :=
        fun hm => hk (List.mem_append_right _ (List.mem_cons_of_mem _ hm))
      have hkx : (⟨k, v⟩ : Record) ≠ x :=
        fun he => hk (List.mem_append_right _ (he ▸ List.mem_cons_self _ _))
      have goLeft : ((deleteHelper l k v c).bind fun p =>
            (deleteRebalance (.node x p.1 r h0)).map fun n => (n, p.2)) =
          some (.node x l r h0, c) := by
        rw [deleteHelper_of_not_mem l k v c hl hsl hkl]
        simp [deleteRebalance_of_avl _ ht]
      have goRight : ((deleteHelper r k v c).bind fun p =>
            (deleteRebalance (.node x l p.1 h0)).map fun n => (n, p.2)) =
          some (.node x l r h0, c) := by
        rw [deleteHelper_of_not_mem r k v c hr hsr hkr]
        simp [deleteRebalance_of_avl _ ht]
      by_cases hlt : v < x.value
      · rw [deleteHelper, if_pos hlt]; exact goLeft
      by_cases hgt : v > x.value
      · rw [deleteHelper, if_neg hlt, if_pos hgt]; exact goRight
      by_cases hkey : k ≠ x.key
      · rw [deleteHelper, if_neg hlt, if_neg hgt, if_pos hkey, if_neg hlt]; exact goRight
      · exfalso
        apply hkx
        have h1 : x.value = v := by omega
        have h2 : x.key = k := by
          by_contra hc; exact hkey fun h3 => hc h3.symm
        cases x; simp only at h1 h2; subst h1 h2; rfl

end AVLNode

/-! ## Search and range query on ordered trees -/

namespace AVLNode
open AVLTree IndexedDatabase

/-- The search for the label and key of a stored record stops at the node
holding it. -/
theorem searchHelper_of_mem :
    ∀ (t : AVLNode) (e : Record) (c : Int), sortedKeys (inorder t) → e ∈ inorder t →
      (searchHelper t e.key e.value c).1.record? = some e
  | .nil, e, c, _, h => by simp at h
  | .node x l r h0, e, c, hs, hm => by
      rw [inorder_node] at hs hm
      obtain ⟨hsl, hsr, hlx, hxr⟩ := sortedKeys_append_cons.1 hs
      by_cases heq : e.value = x.value ∧ e.key = x.key
      · have : e = x := by
          cases e; cases x; simp only at heq; obtain ⟨rfl, rfl⟩ := heq; rfl
        subst this
        simp [searchHelper]
      · rw [searchHelper, if_neg heq]
        have hne : e ≠ x := fun h => heq (h ▸ ⟨rfl, rfl⟩)
        by_cases hlt : e.value < x.value
        · rw [if_pos hlt]
          apply searchHelper_of_mem l e _ hsl
          rcases List.mem_append.1 hm with h1 | h1
          · exact h1
          · rcases List.mem_cons.1 h1 with h2 | h2
            · exact absurd h2 hne
            · have := hxr e h2; omega
        · rw [if_neg hlt]
          apply searchHelper_of_mem r e _ hsr
          rcases List.mem_append.1 hm with h1 | h1
          · have := hlx e h1; omega
          · rcases List.mem_cons.1 h1 with h2 | h2
            · exact absurd h2 hne
            · exact h2

/-- The search for a label and key that no stored record carries ends on the
fresh node holding `Record("", 0)`. -/
theorem searchHelper_of_not_mem :
    ∀ (t : AVLNode) (k : String) (v : Int) (c : Int), sortedKeys (inorder t) →
      (⟨k, v⟩ : Record) ∉ inorder t → (searchHelper t k v c).1 = mk1 ⟨"", 0⟩
  | .nil, k, v, c, _, _ => rfl
  | .node x l r h0, k, v, c, hs, hm => by
      rw [inorder_node] at hs hm
      obtain ⟨hsl, hsr, hlx, hxr⟩ := sortedKeys_append_cons.1 hs
      have hkl : (⟨k, v⟩ : Record) ∉ inorder l := fun h => hm (List.mem_append_left _ h)
      have hkr : (⟨k, v⟩ : Record) ∉ inorder r :=
        fun h => hm (List.mem_append_right _ (List.mem_cons_of_mem _ h))
      have hkx : (⟨k, v⟩ : Record) ≠ x :=
        fun he => hm (List.mem_append_right _ (he ▸ List.mem_cons_self _ _))
      have heq : ¬ (v = x.value ∧ k = x.key) := by
        rintro ⟨h1, h2⟩
        apply hkx
        cases x; simp only at h1 h2; subst h1 h2; rfl
      rw [searchHelper, if_neg heq]
      split_ifs
      · exact searchHelper_of_not_mem l k v _ hsl hkl
      · exact searchHelper_of_not_mem r k v _ hsr hkr

theorem not_mem_of_not_hasKey {k : String} {v : Int} {L : List Record}
    (h : ¬ hasKey v L) : (⟨k, v⟩ : Record) ∉ L :=
  fun hm => h ⟨⟨k, v⟩, hm, rfl⟩

/-- On an ordered tree the pruned traversal appends exactly the records of the
in-order sequence whose ordering key lies in the window. -/
theorem rangeQueryHelper_eq (a b : Int) :
    ∀ (t : AVLNode) (res : List Record), sortedKeys (inorder t) →
      rangeQueryHelper t a b res =
        res ++ (inorder t).filter fun r => decide (a ≤ r.value ∧ r.value ≤ b)
  | .nil, res, _ => by simp [rangeQueryHelper]
  | .node x l r h0, res, hs => by
      rw [inorder_node] at hs
      obtain ⟨hsl, hsr, hlx, hxr⟩ := sortedKeys_append_cons.1 hs
      have ihl := fun res => rangeQueryHelper_eq a b l res hsl
      have ihr := fun res => rangeQueryHelper_eq a b r res hsr
      simp only [rangeQueryHelper, inorder_node, List.filter_append, List.filter_cons]
      by_cases h1 : a ≤ x.value <;> by_cases h2 : x.value ≤ b <;>
        simp [h1, h2, ihl, ihr] <;> (try constructor) <;> intro y hy hay <;>
        first
          | (specialize hlx y hy; omega)
          | (specialize hxr y hy; omega)

theorem size_eq_length_inorder : ∀ t : AVLNode, size t = (inorder t).length
  | .nil => rfl
  | .node x l r h => by
      simp [size, size_eq_length_inorder l, size_eq_length_inorder r]
      omega

end AVLNode

/-! ## True heights, per-node ordering -/

namespace AVLNode
open AVLTree IndexedDatabase

theorem avl_calculateHeight : ∀ t : AVLNode, avl t → calculateHeight t = height t
  | .nil, _ => rfl
  | .node x l r h, ht => by
      obtain ⟨hh, -, -, hl, hr⟩ := ht
      simp only [calculateHeight, avl_calculateHeight l hl, avl_calculateHeight r hr,
        height_node, hh]

theorem avl_balanced : ∀ t : AVLNode, avl t → balanced t
  | .nil, _ => trivial
  | .node x l r h, ht => by
      obtain ⟨hh, h1, h2, hl, hr⟩ := ht
      refine ⟨?_, avl_balanced l hl, avl_balanced r hr⟩
      rw [avl_calculateHeight l hl, avl_calculateHeight r hr, abs_le]
      constructor <;> omega

theorem ordered_iff_sortedKeys : ∀ t : AVLNode, ordered t ↔ sortedKeys (inorder t)
  | .nil => by simp [ordered, sortedKeys]
  | .node x l r h => by
      rw [inorder_node, sortedKeys_append_cons, ordered, ordered_iff_sortedKeys l,
        ordered_iff_sortedKeys r]
      tauto

end AVLNode

/-! ## The invariant of reachable indexes -/

open AVLTree IndexedDatabase AVLNode

theorem sortedKeys_insertList (e : Record) (L : List Record) (hs : sortedKeys L) :
    sortedKeys (insertList e L) := by
  by_cases hk : hasKey e.value L
  · rw [insertList_of_hasKey e L hs hk]; exact hs
  · obtain ⟨before, after, h1, h2, h3, h4⟩ := insertList_of_not_hasKey e L hs hk
    subst h1
    rw [h2, sortedKeys_append_cons]
    unfold sortedKeys at hs
    rw [List.pairwise_append] at hs
    exact ⟨hs.1, hs.2.1, h3, h4⟩

theorem sortedKeys_erase (x : Record) (L : List Record) (hs : sortedKeys L) :
    sortedKeys (L.erase x) :=
  List.Pairwise.sublist (List.erase_sublist x L) hs

theorem indexInv_empty : IndexInv AVLTree.empty := ⟨trivial, List.Pairwise.nil, rfl⟩

theorem indexInv_insert {t : AVLTree} (ht : IndexInv t) (e : Record) :
    ∃ t', t.insert e = some t' ∧ IndexInv t' ∧
      inorder t'.root = insertList e (inorder t.root) ∧
      t'.searchComparisonCount = t.searchComparisonCount := by
  obtain ⟨n, c, hins, hn, -⟩ := insertHelper_avl e t.root t.nodeCount ht.avl
  obtain ⟨h1, h2⟩ := insertHelper_inorder e t.root t.nodeCount n c hins ht.sorted
  refine ⟨{ t with root := n, nodeCount := c }, by simp [AVLTree.insert, hins], ⟨hn, ?_, ?_⟩,
    h1, rfl⟩
  · show sortedKeys (inorder n)
    rw [h1]; exact sortedKeys_insertList e _ ht.sorted
  · show c = (inorder n).length
    have := ht.count
    omega

theorem indexInv_deleteNode {t : AVLTree} (ht : IndexInv t) (k : String) (v : Int) :
    ∃ t', t.deleteNode k v = some t' ∧ IndexInv t' ∧
      inorder t'.root = (inorder t.root).erase ⟨k, v⟩ ∧
      t'.searchComparisonCount = t.searchComparisonCount := by
  obtain ⟨n, c, hdel, hn, -⟩ := deleteHelper_avl t.root k v t.nodeCount ht.avl
  obtain ⟨h1, h2⟩ := deleteHelper_inorder t.root k v t.nodeCount n c hdel ht.sorted
  refine ⟨{ t with root := n, nodeCount := c }, by simp [AVLTree.deleteNode, hdel],
    ⟨hn, ?_, ?_⟩, h1, rfl⟩
  · show sortedKeys (inorder n)
    rw [h1]; exact sortedKeys_erase _ _ ht.sorted
  · show c = (inorder n).length
    have := ht.count
    omega

theorem indexInv_apply {t : AVLTree} (ht : IndexInv t) (op : Op) : ∃ t', op.apply t = some t' ∧ IndexInv t' := by
  cases op with
  | insert e => obtain ⟨t', h1, h2, -⟩ := indexInv_insert ht e; exact ⟨t', h1, h2⟩
  | deleteNode k v => obtain ⟨t', h1, h2, -⟩ := indexInv_deleteNode ht k v; exact ⟨t', h1, h2⟩

theorem indexInv_applyOps : ∀ (ops : List Op) {t : AVLTree}, IndexInv t →
    ∃ t', applyOps ops t = some t' ∧ IndexInv t'
  | [], t, ht => ⟨t, rfl, ht⟩
  | op :: ops, t, ht => by
      obtain ⟨t1, h1, ht1⟩ := indexInv_apply ht op
      obtain ⟨t2, h2, ht2⟩ := indexInv_applyOps ops ht1
      exact ⟨t2, by simp [applyOps, h1, h2], ht2⟩

theorem reach_inv (ops : List Op) : ∃ t, reach ops = some t ∧ IndexInv t :=
  indexInv_applyOps ops indexInv_empty

theorem inv_of_reach {ops : List Op} {t : AVLTree} (h : reach ops = some t) : IndexInv t := by
  obtain ⟨t', h1, h2⟩ := reach_inv ops
  rw [h] at h1
  cases h1
  exact h2

/-! ## Counting inserts and deletes -/

theorem length_insertList (e : Record) (L : List Record) (hs : sortedKeys L) :
    (insertList e L).length = L.length ∨ (insertList e L).length = L.length + 1 := by
  by_cases hk : hasKey e.value L
  · left; rw [insertList_of_hasKey e L hs hk]
  · obtain ⟨before, after, h1, h2, -, -⟩ := insertList_of_not_hasKey e L hs hk
    right; rw [h2, h1]; simp; omega

theorem length_erase (x : Record) (L : List Record) :
    (L.erase x).length = L.length ∨ (L.erase x).length + 1 = L.length := by
  by_cases hm : x ∈ L
  · right
    rw [List.length_erase_of_mem hm]
    have := List.length_pos_of_mem hm
    omega
  · left; rw [List.erase_of_not_mem hm]

theorem indexInv_tally : ∀ (ops : List Op) {t : AVLTree}, IndexInv t →
    ∃ t' i d, tally ops t = some (t', i, d) ∧ applyOps ops t = some t' ∧ IndexInv t' ∧
      t'.nodeCount = t.nodeCount + (i : Int) - (d : Int)
  | [], t, ht => ⟨t, 0, 0, rfl, rfl, ht, by simp⟩
  | .insert e :: ops, t, ht => by
      obtain ⟨t1, h1, ht1, hin, -⟩ := indexInv_insert ht e
      obtain ⟨t2, i, d, h2, h3, ht2, h4⟩ := indexInv_tally ops ht1
      have hlen := length_insertList e _ ht.sorted
      rw [← hin] at hlen
      have hc := ht.count
      have hc1 := ht1.count
      refine ⟨t2, i + (if t.root.size < t1.root.size then 1 else 0), d,
        by simp only [tally, Op.apply, h1, h2, Option.some_bind, Option.map_some'],
        by simp [applyOps, Op.apply, h1, h3], ht2, ?_⟩
      simp only [size_eq_length_inorder]
      split_ifs <;> push_cast <;> omega
  | .deleteNode k v :: ops, t, ht => by
      obtain ⟨t1, h1, ht1, hin, -⟩ := indexInv_deleteNode ht k v
      obtain ⟨t2, i, d, h2, h3, ht2, h4⟩ := indexInv_tally ops ht1
      have hlen := length_erase ⟨k, v⟩ (inorder t.root)
      rw [← hin] at hlen
      have hc := ht.count
      have hc1 := ht1.count
      refine ⟨t2, i, d + (if t1.root.size < t.root.size then 1 else 0),
        by simp only [tally, Op.apply, h1, h2, Option.some_bind, Option.map_some'],
        by simp [applyOps, Op.apply, h1, h3], ht2, ?_⟩
      simp only [size_eq_length_inorder]
      split_ifs <;> push_cast <;> omega

/-! ## The contracts of the index -/

/-- C1. AVL balance invariant: after every call of every sequence of `insert` and
`deleteNode` calls on the empty index (the first `n` calls of `ops`, for every
`n`), the calls have all returned and the true heights of the two subtrees of
every node differ by at most one. -/
theorem avl_balance_invariant (ops : List Op) (n : Nat) :
    ∃ t, reach (ops.take n) = some t ∧ balanced t.root := by
  obtain ⟨t, h, ht⟩ := reach_inv (ops.take n)
  exact ⟨t, h, avl_balanced _ ht.avl⟩

/-- C2. BST ordering invariant: after every call of every sequence of `insert`
and `deleteNode` calls on the empty index, the in-order traversal has strictly
ascending ordering keys, every node lies strictly between its left and its
right subtree, and no ordering key occurs twice. -/
theorem bst_ordering_invariant (ops : List Op) (n : Nat) :
    ∃ t, reach (ops.take n) = some t ∧ sortedKeys (inorder t.root) ∧ ordered t.root ∧
      ((inorder t.root).map Record.value).Nodup := by
  obtain ⟨t, h, ht⟩ := reach_inv (ops.take n)
  refine ⟨t, h, ht.sorted, (ordered_iff_sortedKeys _).2 ht.sorted, ?_⟩
  have hs := ht.sorted
  unfold sortedKeys at hs
  rw [List.Nodup, List.pairwise_map]
  exact hs.imp fun h => ne_of_lt h

/-- C3. Search finds every stored entry: in an index reached from the empty one,
searching for the label and ordering key of a record held by the tree returns
that record. -/
theorem search_finds_stored (ops : List Op) (t : AVLTree) (h : reach ops = some t)
    (e : Record) (he : e ∈ inorder t.root) :
    (t.search e.key e.value).map Prod.fst = some e := by
  have ht := inv_of_reach h
  simp [AVLTree.search, searchHelper_of_mem t.root e 0 ht.sorted he]

/-- The driver's index finds the stored record with the smallest key. -/
theorem search_finds_stored_witness :
    (driverTree.search "The Great Gatsby" 10).map Prod.fst = some ⟨"The Great Gatsby", 10⟩ :=
  search_finds_stored driverOps driverTree (by rfl) ⟨"The Great Gatsby", 10⟩ (by decide)

/-- C4. Search of an absent key returns the sentinel: in an index reached from
the empty one, searching with any label for an ordering key that no stored
record has returns the record with empty label and key 0. -/
theorem search_absent_returns_sentinel (ops : List Op) (t : AVLTree)
    (h : reach ops = some t) (k : String) (v : Int) (hv : ¬ hasKey v (inorder t.root)) :
    (t.search k v).map Prod.fst = some ⟨"", 0⟩ := by
  have ht := inv_of_reach h
  simp [AVLTree.search, searchHelper_of_not_mem t.root k v 0 ht.sorted (not_mem_of_not_hasKey hv),
    mk1]

/-- The driver's index answers the search for the absent key 100 with the sentinel. -/
theorem search_absent_returns_sentinel_witness :
    (driverTree.search "Don Quixote" 100).map Prod.fst = some ⟨"", 0⟩ :=
  search_absent_returns_sentinel driverOps driverTree (by rfl) "Don Quixote" 100
    (by simp [hasKey, driverTree])

/-- C5. Range query correctness: in an index reached from the empty one,
`rangeQuery a b` is the in-order traversal filtered by `a ≤ key ≤ b`; hence it is
in ascending key order without repetition, holds exactly the stored records of
the window, and is empty when `a > b` or when no stored key lies in the window. -/
theorem rangeQuery_correct (ops : List Op) (t : AVLTree) (h : reach ops = some t)
    (a b : Int) :
    rangeQuery ⟨t⟩ a b = (inorder t.root).filter (fun r => decide (a ≤ r.value ∧ r.value ≤ b)) ∧
    sortedKeys (rangeQuery ⟨t⟩ a b) ∧
    (rangeQuery ⟨t⟩ a b).Nodup ∧
    (∀ r, r ∈ rangeQuery ⟨t⟩ a b ↔ r ∈ inorder t.root ∧ a ≤ r.value ∧ r.value ≤ b) ∧
    (b < a → rangeQuery ⟨t⟩ a b = []) ∧
    ((∀ r ∈ inorder t.root, ¬ (a ≤ r.value ∧ r.value ≤ b)) → rangeQuery ⟨t⟩ a b = []) := by
  have ht := inv_of_reach h
  have heq : rangeQuery ⟨t⟩ a b =
      (inorder t.root).filter (fun r => decide (a ≤ r.value ∧ r.value ≤ b)) := by
    simp [rangeQuery, rangeQueryHelper_eq a b t.root [] ht.sorted]
  have hsorted : sortedKeys (rangeQuery ⟨t⟩ a b) := by
    rw [heq]; exact List.Pairwise.sublist (List.filter_sublist _) ht.sorted
  refine ⟨heq, hsorted, ?_, ?_, ?_, ?_⟩
  · exact hsorted.imp fun {x y} hxy hxy' => by rw [hxy'] at hxy; exact lt_irrefl _ hxy
  · intro r; rw [heq, List.mem_filter]; simp
  · intro hba
    rw [heq, List.filter_eq_nil_iff]
    intro r _
    simp only [decide_eq_true_eq, not_and]
    intro h1; omega
  · intro hnone
    rw [heq, List.filter_eq_nil_iff]
    intro r hr
    simpa using hnone r hr

/-- The range query of the driver, window 40 to 70. -/
theorem rangeQuery_correct_witness :
    rangeQuery ⟨driverTree⟩ 40 70 =
      (inorder driverTree.root).filter (fun r => decide (40 ≤ r.value ∧ r.value ≤ 70)) ∧
    sortedKeys (rangeQuery ⟨driverTree⟩ 40 70) ∧
    (rangeQuery ⟨driverTree⟩ 40 70).Nodup ∧
    (∀ r, r ∈ rangeQuery ⟨driverTree⟩ 40 70 ↔
      r ∈ inorder driverTree.root ∧ 40 ≤ r.value ∧ r.value ≤ 70) ∧
    ((70:Int) < 40 → rangeQuery ⟨driverTree⟩ 40 70 = []) ∧
    ((∀ r ∈ inorder driverTree.root, ¬ (40 ≤ r.value ∧ r.value ≤ 70)) →
      rangeQuery ⟨driverTree⟩ 40 70 = []) :=
  rangeQuery_correct driverOps driverTree (by rfl) 40 70

/-- C6. Insert of a new key: in an index reached from the empty one, inserting a
record whose ordering key is not stored returns, puts the record into the
in-order sequence between the smaller and the larger keys, keeps every other
record in place, and raises the node count by exactly one. -/
theorem insert_new_key (ops : List Op) (t : AVLTree) (h : reach ops = some t)
    (e : Record) (hnew : ¬ hasKey e.value (inorder t.root)) :
    ∃ t', t.insert e = some t' ∧
      (∃ before after, inorder t.root = before ++ after ∧
        inorder t'.root = before ++ e :: after ∧
        (∀ a ∈ before, a.value < e.value) ∧ (∀ b ∈ after, e.value < b.value)) ∧
      t'.nodeCount = t.nodeCount + 1 := by
  have ht := inv_of_reach h
  obtain ⟨t', h1, ht', hin, -⟩ := indexInv_insert ht e
  obtain ⟨before, after, h2, h3, h4, h5⟩ := insertList_of_not_hasKey e _ ht.sorted hnew
  refine ⟨t', h1, ⟨before, after, h2, by rw [hin, h3], h4, h5⟩, ?_⟩
  rw [ht'.count, ht.count, hin, h3, h2]
  simp
  omega

/-- Inserting the new key 60 into the driver's index. -/
theorem insert_new_key_witness :
    ∃ t', driverTree.insert ⟨"Moby Dick", 60⟩ = some t' ∧
      (∃ before after, inorder driverTree.root = before ++ after ∧
        inorder t'.root = before ++ ⟨"Moby Dick", 60⟩ :: after ∧
        (∀ a ∈ before, a.value < (⟨"Moby Dick", 60⟩ : Record).value) ∧
        (∀ b ∈ after, (⟨"Moby Dick", 60⟩ : Record).value < b.value)) ∧
      t'.nodeCount = driverTree.nodeCount + 1 :=
  insert_new_key driverOps driverTree (by rfl) ⟨"Moby Dick", 60⟩ (by simp [hasKey, driverTree])

/-- C7. Duplicate-key insert is a no-op: in an index reached from the empty one,
inserting a record whose ordering key is already stored, under any label,
returns and leaves the tree (shape, records, cached heights) and both counters
as they were. -/
theorem insert_duplicate_noop (ops : List Op) (t : AVLTree) (h : reach ops = some t)
    (e : Record) (hdup : hasKey e.value (inorder t.root)) :
    t.insert e = some t := by
  have ht := inv_of_reach h
  simp [AVLTree.insert, insertHelper_of_hasKey e t.root t.nodeCount ht.avl ht.sorted hdup]

/-- Inserting the stored key 40 under another label into the driver's index. -/
theorem insert_duplicate_noop_witness :
    driverTree.insert ⟨"Animal Farm", 40⟩ = some driverTree :=
  insert_duplicate_noop driverOps driverTree (by rfl) ⟨"Animal Farm", 40⟩
    ⟨⟨"1984", 40⟩, by decide, rfl⟩

/-- C8. Delete of a stored entry: in an index reached from the empty one,
deleting the label and ordering key of a stored record returns, removes exactly
that record from the in-order sequence, keeps all others in order, and lowers
the node count by exactly one. -/
theorem delete_stored (ops : List Op) (t : AVLTree) (h : reach ops = some t)
    (k : String) (v : Int) (hmem : (⟨k, v⟩ : Record) ∈ inorder t.root) :
    ∃ t', t.deleteNode k v = some t' ∧
      (∃ before after, inorder t.root = before ++ ⟨k, v⟩ :: after ∧
        inorder t'.root = before ++ after) ∧
      (⟨k, v⟩ : Record) ∉ inorder t'.root ∧
      t'.nodeCount = t.nodeCount - 1 := by
  have ht := inv_of_reach h
  obtain ⟨t', h1, ht', hin, -⟩ := indexInv_deleteNode ht k v
  obtain ⟨before, after, -, h3, h4⟩ := List.exists_erase_eq hmem
  have hnodup : (inorder t.root).Nodup :=
    ht.sorted.imp fun {x y} hxy hxy' => by rw [hxy'] at hxy; exact lt_irrefl _ hxy
  refine ⟨t', h1, ⟨before, after, h3, by rw [hin, h4]⟩, ?_, ?_⟩
  · rw [hin]; exact fun hm => (List.Nodup.mem_erase_iff hnodup).1 hm |>.1 rfl
  · rw [ht'.count, ht.count, hin, List.length_erase_of_mem hmem]
    have := List.length_pos_of_mem hmem
    omega

/-- Deleting the root of the driver's index, a node with two children. -/
theorem delete_stored_witness :
    ∃ t', driverTree.deleteNode "1984" 40 = some t' ∧
      (∃ before after, inorder driverTree.root = before ++ ⟨"1984", 40⟩ :: after ∧
        inorder t'.root = before ++ after) ∧
      (⟨"1984", 40⟩ : Record) ∉ inorder t'.root ∧
      t'.nodeCount = driverTree.nodeCount - 1 :=
  delete_stored driverOps driverTree (by rfl) "1984" 40 (by decide)

/-- C9. Delete of an absent key is a silent no-op: in an index reached from the
empty one, deleting an ordering key that no stored record has, with any label,
returns normally and leaves the tree (shape, records, cached heights) and both
counters as they were. -/
theorem delete_absent_noop (ops : List Op) (t : AVLTree) (h : reach ops = some t)
    (k : String) (v : Int) (habs : ¬ hasKey v (inorder t.root)) :
    t.deleteNode k v = some t := by
  have ht := inv_of_reach h
  simp [AVLTree.deleteNode,
    deleteHelper_of_not_mem t.root k v t.nodeCount ht.avl ht.sorted (not_mem_of_not_hasKey habs)]

/-- Deleting the absent key 100 from the driver's index. -/
theorem delete_absent_noop_witness :
    driverTree.deleteNode "Moby Dick" 100 = some driverTree :=
  delete_absent_noop driverOps driverTree (by rfl) "Moby Dick" 100
    (by simp [hasKey, driverTree])

/-- C10. Count invariant: after every call of every sequence of `insert` and
`deleteNode` calls on the empty index, the node count read by `getNodeCount` /
`countRecords` is the number of nodes reachable from the root, and is the
number of inserts that enlarged the tree minus the number of deletes that
shrank it. -/
theorem count_invariant (ops : List Op) (n : Nat) :
    ∃ t created removed, tally (ops.take n) AVLTree.empty = some (t, created, removed) ∧
      reach (ops.take n) = some t ∧
      countRecords ⟨t⟩ = t.root.size ∧
      t.nodeCount = t.root.size ∧
      t.nodeCount = (created : Int) - (removed : Int) := by
  obtain ⟨t, i, d, h1, h2, ht, h3⟩ := indexInv_tally (ops.take n) indexInv_empty
  refine ⟨t, i, d, h1, h2, ?_, ?_, ?_⟩
  · rw [size_eq_length_inorder]; exact ht.count
  · rw [size_eq_length_inorder]; exact ht.count
  · rw [h3]; simp [AVLTree.empty]

/-! ## Cached heights, search cost and size bounds -/

namespace AVLNode
open AVLTree IndexedDatabase

theorem avl_heightOK : ∀ t : AVLNode, avl t → heightOK t
  | .nil, _ => trivial
  | .node _ l r _, ht => ⟨ht.1, avl_heightOK l ht.2.2.2.1, avl_heightOK r ht.2.2.2.2⟩

theorem calculateHeight_nonneg : ∀ t : AVLNode, 0 ≤ calculateHeight t
  | .nil => le_refl _
  | .node _ l r _ => by
      have := calculateHeight_nonneg l
      have := calculateHeight_nonneg r
      simp only [calculateHeight]
      omega

/-- The node returned by `searchHelper` is never null. -/
theorem searchHelper_record :
    ∀ (t : AVLNode) (k : String) (v : Int) (c : Int),
      ∃ rec, (searchHelper t k v c).1.record? = some rec
  | .nil, k, v, c => ⟨⟨"", 0⟩, rfl⟩
  | .node x l r h, k, v, c => by
      rw [searchHelper]
      split_ifs
      · exact ⟨x, rfl⟩
      · exact searchHelper_record l k v _
      · exact searchHelper_record r k v _

/-- The node found by `searchHelper` does not depend on the incoming counter,
and the counter is advanced by an amount that does not depend on it either. -/
theorem searchHelper_shift :
    ∀ (t : AVLNode) (k : String) (v : Int) (c : Int),
      (searchHelper t k v c).1 = (searchHelper t k v 0).1 ∧
        (searchHelper t k v c).2 = c + (searchHelper t k v 0).2
  | .nil, k, v, c => by simp [searchHelper]
  | .node x l r h, k, v, c => by
      have hl := searchHelper_shift l k v
      have hr := searchHelper_shift r k v
      simp only [searchHelper]
      split_ifs
      · simp
      · rw [(hl (c + 1)).1, (hl (c + 1)).2, (hl (0 + 1)).1, (hl (0 + 1)).2]
        exact ⟨rfl, by omega⟩
      · rw [(hr (c + 1)).1, (hr (c + 1)).2, (hr (0 + 1)).1, (hr (0 + 1)).2]
        exact ⟨rfl, by omega⟩

/-- Every search visits at least one and at most height + 1 nodes, the null
position at the end of a failed probe included. -/
theorem searchHelper_count_le :
    ∀ (t : AVLNode) (k : String) (v : Int) (c : Int),
      c + 1 ≤ (searchHelper t k v c).2 ∧ (searchHelper t k v c).2 ≤ c + calculateHeight t + 1
  | .nil, k, v, c => by simp [searchHelper, calculateHeight]
  | .node x l r h, k, v, c => by
      have hl := searchHelper_count_le l k v (c + 1)
      have hr := searchHelper_count_le r k v (c + 1)
      have := calculateHeight_nonneg l
      have := calculateHeight_nonneg r
      simp only [searchHelper, calculateHeight]
      split_ifs
      · exact ⟨le_refl _, by omega⟩
      · constructor <;> omega
      · constructor <;> omega

theorem depth?_eq_none (e : Record) :
    ∀ t : AVLNode, e ∉ inorder t → depth? e t = none
  | .nil, _ => rfl
  | .node x l r h, hm => by
      rw [inorder_node] at hm
      have hl : e ∉ inorder l := fun h1 => hm (List.mem_append_left _ h1)
      have hr : e ∉ inorder r :=
        fun h1 => hm (List.mem_append_right _ (List.mem_cons_of_mem _ h1))
      have hx : ¬ x = e := fun h1 => hm (List.mem_append_right _ (h1 ▸ List.mem_cons_self _ _))
      simp [depth?, hx, depth?_eq_none e l hl, depth?_eq_none e r hr]

/-- On an ordered tree the search for a stored record visits exactly the nodes
on the path from the root to the node holding it. -/
theorem searchHelper_count_of_mem (e : Record) :
    ∀ (t : AVLNode) (c : Int), sortedKeys (inorder t) → e ∈ inorder t →
      ∃ d : Nat, depth? e t = some d ∧ (searchHelper t e.key e.value c).2 = c + d + 1 ∧
        (d : Int) + 1 ≤ calculateHeight t
  | .nil, c, _, h => by simp at h
  | .node x l r h0, c, hs, hm => by
      rw [inorder_node] at hs hm
      obtain ⟨hsl, hsr, hlx, hxr⟩ := sortedKeys_append_cons.1 hs
      have hnl := calculateHeight_nonneg l
      have hnr := calculateHeight_nonneg r
      by_cases hxe : x = e
      · subst hxe
        refine ⟨0, by simp [depth?], by simp [searchHelper], ?_⟩
        simp only [calculateHeight]; push_cast; omega
      · have heq : ¬ (e.value = x.value ∧ e.key = x.key) := by
          rintro ⟨h1, h2⟩
          apply hxe
          cases e; cases x; simp only at h1 h2; subst h1 h2; rfl
        have hne : e ≠ x := fun h => hxe h.symm
        by_cases hlt : e.value < x.value
        · have hel : e ∈ inorder l := by
            rcases List.mem_append.1 hm with h1 | h1
            · exact h1
            · rcases List.mem_cons.1 h1 with h2 | h2
              · exact absurd h2 hne
              · exact absurd (hxr e h2) (by omega)
          obtain ⟨d, hd, hcnt, hle⟩ := searchHelper_count_of_mem e l (c + 1) hsl hel
          refine ⟨d + 1, by simp [depth?, hxe, hd], ?_, ?_⟩
          · rw [searchHelper, if_neg heq, if_pos hlt, hcnt]; push_cast; omega
          · simp only [calculateHeight]; push_cast; omega
        · have her : e ∈ inorder r := by
            rcases List.mem_append.1 hm with h1 | h1
            · exact absurd (hlx e h1) (by omega)
            · rcases List.mem_cons.1 h1 with h2 | h2
              · exact absurd h2 hne
              · exact h2
          have hel : e ∉ inorder l := fun h1 => absurd (hlx e h1) (by omega)
          obtain ⟨d, hd, hcnt, hle⟩ := searchHelper_count_of_mem e r (c + 1) hsr her
          refine ⟨d + 1, by simp [depth?, hxe, hd, depth?_eq_none e l hel], ?_, ?_⟩
          · rw [searchHelper, if_neg heq, if_neg hlt, hcnt]; push_cast; omega
          · simp only [calculateHeight]; push_cast; omega

/-- A tree satisfying the AVL invariant whose height is at least `2 * k - 1` has
at least `2 ^ k - 1` nodes. -/
theorem pow_le_size_succ :
    ∀ (k : Nat) (t : AVLNode), avl t → 2 * (k : Int) ≤ height t + 1 → 2 ^ k ≤ size t + 1
  | 0, _, _, _ => by simp
  | k + 1, .nil, _, hk => by simp at hk; omega
  | k + 1, .node x l r h, ht, hk => by
      obtain ⟨hh, h1, h2, hl, hr⟩ := ht
      simp only [height_node] at hk
      push_cast at hk
      have ihl := pow_le_size_succ k l hl (by omega)
      have ihr := pow_le_size_succ k r hr (by omega)
      simp only [size, pow_succ]
      omega

/-- A tree of height `h` satisfying the AVL invariant has at least
`minNodes h` nodes. -/
theorem minNodes_le_size :
    ∀ (h : Nat) (t : AVLNode), avl t → height t = h → minNodes h ≤ size t
  | 0, _, _, _ => by simp [minNodes]
  | 1, .nil, _, hh => by simp at hh
  | 1, .node x l r h, _, _ => by simp [minNodes, size]; omega
  | h + 2, .nil, _, hh => by simp at hh; omega
  | h + 2, .node x l r h0, ht, hh => by
      obtain ⟨hh0, h1, h2, hl, hr⟩ := ht
      simp only [height_node] at hh
      push_cast at hh
      have hmono : minNodes h ≤ minNodes (h + 1) := by
        cases h with
        | zero => simp [minNodes]
        | succ n => simp only [minNodes]; omega
      have hnl := avl_height_nonneg l hl
      have hnr := avl_height_nonneg r hr
      simp only [minNodes, size]
      by_cases hc : height r ≤ height l
      · have e1 : height l = ((h + 1 : Nat) : Int) := by push_cast; omega
        have i1 := minNodes_le_size (h + 1) l hl e1
        rcases (show height r = ((h + 1 : Nat) : Int) ∨ height r = ((h : Nat) : Int) by
          push_cast; omega) with e2 | e2
        · have i2 := minNodes_le_size (h + 1) r hr e2; omega
        · have i2 := minNodes_le_size h r hr e2; omega
      · have e1 : height r = ((h + 1 : Nat) : Int) := by push_cast; omega
        have i1 := minNodes_le_size (h + 1) r hr e1
        have e2 : height l = ((h : Nat) : Int) := by omega
        have i2 := minNodes_le_size h l hl e2
        omega

end AVLNode

/-! ## Search through the public interface, runs of inserts -/

open AVLTree IndexedDatabase AVLNode

theorem search_eq (t : AVLTree) (k : String) (v : Int) :
    ∃ rec, (searchHelper t.root k v 0).1.record? = some rec ∧
      t.search k v =
        some (rec, { t with searchComparisonCount := (searchHelper t.root k v 0).2 }) := by
  obtain ⟨rec, hrec⟩ := searchHelper_record t.root k v 0
  exact ⟨rec, hrec, by simp [AVLTree.search, hrec]⟩

theorem getSearchComparisons_eq (db : IndexedDatabase) (k : String) (v : Int) :
    getSearchComparisons db k v =
      some ((searchHelper db.index.root k v 0).2,
        ⟨{ db.index with searchComparisonCount := (searchHelper db.index.root k v 0).2 }⟩) := by
  obtain ⟨rec, -, hs⟩ := search_eq db.index k v
  simp [getSearchComparisons, IndexedDatabase.search, hs, getLastSearchComparisons]

theorem mem_insertList (e a : Record) :
    ∀ L : List Record, a ∈ insertList e L → a = e ∨ a ∈ L
  | [], h => by simp [insertList] at h; exact Or.inl h
  | x :: xs, h => by
      simp only [insertList] at h
      split_ifs at h
      · rcases List.mem_cons.1 h with h1 | h1
        · exact Or.inl h1
        · exact Or.inr h1
      · rcases List.mem_cons.1 h with h1 | h1
        · exact Or.inr (h1 ▸ List.mem_cons_self _ _)
        · rcases mem_insertList e a xs h1 with h2 | h2
          · exact Or.inl h2
          · exact Or.inr (List.mem_cons_of_mem _ h2)
      · exact Or.inr h

/-- Inserting records with pairwise distinct keys, none of them stored, adds one
node per record. -/
theorem applyOps_inserts_size :
    ∀ (recs : List Record) {t0 : AVLTree}, IndexInv t0 → (recs.map Record.value).Nodup →
      (∀ e ∈ recs, ¬ hasKey e.value (inorder t0.root)) →
      ∃ t, applyOps (recs.map Op.insert) t0 = some t ∧ IndexInv t ∧
        size t.root = size t0.root + recs.length
  | [], t0, h0, _, _ => ⟨t0, rfl, h0, by simp⟩
  | e :: rest, t0, h0, hnd, hnew => by
      obtain ⟨t1, h1, ht1, hin, -⟩ := indexInv_insert h0 e
      rw [List.map_cons, List.nodup_cons] at hnd
      have hnew1 : ∀ a ∈ rest, ¬ hasKey a.value (inorder t1.root) := by
        rintro a ha ⟨b, hb, hbv⟩
        rw [hin] at hb
        rcases mem_insertList e b _ hb with h2 | h2
        · apply hnd.1
          rw [← h2, hbv]
          exact List.mem_map_of_mem _ ha
        · exact hnew a (List.mem_cons_of_mem _ ha) ⟨b, h2, hbv⟩
      obtain ⟨t, h2, ht, hsz⟩ := applyOps_inserts_size rest ht1 hnd.2 hnew1
      refine ⟨t, by simp [applyOps, Op.apply, h1, h2], ht, ?_⟩
      obtain ⟨before, after, e1, e2, -, -⟩ :=
        insertList_of_not_hasKey e _ h0.sorted (hnew e (List.mem_cons_self _ _))
      rw [hsz, size_eq_length_inorder t1.root, size_eq_length_inorder t0.root, hin, e2, e1]
      simp
      omega

theorem minNodes_le_succ : ∀ h : Nat, minNodes h ≤ minNodes (h + 1)
  | 0 => by simp [minNodes]
  | h + 1 => by simp only [minNodes]; omega

theorem seven_le_minNodes : ∀ h : Nat, 7 ≤ minNodes (h + 4)
  | 0 => by simp [minNodes]
  | h + 1 => le_trans (seven_le_minNodes h) (minNodes_le_succ (h + 4))

/-- The logarithmic height bound of a tree satisfying the AVL invariant. -/
theorem avl_height_le_clog (t : AVLNode) (ht : avl t) :
    height t ≤ 2 * (Nat.clog 2 (size t + 1) : Int) := by
  have hn := avl_height_nonneg t ht
  obtain ⟨h, hh⟩ : ∃ h : Nat, height t = h := ⟨(height t).toNat, by omega⟩
  have hp := pow_le_size_succ ((h + 1) / 2) t ht (by rw [hh]; push_cast; omega)
  have hk : (h + 1) / 2 ≤ Nat.clog 2 (size t + 1) := by
    by_contra hc
    push_neg at hc
    have h1 := (Nat.le_pow_iff_clog_le (by norm_num : 1 < 2)).2 (le_refl (Nat.clog 2 (size t + 1)))
    have h2 : 2 ^ (Nat.clog 2 (size t + 1) + 1) ≤ 2 ^ ((h + 1) / 2) :=
      Nat.pow_le_pow_right (by norm_num) hc
    rw [pow_succ] at h2
    have h3 : 0 < 2 ^ Nat.clog 2 (size t + 1) := Nat.pow_pos (by norm_num)
    omega
  rw [hh]
  omega

/-- The same bound against the number of nodes itself, from two nodes on. -/
theorem avl_height_le_clog_size (t : AVLNode) (ht : avl t) (hsz : 2 ≤ size t) :
    height t ≤ 2 * (Nat.clog 2 (size t) : Int) := by
  have hn := avl_height_nonneg t ht
  obtain ⟨h, hh⟩ : ∃ h : Nat, height t = h := ⟨(height t).toNat, by omega⟩
  have hp := pow_le_size_succ ((h + 1) / 2) t ht (by rw [hh]; push_cast; omega)
  have h1 : 1 ≤ Nat.clog 2 (size t) := Nat.clog_pos (by norm_num) hsz
  rw [hh]
  by_cases hsmall : h ≤ 2
  · omega
  · obtain ⟨k, hk⟩ : ∃ k, (h + 1) / 2 = k + 2 := ⟨(h + 1) / 2 - 2, by omega⟩
    rw [hk, pow_succ, pow_succ] at hp
    have hpos : 0 < 2 ^ k := Nat.pow_pos (by norm_num)
    have hlt : 2 ^ (k + 1) < size t := by rw [pow_succ]; omega
    have := (Nat.pow_lt_iff_lt_clog (by norm_num : 1 < 2)).1 hlt
    omega

/-! ## Heights, search cost and clearing -/

/-- C11. Height correctness invariant: after every call of every sequence of
`insert` and `deleteNode` calls on the empty index, the cached height of every
node is one more than the larger cached height of its children (0 for an absent
child), and `getTreeHeight`, which recomputes the height from the shape, returns
the cached height of the root, which is 0 for the empty index. -/
theorem height_correctness_invariant (ops : List Op) (n : Nat) :
    ∃ t, reach (ops.take n) = some t ∧ heightOK t.root ∧
      getTreeHeight ⟨t⟩ = AVLTree.height t.root ∧
      getTreeHeight ⟨AVLTree.empty⟩ = 0 := by
  obtain ⟨t, h, ht⟩ := reach_inv (ops.take n)
  exact ⟨t, h, avl_heightOK _ ht.avl, avl_calculateHeight _ ht.avl, rfl⟩

/-- C12. Search cost bound: for every index, reached from the empty one or not,
and every label and key, stored or not, `getSearchComparisons` returns a count
that is at most the tree height plus one. -/
theorem search_cost_bound (db : IndexedDatabase) (k : String) (v : Int) :
    ∃ c db', getSearchComparisons db k v = some (c, db') ∧ c ≤ getTreeHeight db + 1 := by
  refine ⟨_, _, getSearchComparisons_eq db k v, ?_⟩
  have := (searchHelper_count_le db.index.root k v 0).2
  simpa [getTreeHeight] using this

/-- C13. Logarithmic height: every index reached from the empty one holds a
number of entries `n`, read by `countRecords`, equal to its number of nodes, and
its height is at most `2 * ⌈log2 (n + 1)⌉`. -/
theorem logarithmic_height (ops : List Op) :
    ∃ t, reach ops = some t ∧ countRecords ⟨t⟩ = t.root.size ∧
      getTreeHeight ⟨t⟩ ≤ 2 * (Nat.clog 2 (t.root.size + 1) : Int) := by
  obtain ⟨t, h, ht⟩ := reach_inv ops
  refine ⟨t, h, ?_, ?_⟩
  · rw [size_eq_length_inorder]; exact ht.count
  · show calculateHeight t.root ≤ _
    rw [avl_calculateHeight _ ht.avl]
    exact avl_height_le_clog _ ht.avl

/-- C14, as the code behaves: `clearDatabase` leaves `nodeCount` alone, so after
one insert and a clear `countRecords` still reads 1. -/
theorem clearDatabase_count_stale :
    (reach [.insert ⟨"1984", 40⟩]).map (fun t => countRecords (clearDatabase ⟨t⟩)) = some 1 := by
  decide

/-- C15. Clear empties the structure: after `clearDatabase` on any index the
root is absent, nothing is left to release, `getTreeHeight` is 0, every range
query is empty, every search returns the record with empty label and key 0, and
a second `clearDatabase` changes nothing. -/
theorem clear_empties_structure (db : IndexedDatabase) :
    (clearDatabase db).index.root = .nil ∧
    clearHelper (clearDatabase db).index.root = [] ∧
    getTreeHeight (clearDatabase db) = 0 ∧
    (∀ a b : Int, rangeQuery (clearDatabase db) a b = []) ∧
    (∀ (k : String) (v : Int),
      ((clearDatabase db).search k v).map Prod.fst = some ⟨"", 0⟩) ∧
    clearDatabase (clearDatabase db) = clearDatabase db :=
  ⟨rfl, rfl, rfl, fun _ _ => rfl, fun _ _ => rfl, rfl⟩

/-- C16 fails as stated: with the record of empty label and key 0 stored, the
search for it returns a record with empty label and key 0 although it is
stored. -/
theorem sentinel_iff_not_stored_fails :
    ¬ ∀ (ops : List Op) (t : AVLTree) (k : String) (v : Int), reach ops = some t →
      ((t.search k v).map Prod.fst = some ⟨"", 0⟩ ↔ (⟨k, v⟩ : Record) ∉ inorder t.root) := by
  intro h
  have h1 := h [.insert ⟨"", 0⟩] ⟨.node ⟨"", 0⟩ .nil .nil 1, 1, 0⟩ "" 0 (by decide)
  exact absurd (h1.1 (by decide)) (by decide)

/-- C16, amended. In an index reached from the empty one, `search` returns a
record with empty label and key 0 exactly when no record with the given label
and key is stored or the given label is empty and the given key is 0. -/
theorem sentinel_iff_not_stored_or_sentinel (ops : List Op) (t : AVLTree)
    (h : reach ops = some t) (k : String) (v : Int) :
    (t.search k v).map Prod.fst = some ⟨"", 0⟩ ↔
      ((⟨k, v⟩ : Record) ∉ inorder t.root ∨ (k = "" ∧ v = 0)) := by
  have ht := inv_of_reach h
  by_cases hm : (⟨k, v⟩ : Record) ∈ inorder t.root
  · have hs := searchHelper_of_mem t.root ⟨k, v⟩ 0 ht.sorted hm
    simp only at hs
    simp [AVLTree.search, hs, hm]
  · have hs := searchHelper_of_not_mem t.root k v 0 ht.sorted hm
    simp [AVLTree.search, hs, hm, mk1]

/-- The driver's index and one of its stored records. -/
theorem sentinel_iff_not_stored_or_sentinel_witness :
    (driverTree.search "1984" 40).map Prod.fst = some ⟨"", 0⟩ ↔
      ((⟨"1984", 40⟩ : Record) ∉ inorder driverTree.root ∨ ("1984" = "" ∧ (40 : Int) = 0)) :=
  sentinel_iff_not_stored_or_sentinel driverOps driverTree (by rfl) "1984" 40

/-- C17. Search is read-only and its counter is reset per call: on every index
`search` returns, leaves the root and the node count as they were, and the
record and comparison count it yields are the same whatever value `c` the
counter held before; two consecutive `getSearchComparisons` calls return the same
number. -/
theorem search_read_only (t : AVLTree) (k : String) (v : Int) (c : Int) :
    ∃ rec cnt db1 db2,
      t.search k v = some (rec, { t with searchComparisonCount := cnt }) ∧
      AVLTree.search { t with searchComparisonCount := c } k v =
        some (rec, { t with searchComparisonCount := cnt }) ∧
      getSearchComparisons ⟨t⟩ k v = some (cnt, db1) ∧
      getSearchComparisons db1 k v = some (cnt, db2) ∧
      db1.index.root = t.root ∧ db1.index.nodeCount = t.nodeCount := by
  obtain ⟨rec, hrec, hs⟩ := search_eq t k v
  obtain ⟨rec', hrec', hs'⟩ := search_eq { t with searchComparisonCount := c } k v
  have : rec' = rec := by
    simp only at hrec'
    rw [hrec] at hrec'
    exact (Option.some.inj hrec').symm
  subst this
  exact ⟨rec', _, _, _, hs, hs', getSearchComparisons_eq ⟨t⟩ k v, getSearchComparisons_eq _ k v,
    rfl, rfl⟩

/-- C18. Exact cost of a successful search: in an index reached from the empty
one, a stored record lies at some depth `d` and `getSearchComparisons` for its
label and key returns exactly `d + 1`; for the record held by the root that is
1. -/
theorem successful_search_cost (ops : List Op) (t : AVLTree) (h : reach ops = some t)
    (e : Record) (he : e ∈ inorder t.root) :
    ∃ d : Nat, depth? e t.root = some d ∧
      (getSearchComparisons ⟨t⟩ e.key e.value).map Prod.fst = some ((d : Int) + 1) ∧
      (t.root.record? = some e →
        (getSearchComparisons ⟨t⟩ e.key e.value).map Prod.fst = some 1) := by
  have ht := inv_of_reach h
  obtain ⟨d, hd, hcnt, -⟩ := searchHelper_count_of_mem e t.root 0 ht.sorted he
  have hg : (getSearchComparisons ⟨t⟩ e.key e.value).map Prod.fst = some ((d : Int) + 1) := by
    rw [getSearchComparisons_eq]
    simp only [Option.map_some', hcnt]
    congr 1
    omega
  refine ⟨d, hd, hg, ?_⟩
  intro hroot
  cases hr : t.root with
  | nil => rw [hr] at hroot; simp at hroot
  | node x l r h0 =>
    rw [hr] at hroot hd
    simp only [record?_node, Option.some.injEq] at hroot
    simp only [depth?, hroot, if_true, Option.some.injEq] at hd
    rw [hg, ← hd]
    rfl

/-- The leaf with the smallest key of the driver's index lies at depth 2. -/
theorem successful_search_cost_witness :
    ∃ d : Nat, depth? ⟨"The Great Gatsby", 10⟩ driverTree.root = some d ∧
      (getSearchComparisons ⟨driverTree⟩ "The Great Gatsby" 10).map Prod.fst =
        some ((d : Int) + 1) ∧
      (driverTree.root.record? = some ⟨"The Great Gatsby", 10⟩ →
        (getSearchComparisons ⟨driverTree⟩ "The Great Gatsby" 10).map Prod.fst = some 1) :=
  successful_search_cost driverOps driverTree (by rfl) ⟨"The Great Gatsby", 10⟩ (by decide)

/-- C19. Logarithmic search cost: in an index reached from the empty one that
holds `n ≥ 2` entries (its node count, equal to its number of nodes), the search
for a stored record makes at most `2 * ⌈log2 n⌉` comparisons. -/
theorem stored_search_cost_logarithmic (ops : List Op) (t : AVLTree)
    (h : reach ops = some t) (n : Nat) (hn : countRecords ⟨t⟩ = n) (h2 : 2 ≤ n)
    (e : Record) (he : e ∈ inorder t.root) :
    ∃ c db', getSearchComparisons ⟨t⟩ e.key e.value = some (c, db') ∧
      c ≤ 2 * (Nat.clog 2 n : Int) := by
  have ht := inv_of_reach h
  have hsz : size t.root = n := by
    have h1 : countRecords ⟨t⟩ = (size t.root : Int) := by
      rw [size_eq_length_inorder]; exact ht.count
    rw [hn] at h1
    exact_mod_cast h1.symm
  obtain ⟨d, -, hcnt, hle⟩ := searchHelper_count_of_mem e t.root 0 ht.sorted he
  refine ⟨_, _, getSearchComparisons_eq ⟨t⟩ e.key e.value, ?_⟩
  have hb := avl_height_le_clog_size t.root ht.avl (by omega)
  rw [avl_calculateHeight _ ht.avl] at hle
  rw [hsz] at hb
  simp only [hcnt]
  omega

/-- The driver's index holds five entries; the bound is `2 * ⌈log2 5⌉ = 6`. -/
theorem stored_search_cost_logarithmic_witness :
    ∃ c db', getSearchComparisons ⟨driverTree⟩ "The Great Gatsby" 10 = some (c, db') ∧
      c ≤ 2 * (Nat.clog 2 5 : Int) :=
  stored_search_cost_logarithmic driverOps driverTree (by rfl) 5 (by rfl) (by decide)
    ⟨"The Great Gatsby", 10⟩ (by decide)

/-- C20 fails as stated: seven records with distinct keys, inserted in level
order of a sparsest tree, build a tree of height 4, above `⌈log2 8⌉ = 3`. -/
theorem tree_height_test_bound_fails :
    ¬ ∀ (recs : List Record) (t : AVLTree), (recs.map Record.value).Nodup →
      reach (recs.map Op.insert) = some t →
      getTreeHeight ⟨t⟩ ≤ (Nat.clog 2 (recs.length + 1) : Int) := by
  intro h
  have h1 := h sparseRecords sparseTree (by decide) (by decide)
  have h2 : Nat.clog 2 (sparseRecords.length + 1) = 3 := by simp [sparseRecords, Nat.clog]
  rw [h2] at h1
  exact absurd h1 (by decide)

/-- C20, amended. Inserting at most six records with distinct keys into the empty
index returns an index whose `getTreeHeight` is at most `⌈log2 (n + 1)⌉`, `n`
being the number of records (the driver checks `n = 5`). -/
theorem tree_height_test_bound_small (recs : List Record)
    (hd : (recs.map Record.value).Nodup) (hn : recs.length ≤ 6) :
    ∃ t, reach (recs.map Op.insert) = some t ∧
      getTreeHeight ⟨t⟩ ≤ (Nat.clog 2 (recs.length + 1) : Int) := by
  obtain ⟨t, h1, ht, hsz⟩ := applyOps_inserts_size recs indexInv_empty hd
    (by rintro e - ⟨a, ha, -⟩; simp [AVLTree.empty] at ha)
  refine ⟨t, h1, ?_⟩
  show calculateHeight t.root ≤ _
  rw [avl_calculateHeight _ ht.avl]
  have hnn := avl_height_nonneg _ ht.avl
  obtain ⟨hgt, hh⟩ : ∃ k : Nat, AVLTree.height t.root = k :=
    ⟨(AVLTree.height t.root).toNat, by omega⟩
  have hmin := minNodes_le_size hgt t.root ht.avl hh
  simp only [AVLTree.empty, size, Nat.zero_add] at hsz
  rw [hsz] at hmin
  rw [hh]
  have hlog : ∀ j : Nat, 2 ^ j < recs.length + 1 → j + 1 ≤ Nat.clog 2 (recs.length + 1) :=
    fun j hj => (Nat.pow_lt_iff_lt_clog (by norm_num : 1 < 2)).1 hj
  match hgt, hmin with
  | 0, _ => simp
  | 1, hm => have := hlog 0 (by simp only [minNodes] at hm; omega); omega
  | 2, hm => have := hlog 1 (by simp only [minNodes] at hm; omega); omega
  | 3, hm => have := hlog 2 (by simp only [minNodes] at hm; omega); omega
  | k + 4, hm => have := seven_le_minNodes k; omega

/-- The five records of the driver's first test group. -/
theorem tree_height_test_bound_small_witness :
    ∃ t, reach (([⟨"1984", 40⟩, ⟨"Pride and Prejudice", 20⟩, ⟨"War and Peace", 70⟩,
        ⟨"The Great Gatsby", 10⟩, ⟨"To Kill a Mockingbird", 50⟩] : List Record).map
          Op.insert) = some t ∧
      getTreeHeight ⟨t⟩ ≤ (Nat.clog 2 (([⟨"1984", 40⟩, ⟨"Pride and Prejudice", 20⟩,
        ⟨"War and Peace", 70⟩, ⟨"The Great Gatsby", 10⟩,
        ⟨"To Kill a Mockingbird", 50⟩] : List Record).length + 1) : Int) :=
  tree_height_test_bound_small _ (by decide) (by decide)

/-! ## Null records, probes, label mismatch and the rebalancing cases -/

open AVLTree IndexedDatabase AVLNode

theorem visitedNodes_of_not_mem :
    ∀ (t : AVLNode) (k : String) (v : Int) (c : Int), (⟨k, v⟩ : Record) ∉ inorder t →
      (searchHelper t k v c).2 = c + visitedNodes t k v + 1
  | .nil, k, v, c, _ => by simp [searchHelper, visitedNodes]
  | .node x l r h0, k, v, c, hm => by
      rw [inorder_node] at hm
      have hkl : (⟨k, v⟩ : Record) ∉ inorder l := fun h => hm (List.mem_append_left _ h)
      have hkr : (⟨k, v⟩ : Record) ∉ inorder r :=
        fun h => hm (List.mem_append_right _ (List.mem_cons_of_mem _ h))
      have hkx : (⟨k, v⟩ : Record) ≠ x :=
        fun he => hm (List.mem_append_right _ (he ▸ List.mem_cons_self _ _))
      have heq : ¬ (v = x.value ∧ k = x.key) := by
        rintro ⟨h1, h2⟩
        apply hkx
        cases x; simp only at h1 h2; subst h1 h2; rfl
      simp only [searchHelper, visitedNodes, if_neg heq]
      split_ifs
      · rw [visitedNodes_of_not_mem l k v _ hkl]; push_cast; omega
      · rw [visitedNodes_of_not_mem r k v _ hkr]; push_cast; omega

theorem takesMismatchBranch_of_mem :
    ∀ (t : AVLNode) (k k' : String) (v : Int), sortedKeys (inorder t) →
      (⟨k, v⟩ : Record) ∈ inorder t → k' ≠ k → takesMismatchBranch t k' v = true
  | .nil, k, k', v, _, hm, _ => by simp at hm
  | .node x l r h0, k, k', v, hs, hm, hne => by
      rw [inorder_node] at hs hm
      obtain ⟨hsl, hsr, hlx, hxr⟩ := sortedKeys_append_cons.1 hs
      rw [takesMismatchBranch]
      rcases List.mem_append.1 hm with h1 | h1
      · have h2 := hlx _ h1
        simp only at h2
        rw [if_pos h2]
        exact takesMismatchBranch_of_mem l k k' v hsl h1 hne
      · rcases List.mem_cons.1 h1 with h2 | h2
        · subst h2
          simp [hne]
        · have h3 := hxr _ h2
          simp only at h3
          rw [if_neg (by omega), if_pos (by omega)]
          exact takesMismatchBranch_of_mem r k k' v hsr h2 hne

theorem not_mem_of_label_ne {L : List Record} {k k' : String} {v : Int}
    (hs : sortedKeys L) (hm : (⟨k, v⟩ : Record) ∈ L) (hne : k' ≠ k) :
    (⟨k', v⟩ : Record) ∉ L := by
  intro hm'
  have hnd : L.Nodup := hs.imp fun {x y} hxy hxy' => by rw [hxy'] at hxy; exact lt_irrefl _ hxy
  obtain ⟨i, hi, hi'⟩ := List.getElem_of_mem hm
  obtain ⟨j, hj, hj'⟩ := List.getElem_of_mem hm'
  have hvi : (L[i]).value = v := by rw [hi']
  have hvj : (L[j]).value = v := by rw [hj']
  rcases lt_trichotomy i j with h | h | h
  · have := (List.pairwise_iff_getElem.1 hs) i j hi hj h
    omega
  · subst h
    rw [hi'] at hj'
    exact hne (by injection hj' with h1 _; exact h1.symm)
  · have := (List.pairwise_iff_getElem.1 hs) j i hj hi h
    omega

/-- Every node handed to the rebalancing lines during an insertion into a tree
satisfying the AVL invariant is a `RebalanceInput`. -/
theorem rebalanceCalls_input (e : Record) :
    ∀ t : AVLNode, avl t → ∀ n ∈ rebalanceCalls t e, RebalanceInput e n
  | .nil, _, n, hn => by simp [rebalanceCalls] at hn
  | .node x l r h, ht, n, hn => by
      obtain ⟨hh, hb1, hb2, hl, hr⟩ := ht
      have hnl := avl_height_nonneg l hl
      have hnr := avl_height_nonneg r hr
      rw [rebalanceCalls] at hn
      by_cases hlt : e.value < x.value
      · obtain ⟨l', c', hins, hl', hgrow⟩ := insertHelper_avl e l 0 hl
        rw [if_pos hlt, hins] at hn
        rcases List.mem_append.1 hn with h1 | h1
        · exact rebalanceCalls_input e l hl n h1
        · rw [List.mem_singleton] at h1
          subst h1
          refine ⟨x, l', r, h, rfl, hl', hr, by omega, by omega, ?_, by intro h2; omega⟩
          intro h2
          rcases hgrow with h3 | ⟨h3, h4 | h4⟩
          · omega
          · subst h4; simp only [height_nil] at h3; omega
          · exact h4
      · rw [if_neg hlt] at hn
        by_cases hgt : e.value > x.value
        · obtain ⟨r', c', hins, hr', hgrow⟩ := insertHelper_avl e r 0 hr
          rw [if_pos hgt, hins] at hn
          rcases List.mem_append.1 hn with h1 | h1
          · exact rebalanceCalls_input e r hr n h1
          · rw [List.mem_singleton] at h1
            subst h1
            refine ⟨x, l, r', h, rfl, hl, hr', by omega, by omega, by intro h2; omega, ?_⟩
            intro h2
            rcases hgrow with h3 | ⟨h3, h4 | h4⟩
            · omega
            · subst h4; simp only [height_nil] at h3; omega
            · exact h4
        · rw [if_neg hgt] at hn
          simp at hn

theorem avl_getBalance_bounds (t : AVLNode) (ht : avl t) : |getBalance t| ≤ 1 := by
  cases t with
  | nil => simp
  | node x l r h =>
    obtain ⟨-, h1, h2, -, -⟩ := ht
    rw [getBalance_node, abs_le]
    constructor <;> omega

theorem leftLeft_of_not (n : AVLNode) (e : Record) (h : ¬ getBalance n > 1) :
    leftLeft n e = false := by
  unfold leftLeft
  split
  · exact decide_eq_false fun hc => h hc.1
  · rfl

theorem leftRight_of_not (n : AVLNode) (e : Record) (h : ¬ getBalance n > 1) :
    leftRight n e = false := by
  unfold leftRight
  split
  · exact decide_eq_false fun hc => h hc.1
  · rfl

theorem rightRight_of_not (n : AVLNode) (e : Record) (h : ¬ getBalance n < -1) :
    rightRight n e = false := by
  unfold rightRight
  split
  · exact decide_eq_false fun hc => h hc.1
  · rfl

theorem rightLeft_of_not (n : AVLNode) (e : Record) (h : ¬ getBalance n < -1) :
    rightLeft n e = false := by
  unfold rightLeft
  split
  · exact decide_eq_false fun hc => h hc.1
  · rfl

/-- On a `RebalanceInput` with a height difference of two exactly one of the
four conditions holds and the node comes back rotated and balanced; with a
smaller difference it comes back unrotated. -/
theorem rebalanceInput_cases (e : Record) (n : AVLNode) (hn : RebalanceInput e n) :
    (1 < |getBalance n| →
      [leftLeft n e, rightRight n e, leftRight n e, rightLeft n e].count true = 1 ∧
      ∃ n', insertRebalance n e = some n' ∧ n' ≠ updateHeight n ∧ |getBalance n'| ≤ 1) ∧
    (|getBalance n| ≤ 1 → insertRebalance n e = some (updateHeight n)) := by
  obtain ⟨x, l, r, h0, rfl, hl, hr, hb1, hb2, hgl, hgr⟩ := hn
  obtain ⟨t, ht, htavl, hsame, hrotL, hrotR⟩ :=
    insertRebalance_spec x l r h0 e hl hr hb1 hb2 hgl hgr
  constructor
  · intro hbig
    rw [lt_abs, getBalance_node] at hbig
    have hres : ∃ n', insertRebalance (.node x l r h0) e = some n' ∧
        n' ≠ updateHeight (.node x l r h0) ∧ |getBalance n'| ≤ 1 := by
      refine ⟨t, ht, ?_, avl_getBalance_bounds t htavl⟩
      intro heq
      have hb := avl_getBalance_bounds t htavl
      rw [heq, updateHeight_node, getBalance_node, abs_le] at hb
      omega
    refine ⟨?_, hres⟩
    rcases hbig with hbig | hbig
    · obtain ⟨lx, ll, lr, lh, rfl, hcase⟩ := hgl (by omega)
      have hnb : ¬ getBalance (.node x (.node lx ll lr lh) r h0) < -1 := by
        rw [getBalance_node]; omega
      rw [rightRight_of_not _ e hnb, rightLeft_of_not _ e hnb]
      rcases hcase with ⟨hlt, -⟩ | ⟨hgt, -⟩
      · have h1 : leftLeft (.node x (.node lx ll lr lh) r h0) e = true :=
          decide_eq_true ⟨hbig, hlt⟩
        have h2 : leftRight (.node x (.node lx ll lr lh) r h0) e = false :=
          decide_eq_false fun hc => absurd hc.2 (by omega)
        rw [h1, h2]; rfl
      · have h1 : leftLeft (.node x (.node lx ll lr lh) r h0) e = false :=
          decide_eq_false fun hc => absurd hc.2 (by omega)
        have h2 : leftRight (.node x (.node lx ll lr lh) r h0) e = true :=
          decide_eq_true ⟨hbig, hgt⟩
        rw [h1, h2]; rfl
    · obtain ⟨rx, rl, rr, rh, rfl, hcase⟩ := hgr (by omega)
      have hb : getBalance (.node x l (.node rx rl rr rh) h0) < -1 := by
        rw [getBalance_node]; omega
      have hnb : ¬ getBalance (.node x l (.node rx rl rr rh) h0) > 1 := by
        rw [getBalance_node]; omega
      rw [leftLeft_of_not _ e hnb, leftRight_of_not _ e hnb]
      rcases hcase with ⟨hlt, -⟩ | ⟨hgt, -⟩
      · have h1 : rightRight (.node x l (.node rx rl rr rh) h0) e = false := by
          cases l <;> exact decide_eq_false fun hc => absurd hc.2 (by omega)
        have h2 : rightLeft (.node x l (.node rx rl rr rh) h0) e = true := by
          cases l <;> exact decide_eq_true ⟨hb, hlt⟩
        rw [h1, h2]; rfl
      · have h1 : rightRight (.node x l (.node rx rl rr rh) h0) e = true := by
          cases l <;> exact decide_eq_true ⟨hb, hgt⟩
        have h2 : rightLeft (.node x l (.node rx rl rr rh) h0) e = false := by
          cases l <;> exact decide_eq_false fun hc => absurd hc.2 (by omega)
        rw [h1, h2]; rfl
  · intro hsmall
    rw [getBalance_node, abs_le] at hsmall
    rw [ht, hsame (by omega) (by omega)]
    rfl

/-! ## The two embeddings of insertion agree on non-null records -/

namespace Nullable

@[simp] theorem nullable_height_nil : height .nil = 0 := rfl

@[simp] theorem nullable_height_node (x : Option Record) (l r : AVLNode) (h : Int) :
    height (.node x l r h) = h := rfl

@[simp] theorem nullable_updateHeight_node (x : Option Record) (l r : AVLNode) (h : Int) :
    updateHeight (.node x l r h) = .node x l r (1 + max (height l) (height r)) := rfl

@[simp] theorem nullable_getBalance_node (x : Option Record) (l r : AVLNode) (h : Int) :
    getBalance (.node x l r h) = height l - height r := rfl

theorem nullable_rotateRight_node (y x : Option Record) (a b c : AVLNode) (hx hy : Int) :
    rotateRight (.node y (.node x a b hx) c hy) =
      some (.node x a (.node y b c (1 + max (height b) (height c)))
        (1 + max (height a) (1 + max (height b) (height c)))) := rfl

theorem nullable_rotateLeft_node (x y : Option Record) (a b c : AVLNode) (hx hy : Int) :
    rotateLeft (.node x a (.node y b c hy) hx) =
      some (.node y (.node x a b (1 + max (height a) (height b))) c
        (1 + max (1 + max (height a) (height b)) (height c))) := rfl

end Nullable

open AVLTree AVLNode

@[simp] theorem embedNullable_nil : embedNullable .nil = .nil := rfl

@[simp] theorem embedNullable_node (x : Record) (l r : AVLNode) (h : Int) :
    embedNullable (.node x l r h) = .node (some x) (embedNullable l) (embedNullable r) h := rfl

@[simp] theorem embedNullable_height (t : AVLNode) :
    Nullable.height (embedNullable t) = AVLTree.height t := by
  cases t <;> rfl

theorem embedNullable_rotateRight (t : AVLNode) :
    Nullable.rotateRight (embedNullable t) = (AVLTree.rotateRight t).map embedNullable := by
  cases t with
  | nil => rfl
  | node y l c hy =>
    cases l with
    | nil => rfl
    | node x a b hx =>
      simp [Nullable.nullable_rotateRight_node, AVLTree.rotateRight_node]

theorem embedNullable_rotateLeft (t : AVLNode) :
    Nullable.rotateLeft (embedNullable t) = (AVLTree.rotateLeft t).map embedNullable := by
  cases t with
  | nil => rfl
  | node x a r hx =>
    cases r with
    | nil => rfl
    | node y b c hy =>
      simp [Nullable.nullable_rotateLeft_node, AVLTree.rotateLeft_node]

theorem embedNullable_value? (t : AVLNode) :
    Nullable.value? (embedNullable t) = t.record?.map Record.value := by
  cases t <;> rfl

theorem embedNullable_insertRebalance (x : Record) (l r : AVLNode) (h : Int) (e : Record) :
    Nullable.insertRebalance (.node (some x) (embedNullable l) (embedNullable r) h) (some e) =
      (AVLTree.insertRebalance (.node x l r h) e).map embedNullable := by
  have hrr := fun y a b h => embedNullable_rotateRight (.node y a b h)
  have hrl := fun y a b h => embedNullable_rotateLeft (.node y a b h)
  simp only [embedNullable_node] at hrr hrl
  simp only [Nullable.insertRebalance, AVLTree.insertRebalance, Nullable.nullable_updateHeight_node,
    AVLTree.updateHeight_node, Nullable.nullable_getBalance_node, AVLTree.getBalance_node,
    embedNullable_height, embedNullable_value?, Option.some_bind]
  by_cases h1 : height l - height r > 1 <;> by_cases h2 : height l - height r < -1 <;>
    cases hl : l.record? <;> cases hr : r.record? <;>
    simp [h1, h2, hl, hr, andThen, hrr, hrl, embedNullable_rotateLeft,
      embedNullable_rotateRight] <;>
    split_ifs <;> (try rfl) <;>
    cases hrot1 : rotateLeft l <;> cases hrot2 : rotateRight r <;>
    simp [hrot1, hrot2, hrr, hrl]

/-- On a tree without null records and a non-null argument the nullable
`insertHelper` does what the first embedding does. -/
theorem embedNullable_insertHelper (e : Record) :
    ∀ (t : AVLNode) (c : Int),
      Nullable.insertHelper (embedNullable t) (some e) c =
        (AVLTree.insertHelper t e c).map fun p => (embedNullable p.1, p.2)
  | .nil, c => rfl
  | .node x l r h, c => by
      have ihl := embedNullable_insertHelper e l c
      have ihr := embedNullable_insertHelper e r c
      simp only [embedNullable_node, Nullable.insertHelper, AVLTree.insertHelper,
        Option.some_bind, ihl, ihr]
      split_ifs
      · cases hins : AVLTree.insertHelper l e c with
        | none => simp
        | some p =>
          simp only [Option.map_some', Option.some_bind, embedNullable_insertRebalance,
            Option.map_map]
          rfl
      · cases hins : AVLTree.insertHelper r e c with
        | none => simp
        | some p =>
          simp only [Option.map_some', Option.some_bind, embedNullable_insertRebalance,
            Option.map_map]
          rfl
      · simp

/-! ## Contracts on null records, probes and rebalancing -/

/-- C21 fails as stated: on the empty index `insert` with a null record returns
normally, with a node holding the null record as root and a node count of 1. -/
theorem insert_null_on_empty_succeeds :
    Nullable.insert Nullable.empty none = some ⟨.node none .nil .nil 1, 1, 0⟩ := by
  rfl

/-- C21, amended. `insert` never tests its argument: called with a null record
on an index whose root is null it creates a node holding the null record and
adds one to the node count; on an index whose root is a node it dereferences the
null record in the first comparison, before any node or counter is written. -/
theorem insert_null_unchecked (c scc : Int) (nrec : Option Record)
    (l r : Nullable.AVLNode) (h : Int) :
    Nullable.insert ⟨.nil, c, scc⟩ none = some ⟨.node none .nil .nil 1, c + 1, scc⟩ ∧
    Nullable.insert ⟨.node nrec l r h, c, scc⟩ none = none := by
  constructor <;> rfl

/-- C25 fails as stated: on the empty index a search returns the sentinel after
one counted comparison although no node was visited. -/
theorem failed_search_cost_eq_visited_fails :
    ¬ ∀ (ops : List Op) (t : AVLTree) (k : String) (v : Int), reach ops = some t →
      (t.search k v).map Prod.fst = some ⟨"", 0⟩ →
      (getSearchComparisons ⟨t⟩ k v).map Prod.fst = some (visitedNodes t.root k v : Int) := by
  intro h
  have h1 := h [] AVLTree.empty "Don Quixote" 100 (by rfl) (by decide)
  exact absurd h1 (by decide)

/-- C25, amended. In an index reached from the empty one, the search for a label
and key that no stored record carries returns the sentinel, and the comparison
count it records is the number of nodes visited along the probe path plus one,
for the null position that ends the probe. -/
theorem failed_search_cost (ops : List Op) (t : AVLTree) (h : reach ops = some t)
    (k : String) (v : Int) (hm : (⟨k, v⟩ : Record) ∉ inorder t.root) :
    (t.search k v).map Prod.fst = some ⟨"", 0⟩ ∧
      (getSearchComparisons ⟨t⟩ k v).map Prod.fst =
        some ((visitedNodes t.root k v : Int) + 1) := by
  have ht := inv_of_reach h
  constructor
  · simp [AVLTree.search, searchHelper_of_not_mem t.root k v 0 ht.sorted hm, mk1]
  · rw [getSearchComparisons_eq]
    simp only [Option.map_some', visitedNodes_of_not_mem t.root k v 0 hm]
    congr 1
    omega

/-- The probe for the absent key 100 in the driver's index visits two nodes. -/
theorem failed_search_cost_witness :
    (driverTree.search "Don Quixote" 100).map Prod.fst = some ⟨"", 0⟩ ∧
      (getSearchComparisons ⟨driverTree⟩ "Don Quixote" 100).map Prod.fst =
        some ((visitedNodes driverTree.root "Don Quixote" 100 : Int) + 1) :=
  failed_search_cost driverOps driverTree (by rfl) "Don Quixote" 100 (by decide)

/-- C26. Delete requires label and key to match: in an index reached from the
empty one, deleting the ordering key of a stored record under another label
reaches the node with that key, takes the label-mismatch branch there, returns
the index unchanged (shape, records, cached heights, counters), and the stored
record is still found by `search`. -/
theorem delete_label_mismatch (ops : List Op) (t : AVLTree) (h : reach ops = some t)
    (k k' : String) (v : Int) (hst : (⟨k, v⟩ : Record) ∈ inorder t.root) (hne : k' ≠ k) :
    takesMismatchBranch t.root k' v = true ∧
      t.deleteNode k' v = some t ∧
      (t.search k v).map Prod.fst = some ⟨k, v⟩ := by
  have ht := inv_of_reach h
  refine ⟨takesMismatchBranch_of_mem t.root k k' v ht.sorted hst hne, ?_, ?_⟩
  · simp [AVLTree.deleteNode,
      deleteHelper_of_not_mem t.root k' v t.nodeCount ht.avl ht.sorted
        (not_mem_of_label_ne ht.sorted hst hne)]
  · have hs := searchHelper_of_mem t.root ⟨k, v⟩ 0 ht.sorted hst
    simp only at hs
    simp [AVLTree.search, hs]

/-- Deleting key 40 of the driver's index under a label it is not stored with. -/
theorem delete_label_mismatch_witness :
    takesMismatchBranch driverTree.root "Animal Farm" 40 = true ∧
      driverTree.deleteNode "Animal Farm" 40 = some driverTree ∧
      (driverTree.search "1984" 40).map Prod.fst = some ⟨"1984", 40⟩ :=
  delete_label_mismatch driverOps driverTree (by rfl) "1984" "Animal Farm" 40 (by decide)
    (by decide)

/-- C27. Rotations preserve order and recompute heights: `rotateRight` on a node
with a left child returns the former left child as root, above the demoted node;
the in-order sequence is the same, the cached height of the demoted node is
1 + max of its children's cached heights and the cached height of the new root is
1 + max of its children's, the demoted node's new height included; symmetrically
for `rotateLeft` on a node with a right child. -/
theorem rotations_preserve_order_and_heights (y x : Record) (a b c : AVLNode) (hx hy : Int) :
    (∃ hy' hx', rotateRight (.node y (.node x a b hx) c hy) =
        some (.node x a (.node y b c hy') hx') ∧
      hy' = 1 + max (height b) (height c) ∧
      hx' = 1 + max (height a) (height (.node y b c hy')) ∧
      inorder (.node x a (.node y b c hy') hx') = inorder (.node y (.node x a b hx) c hy)) ∧
    (∃ hx' hy', rotateLeft (.node x a (.node y b c hy) hx) =
        some (.node y (.node x a b hx') c hy') ∧
      hx' = 1 + max (height a) (height b) ∧
      hy' = 1 + max (height (.node x a b hx')) (height c) ∧
      inorder (.node y (.node x a b hx') c hy') = inorder (.node x a (.node y b c hy) hx)) := by
  refine ⟨⟨_, _, rotateRight_node y x a b c hx hy, rfl, rfl, ?_⟩,
    ⟨_, _, rotateLeft_node x y a b c hx hy, rfl, rfl, ?_⟩⟩ <;> simp

/-- C28. Insert applies exactly one rebalancing case: during an insertion into an
index reached from the empty one, for every node `n` handed to the rebalancing
lines on the way back up, if its balance exceeds 1 in absolute value then exactly
one of the four case conditions holds and the node comes back rotated, with a
balance of at most 1 in absolute value; otherwise it comes back unrotated, with
only its height updated. -/
theorem insert_exactly_one_case (ops : List Op) (t : AVLTree) (h : reach ops = some t)
    (e : Record) (n : AVLNode) (hn : n ∈ rebalanceCalls t.root e) :
    (1 < |getBalance n| →
      [leftLeft n e, rightRight n e, leftRight n e, rightLeft n e].count true = 1 ∧
      ∃ n', insertRebalance n e = some n' ∧ n' ≠ updateHeight n ∧ |getBalance n'| ≤ 1) ∧
    (|getBalance n| ≤ 1 → insertRebalance n e = some (updateHeight n)) :=
  rebalanceInput_cases e n (rebalanceCalls_input e t.root (inv_of_reach h).avl n hn)

/-- Inserting key 5 into the driver's index unbalances the node with key 20. -/
theorem insert_exactly_one_case_witness :
    (1 < |getBalance (.node ⟨"Pride and Prejudice", 20⟩
        (.node ⟨"The Great Gatsby", 10⟩ (.node ⟨"Emma", 5⟩ .nil .nil 1) .nil 2) .nil 2)| →
      [leftLeft (.node ⟨"Pride and Prejudice", 20⟩
          (.node ⟨"The Great Gatsby", 10⟩ (.node ⟨"Emma", 5⟩ .nil .nil 1) .nil 2) .nil 2)
          ⟨"Emma", 5⟩,
        rightRight (.node ⟨"Pride and Prejudice", 20⟩
          (.node ⟨"The Great Gatsby", 10⟩ (.node ⟨"Emma", 5⟩ .nil .nil 1) .nil 2) .nil 2)
          ⟨"Emma", 5⟩,
        leftRight (.node ⟨"Pride and Prejudice", 20⟩
          (.node ⟨"The Great Gatsby", 10⟩ (.node ⟨"Emma", 5⟩ .nil .nil 1) .nil 2) .nil 2)
          ⟨"Emma", 5⟩,
        rightLeft (.node ⟨"Pride and Prejudice", 20⟩
          (.node ⟨"The Great Gatsby", 10⟩ (.node ⟨"Emma", 5⟩ .nil .nil 1) .nil 2) .nil 2)
          ⟨"Emma", 5⟩].count true = 1 ∧
      ∃ n', insertRebalance (.node ⟨"Pride and Prejudice", 20⟩
          (.node ⟨"The Great Gatsby", 10⟩ (.node ⟨"Emma", 5⟩ .nil .nil 1) .nil 2) .nil 2)
          ⟨"Emma", 5⟩ = some n' ∧
        n' ≠ updateHeight (.node ⟨"Pride and Prejudice", 20⟩
          (.node ⟨"The Great Gatsby", 10⟩ (.node ⟨"Emma", 5⟩ .nil .nil 1) .nil 2) .nil 2) ∧
        |getBalance n'| ≤ 1) ∧
    (|getBalance (.node ⟨"Pride and Prejudice", 20⟩
        (.node ⟨"The Great Gatsby", 10⟩ (.node ⟨"Emma", 5⟩ .nil .nil 1) .nil 2) .nil 2)| ≤ 1 →
      insertRebalance (.node ⟨"Pride and Prejudice", 20⟩
          (.node ⟨"The Great Gatsby", 10⟩ (.node ⟨"Emma", 5⟩ .nil .nil 1) .nil 2) .nil 2)
          ⟨"Emma", 5⟩ =
        some (updateHeight (.node ⟨"Pride and Prejudice", 20⟩
          (.node ⟨"The Great Gatsby", 10⟩ (.node ⟨"Emma", 5⟩ .nil .nil 1) .nil 2) .nil 2))) :=
  insert_exactly_one_case driverOps driverTree (by rfl) ⟨"Emma", 5⟩ _ (by decide)

/-- C29. Rotations and successor lookup never dereference an absent child. In
this embedding `rotateRight` on a node without left child, `rotateLeft` on a node
without right child and `minValueNode` on a null subtree are `none`, and a `none`
anywhere inside `insertHelper` or `deleteHelper` makes the whole call `none`; on
an index reached from the empty one every `insert` and every `deleteNode`
returns an index, so none of these happens. -/
theorem no_absent_child_dereference (ops : List Op) (t : AVLTree) (h : reach ops = some t) :
    (∀ e : Record, ∃ t', t.insert e = some t') ∧
    (∀ (k : String) (v : Int), ∃ t', t.deleteNode k v = some t') ∧
    (∀ (y : Record) (c : AVLNode) (hy : Int), rotateRight (.node y .nil c hy) = none) ∧
    rotateRight .nil = none ∧
    (∀ (x : Record) (a : AVLNode) (hx : Int), rotateLeft (.node x a .nil hx) = none) ∧
    rotateLeft .nil = none ∧
    minValueNode .nil = none := by
  have ht := inv_of_reach h
  refine ⟨fun e => ?_, fun k v => ?_, fun _ _ _ => rfl, rfl, fun _ _ _ => rfl, rfl, rfl⟩
  · obtain ⟨t', h1, -⟩ := indexInv_insert ht e
    exact ⟨t', h1⟩
  · obtain ⟨t', h1, -⟩ := indexInv_deleteNode ht k v
    exact ⟨t', h1⟩

/-- The driver's index. -/
theorem no_absent_child_dereference_witness :
    (∀ e : Record, ∃ t', driverTree.insert e = some t') ∧
    (∀ (k : String) (v : Int), ∃ t', driverTree.deleteNode k v = some t') ∧
    (∀ (y : Record) (c : AVLNode) (hy : Int), rotateRight (.node y .nil c hy) = none) ∧
    rotateRight .nil = none ∧
    (∀ (x : Record) (a : AVLNode) (hx : Int), rotateLeft (.node x a .nil hx) = none) ∧
    rotateLeft .nil = none ∧
    minValueNode .nil = none :=
  no_absent_child_dereference driverOps driverTree (by rfl)

/-! ## The expression validator -/

namespace LinkedCalc

theorem isOperator_iff (c : Char) :
    isOperator c = true ↔ c = '+' ∨ c = '-' ∨ c = '/' ∨ c = '*' := by
  simp [isOperator, or_assoc]

theorem not_isDigit_of_isOperator {c : Char} (h : isOperator c = true) : isDigit c = false := by
  rcases (isOperator_iff c).1 h with rfl | rfl | rfl | rfl <;> decide

theorem ne_dot_of_isOperator {c : Char} (h : isOperator c = true) : c ≠ '.' := by
  rcases (isOperator_iff c).1 h with rfl | rfl | rfl | rfl <;> decide

theorem not_isOperator_dot : isOperator '.' = false := by decide

theorem not_isDigit_dot : isDigit '.' = false := by decide

theorem not_isOperator_of_isDigit {c : Char} (h : isDigit c = true) : isOperator c = false := by
  cases ho : isOperator c with
  | false => rfl
  | true => rw [not_isDigit_of_isOperator ho] at h; cases h

theorem ne_dot_of_isDigit {c : Char} (h : isDigit c = true) : c ≠ '.' := by
  rintro rfl
  rw [not_isDigit_dot] at h
  cases h

theorem wellFormed_iff_accepted (cs : List Char) : WellFormed cs ↔ Accepted false false cs := by
  constructor
  · intro h
    cases h with
    | single n hn =>
      exact ⟨cs, ⟨hn.1, Or.inr hn.2.1, by simpa using hn.2.2⟩, Or.inl rfl⟩
    | cons n op rest hn hop hrest =>
      exact ⟨n, ⟨hn.1, Or.inr hn.2.1, by simpa using hn.2.2⟩, Or.inr ⟨op, rest, hop, hrest, rfl⟩⟩
  · rintro ⟨n, ⟨h1, h2, h3⟩, h⟩
    have hn : IsNumber n := by
      refine ⟨h1, ?_, by simpa using h3⟩
      rcases h2 with h2 | h2
      · cases h2
      · exact h2
    rcases h with rfl | ⟨op, rest, hop, hrest, rfl⟩
    · exact WellFormed.single _ hn
    · exact WellFormed.cons n op rest hn hop hrest

theorem validateLoop_iff :
    ∀ (cs : List Char) (fd fdec : Bool), validateLoop cs fd fdec = true ↔ Accepted fd fdec cs
  | [], fd, fdec => by
      rw [validateLoop]
      constructor
      · intro h
        exact ⟨[], ⟨by simp, Or.inl h, by cases fdec <;> simp⟩, Or.inl rfl⟩
      · rintro ⟨n, ⟨-, h2, -⟩, h⟩
        have hn : n = [] := by
          rcases h with h | ⟨op, rest, -, -, h⟩
          · exact h.symm
          · cases n <;> simp at h
        subst hn
        rcases h2 with h2 | ⟨c, hc, -⟩
        · exact h2
        · simp at hc
  | c :: cs, fd, fdec => by
      have ih := validateLoop_iff cs
      rw [validateLoop]
      by_cases hop : isOperator c = true
      · rw [if_pos hop]
        constructor
        · intro h
          cases fd with
          | false => simp at h
          | true =>
            simp only [Bool.not_true, Bool.false_eq_true, if_false] at h
            have hw := (wellFormed_iff_accepted cs).2 ((ih false false).1 h)
            exact ⟨[], ⟨by simp, Or.inl rfl, by cases fdec <;> simp⟩,
              Or.inr ⟨c, cs, hop, hw, rfl⟩⟩
        · rintro ⟨n, ⟨h1, h2, -⟩, h⟩
          cases n with
          | nil =>
            rcases h with h | ⟨op, rest, hop', hrest, h⟩
            · cases h
            · simp only [List.nil_append, List.cons.injEq] at h
              obtain ⟨rfl, rfl⟩ := h
              have hfd : fd = true := by
                rcases h2 with h2 | ⟨d, hd, -⟩
                · exact h2
                · simp at hd
              subst hfd
              simp only [Bool.not_true, Bool.false_eq_true, if_false]
              exact (ih false false).2 ((wellFormed_iff_accepted _).1 hrest)
          | cons d n' =>
            have hcd : c = d := by
              rcases h with h | ⟨op, rest, -, -, h⟩
              · simp only [List.cons.injEq] at h; exact h.1
              · simp only [List.cons_append, List.cons.injEq] at h; exact h.1
            subst hcd
            rcases h1 c (List.mem_cons_self _ _) with hd | hd
            · rw [not_isOperator_of_isDigit hd] at hop; cases hop
            · exact absurd hd (ne_dot_of_isOperator hop)
      · rw [if_neg hop]
        have hop' : isOperator c = false := by simpa using hop
        by_cases hdig : isDigit c = true
        · rw [if_pos hdig]
          have hdot := ne_dot_of_isDigit hdig
          rw [ih true fdec]
          constructor
          · rintro ⟨n, ⟨h1, -, h3⟩, h⟩
            refine ⟨c :: n, ⟨?_, Or.inr ⟨c, List.mem_cons_self _ _, hdig⟩, ?_⟩, ?_⟩
            · intro d hd
              rcases List.mem_cons.1 hd with rfl | hd
              · exact Or.inl hdig
              · exact h1 d hd
            · rw [List.count_cons_of_ne hdot.symm]; exact h3
            · rcases h with rfl | ⟨op, rest, ho, hrest, rfl⟩
              · exact Or.inl rfl
              · exact Or.inr ⟨op, rest, ho, hrest, rfl⟩
          · rintro ⟨n, ⟨h1, -, h3⟩, h⟩
            cases n with
            | nil =>
              rcases h with h | ⟨op, rest, ho, -, h⟩
              · cases h
              · simp only [List.nil_append, List.cons.injEq] at h
                rw [← h.1, hop'] at ho; cases ho
            | cons d n' =>
              have hcd : c = d ∧ (cs = n' ∨ ∃ op rest, isOperator op = true ∧ WellFormed rest ∧
                  cs = n' ++ op :: rest) := by
                rcases h with h | ⟨op, rest, ho, hrest, h⟩
                · simp only [List.cons.injEq] at h; exact ⟨h.1, Or.inl h.2⟩
                · simp only [List.cons_append, List.cons.injEq] at h
                  exact ⟨h.1, Or.inr ⟨op, rest, ho, hrest, h.2⟩⟩
              obtain ⟨rfl, htail⟩ := hcd
              refine ⟨n', ⟨fun d hd => h1 d (List.mem_cons_of_mem _ hd), Or.inl rfl, ?_⟩, htail⟩
              rw [List.count_cons_of_ne hdot.symm] at h3; exact h3
        · rw [if_neg hdig]
          have hdig' : isDigit c = false := by simpa using hdig
          by_cases hdot : c = '.'
          · subst hdot
            rw [if_pos rfl]
            constructor
            · intro h
              cases fdec with
              | true => simp at h
              | false =>
                simp only [Bool.false_eq_true, if_false] at h
                obtain ⟨n, ⟨h1, h2, h3⟩, htail⟩ := (ih fd true).1 h
                refine ⟨'.' :: n, ⟨?_, ?_, ?_⟩, ?_⟩
                · intro d hd
                  rcases List.mem_cons.1 hd with rfl | hd
                  · exact Or.inr rfl
                  · exact h1 d hd
                · rcases h2 with h2 | ⟨d, hd, hdd⟩
                  · exact Or.inl h2
                  · exact Or.inr ⟨d, List.mem_cons_of_mem _ hd, hdd⟩
                · simp only [List.count_cons_self, if_true] at h3 ⊢
                  simpa using h3
                · rcases htail with rfl | ⟨op, rest, ho, hrest, rfl⟩
                  · exact Or.inl rfl
                  · exact Or.inr ⟨op, rest, ho, hrest, rfl⟩
            · rintro ⟨n, ⟨h1, h2, h3⟩, h⟩
              cases n with
              | nil =>
                rcases h with h | ⟨op, rest, ho, -, h⟩
                · cases h
                · simp only [List.nil_append, List.cons.injEq] at h
                  rw [← h.1, not_isOperator_dot] at ho; cases ho
              | cons d n' =>
                have hcd : '.' = d ∧ (cs = n' ∨ ∃ op rest, isOperator op = true ∧
                    WellFormed rest ∧ cs = n' ++ op :: rest) := by
                  rcases h with h | ⟨op, rest, ho, hrest, h⟩
                  · simp only [List.cons.injEq] at h; exact ⟨h.1, Or.inl h.2⟩
                  · simp only [List.cons_append, List.cons.injEq] at h
                    exact ⟨h.1, Or.inr ⟨op, rest, ho, hrest, h.2⟩⟩
                obtain ⟨rfl, htail⟩ := hcd
                simp only [List.count_cons_self] at h3
                have hfdec : fdec = false := by
                  cases fdec with
                  | false => rfl
                  | true => simp at h3
                subst hfdec
                simp only [Bool.false_eq_true, if_false]
                rw [ih fd true]
                refine ⟨n', ⟨fun d hd => h1 d (List.mem_cons_of_mem _ hd), ?_, by simpa using h3⟩,
                  htail⟩
                rcases h2 with h2 | ⟨d, hd, hdd⟩
                · exact Or.inl h2
                · rcases List.mem_cons.1 hd with rfl | hd
                  · rw [not_isDigit_dot] at hdd; cases hdd
                  · exact Or.inr ⟨d, hd, hdd⟩
          · rw [if_neg hdot]
            constructor
            · intro h; cases h
            · rintro ⟨n, ⟨h1, -, -⟩, h⟩
              cases n with
              | nil =>
                rcases h with h | ⟨op, rest, ho, -, h⟩
                · cases h
                · simp only [List.nil_append, List.cons.injEq] at h
                  rw [← h.1, hop'] at ho; cases ho
              | cons d n' =>
                have hcd : c = d := by
                  rcases h with h | ⟨op, rest, -, -, h⟩
                  · simp only [List.cons.injEq] at h; exact h.1
                  · simp only [List.cons_append, List.cons.injEq] at h; exact h.1
                subst hcd
                rcases h1 c (List.mem_cons_self _ _) with hd | hd
                · rw [hdig'] at hd; cases hd
                · exact absurd hd hdot

theorem validateExpression_eq (cs : List Char) :
    validateExpression ⟨cs⟩ = validateLoop cs false false := by
  cases cs <;> rfl

theorem validateLoop_append_false (rest : List Char)
    (h : ∀ fd fdec, validateLoop rest fd fdec = false) :
    ∀ (pre : List Char) (fd fdec : Bool), validateLoop (pre ++ rest) fd fdec = false
  | [], fd, fdec => h fd fdec
  | c :: pre, fd, fdec => by
      have ih := validateLoop_append_false rest h pre
      rw [List.cons_append, validateLoop]
      split_ifs <;> first | rfl | exact ih _ _

/-- C30. Expression validation accepts exactly well-formed operand/operator
sequences: `validateExpression` returns true if and only if the list is a
non-empty sequence of numbers separated by single operator characters, a number
being made of digits and `.` with at least one digit and at most one `.`; it
returns false for the empty list, for a list that starts or ends with an
operator, for two adjacent operators, and for a list holding any other
character. -/
theorem validateExpression_iff_wellFormed (cs : List Char) :
    (validateExpression ⟨cs⟩ = true ↔ WellFormed cs) ∧
    validateExpression ⟨[]⟩ = false ∧
    (∀ op rest, isOperator op = true → validateExpression ⟨op :: rest⟩ = false) ∧
    (∀ pre op, isOperator op = true → validateExpression ⟨pre ++ [op]⟩ = false) ∧
    (∀ pre a b post, isOperator a = true → isOperator b = true →
      validateExpression ⟨pre ++ a :: b :: post⟩ = false) ∧
    (∀ pre c post, isOperator c = false → isDigit c = false → c ≠ '.' →
      validateExpression ⟨pre ++ c :: post⟩ = false) := by
  refine ⟨?_, rfl, ?_, ?_, ?_, ?_⟩
  · rw [validateExpression_eq, validateLoop_iff, wellFormed_iff_accepted]
  · intro op rest hop
    simp [validateExpression, validateLoop, hop]
  · intro pre op hop
    rw [validateExpression_eq]
    apply validateLoop_append_false
    intro fd fdec
    cases fd <;> simp [validateLoop, hop]
  · intro pre a b post ha hb
    rw [validateExpression_eq]
    apply validateLoop_append_false
    intro fd fdec
    cases fd <;> simp [validateLoop, ha, hb]
  · intro pre c post ho hd hdot
    rw [validateExpression_eq]
    apply validateLoop_append_false
    intro fd fdec
    simp [validateLoop, ho, hd, hdot]

end LinkedCalc

/-! ## The file system: paths and updates -/

namespace FileSystemNode

@[simp] theorem name_mk (n : String) (d : Bool) (ch : List FileSystemNode) :
    (mk n d ch).name = n := rfl

@[simp] theorem isDirectory_mk (n : String) (d : Bool) (ch : List FileSystemNode) :
    (mk n d ch).isDirectory = d := rfl

@[simp] theorem children_mk (n : String) (d : Bool) (ch : List FileSystemNode) :
    (mk n d ch).children = ch := rfl

theorem mk_eta (nd : FileSystemNode) :
    mk nd.name nd.isDirectory nd.children = nd := by
  cases nd; rfl

theorem descend_updateAt (f : FileSystemNode → FileSystemNode) :
    ∀ (path : List Nat) (root nd : FileSystemNode), descend root path = some nd →
      descend (updateAt root path f) path = some (f nd)
  | [], root, nd, h => by
      simp only [descend, Option.some.injEq] at h
      subst h; rfl
  | i :: path, root, nd, h => by
      rw [descend] at h
      cases hc : root.children[i]? with
      | none => rw [hc] at h; cases h
      | some child =>
        rw [hc] at h
        have hi : i < root.children.length := by
          by_contra hge
          rw [List.getElem?_eq_none (by omega)] at hc; cases hc
        simp only [updateAt, hc, descend, children_mk, List.getElem?_set_self hi]
        exact descend_updateAt f path child nd h

theorem descend_updateAt_of_incomparable (f : FileSystemNode → FileSystemNode) :
    ∀ (path q : List Nat) (root : FileSystemNode), ¬ path <+: q → ¬ q <+: path →
      descend (updateAt root path f) q = descend root q
  | [], q, root, h, _ => absurd (List.nil_prefix) h
  | i :: path, [], root, _, h => absurd (List.nil_prefix) h
  | i :: path, j :: q, root, h1, h2 => by
      cases hc : root.children[i]? with
      | none => simp only [updateAt, hc]
      | some child =>
        simp only [updateAt, hc, descend, children_mk]
        by_cases hij : i = j
        · subst hij
          have hi : i < root.children.length := by
            by_contra hge
            rw [List.getElem?_eq_none (by omega)] at hc; cases hc
          rw [List.getElem?_set_self hi, hc]
          apply descend_updateAt_of_incomparable f path q child
          · intro hp; exact h1 ((List.prefix_cons_inj i).2 hp)
          · intro hp; exact h2 ((List.prefix_cons_inj i).2 hp)
        · rw [List.getElem?_set_ne hij]

/-- A nd strictly above the updated one keeps its name, its kind and the
number of its children. -/
theorem descend_updateAt_of_prefix (f : FileSystemNode → FileSystemNode) :
    ∀ (path q : List Nat) (root nd : FileSystemNode), q <+: path → q ≠ path →
      descend root q = some nd →
      ∃ nd', descend (updateAt root path f) q = some nd' ∧ nd'.name = nd.name ∧
        nd'.isDirectory = nd.isDirectory ∧ nd'.children.length = nd.children.length
  | [], q, root, nd, h1, h2, _ => absurd (List.prefix_nil.1 h1) h2
  | i :: path, [], root, nd, _, _, h => by
      simp only [descend, Option.some.injEq] at h
      subst h
      cases hc : root.children[i]? with
      | none => exact ⟨root, by simp [updateAt, hc, descend], rfl, rfl, rfl⟩
      | some child =>
        exact ⟨mk root.name root.isDirectory (root.children.set i (updateAt child path f)),
          by simp only [updateAt, hc, descend], rfl, rfl, by simp⟩
  | i :: path, j :: q, root, nd, h1, h2, h => by
      have hij : j = i := by
        obtain ⟨t, ht⟩ := h1
        simp only [List.cons_append, List.cons.injEq] at ht
        exact ht.1
      subst hij
      rw [descend] at h
      cases hc : root.children[j]? with
      | none => rw [hc] at h; cases h
      | some child =>
        rw [hc] at h
        have hi : j < root.children.length := by
          by_contra hge
          rw [List.getElem?_eq_none (by omega)] at hc; cases hc
        simp only [updateAt, hc, descend, children_mk, List.getElem?_set_self hi]
        exact descend_updateAt_of_prefix f path q child nd ((List.prefix_cons_inj j).1 h1)
          (fun he => h2 (by rw [he])) h

theorem updateAt_name (f : FileSystemNode → FileSystemNode)
    (hf : ∀ nd, (f nd).name = nd.name) (root : FileSystemNode) (path : List Nat) :
    (updateAt root path f).name = root.name := by
  cases path with
  | nil => exact hf root
  | cons i rest =>
    cases hc : root.children[i]? with
    | none => simp only [updateAt, hc]
    | some child => simp only [updateAt, hc, name_mk]

theorem namesAlong_updateAt (f : FileSystemNode → FileSystemNode)
    (hf : ∀ nd, (f nd).name = nd.name) :
    ∀ (path : List Nat) (root nd : FileSystemNode), descend root path = some nd →
      namesAlong (updateAt root path f) path = namesAlong root path
  | [], _, _, _ => rfl
  | i :: path, root, nd, h => by
      rw [descend] at h
      cases hc : root.children[i]? with
      | none => rw [hc] at h; cases h
      | some child =>
        rw [hc] at h
        have hi : i < root.children.length := by
          by_contra hge
          rw [List.getElem?_eq_none (by omega)] at hc; cases hc
        simp only [updateAt, hc, namesAlong, children_mk, List.getElem?_set_self hi]
        rw [namesAlong_updateAt f hf path child nd h, updateAt_name f hf]

theorem descend_append_singleton :
    ∀ (path : List Nat) (i : Nat) (root : FileSystemNode),
      descend root (path ++ [i]) = (descend root path).bind fun nd => nd.children[i]?
  | [], i, root => by
      simp only [List.nil_append, descend, Option.some_bind]
      cases root.children[i]? <;> rfl
  | j :: path, i, root => by
      simp only [List.cons_append, descend]
      cases root.children[j]? with
      | none => rfl
      | some child => exact descend_append_singleton path i child

theorem namesAlong_append_singleton :
    ∀ (path : List Nat) (i : Nat) (root nd child : FileSystemNode),
      descend root path = some nd → nd.children[i]? = some child →
      ∃ names, namesAlong root path = some names ∧
        namesAlong root (path ++ [i]) = some (names ++ [child.name])
  | [], i, root, nd, child, h, hc => by
      simp only [descend, Option.some.injEq] at h
      subst h
      exact ⟨[], rfl, by simp [namesAlong, hc]⟩
  | j :: path, i, root, nd, child, h, hc => by
      rw [descend] at h
      cases hj : root.children[j]? with
      | none => rw [hj] at h; cases h
      | some c =>
        rw [hj] at h
        obtain ⟨names, h1, h2⟩ := namesAlong_append_singleton path i c nd child h hc
        exact ⟨c.name :: names, by simp [namesAlong, hj, h1],
          by simp [namesAlong, hj, h2]⟩

theorem firstIndex_append_of_none (p : FileSystemNode → Bool) (y : FileSystemNode)
    (hy : p y = true) :
    ∀ xs : List FileSystemNode, xs.any p = false → firstIndex p (xs ++ [y]) = some xs.length
  | [], _ => by simp [firstIndex, hy]
  | x :: xs, h => by
      simp only [List.any_cons, Bool.or_eq_false_iff] at h
      simp [firstIndex, h.1, firstIndex_append_of_none p y hy xs h.2]

theorem eraseFirst_spec (p : FileSystemNode → Bool) :
    ∀ xs : List FileSystemNode, xs.any p = true →
      ∃ before x after, xs = before ++ x :: after ∧ p x = true ∧
        (∀ b ∈ before, p b = false) ∧ eraseFirst p xs = before ++ after
  | [], h => by simp at h
  | x :: xs, h => by
      by_cases hx : p x = true
      · exact ⟨[], x, xs, rfl, hx, by simp, by simp [eraseFirst, hx]⟩
      · have hx' : p x = false := by simpa using hx
        simp only [List.any_cons, hx', Bool.false_or] at h
        obtain ⟨before, y, after, h1, h2, h3, h4⟩ := eraseFirst_spec p xs h
        refine ⟨x :: before, y, after, by rw [h1]; rfl, h2, ?_, by simp [eraseFirst, hx', h4]⟩
        intro b hb
        rcases List.mem_cons.1 hb with rfl | hb
        · exact hx'
        · exact h3 b hb

end FileSystemNode

theorem foldr_path_append (names : List String) (tail : String) :
    names.foldr (fun nm path => "/" ++ nm ++ path) tail =
      names.foldr (fun nm path => "/" ++ nm ++ path) "" ++ tail := by
  induction names with
  | nil => simp
  | cons n rest ih =>
    rw [List.foldr_cons, List.foldr_cons, ih]
    simp only [String.append_assoc]

/-! ## The file system: creation, navigation and removal -/

namespace FileSystem
open FileSystemNode

theorem added_of_pushChild (fs : FileSystem) (cur new : FileSystemNode)
    (hcur : fs.current? = some cur) :
    Added fs { fs with root := fs.root.updateAt fs.currentDirectory (pushChild new) } cur new :=
  ⟨rfl, descend_updateAt _ _ _ _ hcur,
    fun q h1 h2 => descend_updateAt_of_incomparable _ _ q _ h1 h2,
    fun q nd h1 h2 h3 => descend_updateAt_of_prefix _ _ q _ nd h1 h2 h3⟩

theorem any_eq_true_of_exists {p : FileSystemNode → Bool} {xs : List FileSystemNode}
    (h : ∃ x ∈ xs, p x = true) : xs.any p = true := by
  simpa using h

theorem any_eq_false_of_forall {p : FileSystemNode → Bool} {xs : List FileSystemNode}
    (h : ∀ x ∈ xs, p x = false) : xs.any p = false := by
  rw [Bool.eq_false_iff]
  intro hc
  obtain ⟨x, hx, hpx⟩ := List.any_eq_true.1 hc
  rw [h x hx] at hpx
  cases hpx

/-- C22 fails as stated: a directory named `..` can be created, and `cd` with
that name then stays at the root instead of entering it. -/
theorem mkdir_cd_pwd_fails :
    ¬ ∀ (fs fs1 : FileSystem) (name : String), mkdir fs name = .ok fs1 →
      ∃ fs2 prev, cd fs1 name = .ok fs2 ∧ fs2.current? = some (.mk name true []) ∧
        pwd fs = some prev ∧ pwd fs2 = some (prev ++ name ++ "/") := by
  intro h
  obtain ⟨fs2, prev, h1, h2, -, -⟩ :=
    h fresh ⟨.mk "/" true [.mk ".." true []], []⟩ ".." rfl
  have hcd : cd ⟨.mk "/" true [.mk ".." true []], []⟩ ".." =
      .ok ⟨.mk "/" true [.mk ".." true []], []⟩ := rfl
  rw [hcd] at h1
  injection h1 with h1
  subst h1
  simp [current?, descend] at h2

/-- C22, amended. After a successful `mkdir(name)` with a name other than `/`
and `..`, `cd(name)` returns and makes the directory just created, the last child
of the previous current directory, the current directory, and `pwd` then returns
the previous `pwd` followed by the name and `/`; `cd("/")` always returns and
makes `pwd` return `/`. -/
theorem mkdir_cd_pwd (fs fs1 : FileSystem) (name : String) (h : mkdir fs name = .ok fs1)
    (h1 : name ≠ "/") (h2 : name ≠ "..") :
    (∃ cur fs2 prev, fs.current? = some cur ∧ cd fs1 name = .ok fs2 ∧
      fs2.root = fs1.root ∧
      fs2.currentDirectory = fs.currentDirectory ++ [cur.children.length] ∧
      fs2.current? = some (.mk name true []) ∧
      pwd fs = some prev ∧ pwd fs2 = some (prev ++ name ++ "/")) ∧
    (∀ fs0 : FileSystem, ∃ fs', cd fs0 "/" = .ok fs' ∧ pwd fs' = some "/") := by
  refine ⟨?_, fun fs0 => ⟨{ fs0 with currentDirectory := [] }, rfl, rfl⟩⟩
  unfold mkdir at h
  cases hcur : fs.current? with
  | none => rw [hcur] at h; cases h
  | some cur =>
    rw [hcur] at h
    simp only at h
    split_ifs at h with hany
    injection h with h
    subst h
    have hany' : cur.children.any (fun child => child.name == name && child.isDirectory) = false := by
      simpa using hany
    have hdesc := descend_updateAt (pushChild (.mk name true [])) _ _ _ hcur
    have hchild : (pushChild (.mk name true []) cur).children[cur.children.length]? =
        some (.mk name true []) := by
      simp [pushChild]
    have hidx := firstIndex_append_of_none
      (fun child => child.name == name && child.isDirectory) (.mk name true []) (by simp)
      cur.children hany'
    obtain ⟨names, hn1, hn2⟩ := namesAlong_append_singleton _ _ _ _ _ hdesc hchild
    rw [namesAlong_updateAt (pushChild (.mk name true [])) (fun _ => rfl) _ _ _ hcur] at hn1
    simp only [name_mk] at hn2
    refine ⟨cur, ⟨_, fs.currentDirectory ++ [cur.children.length]⟩,
      if fs.currentDirectory = [] then "/" else
        names.foldr (fun nm path => "/" ++ nm ++ path) "" ++ "/", rfl, ?_, rfl, rfl, ?_, ?_, ?_⟩
    · simp only [cd, if_neg h1, if_neg h2, current?, hdesc, pushChild, children_mk, hidx]
    · simp only [current?, descend_append_singleton, hdesc, Option.some_bind, hchild]
    · simp only [pwd, hn1, Option.map_some']
      split_ifs <;> rfl
    · have hne : fs.currentDirectory ++ [cur.children.length] ≠ [] := by simp
      simp only [pwd, if_neg hne, hn2, Option.map_some', List.foldr_append, List.foldr_cons,
        List.foldr_nil]
      rw [foldr_path_append]
      by_cases hroot : fs.currentDirectory = []
      · rw [hroot] at hn1
        simp only [namesAlong, Option.some.injEq] at hn1
        subst hn1
        simp [hroot, String.append_assoc]
      · simp [hroot, String.append_assoc]

/-- The first steps of the driver's `testMkdir`. -/
theorem mkdir_cd_pwd_witness :
    (∃ cur fs2 prev, fresh.current? = some cur ∧
      cd ⟨.mk "/" true [.mk "test_dir" true []], []⟩ "test_dir" = .ok fs2 ∧
      fs2.root = (⟨.mk "/" true [.mk "test_dir" true []], []⟩ : FileSystem).root ∧
      fs2.currentDirectory = fresh.currentDirectory ++ [cur.children.length] ∧
      fs2.current? = some (.mk "test_dir" true []) ∧
      pwd fresh = some prev ∧ pwd fs2 = some (prev ++ "test_dir" ++ "/")) ∧
    (∀ fs0 : FileSystem, ∃ fs', cd fs0 "/" = .ok fs' ∧ pwd fs' = some "/") :=
  mkdir_cd_pwd fresh ⟨.mk "/" true [.mk "test_dir" true []], []⟩ "test_dir" rfl (by decide)
    (by decide)

/-- C23 fails as stated: with a file and a directory of the same name in the
current directory (the state after `touch("a")` and `mkdir("a")` on a fresh file
system), `rm` removes the file and the directory of that name is still there. -/
theorem rm_leaves_no_child_named_fails :
    ¬ ∀ (fs fs' : FileSystem) (name : String) (cur' : FileSystemNode), rm fs name = .ok fs' →
      fs'.current? = some cur' → ∀ child ∈ cur'.children, child.name ≠ name := by
  intro h
  have h1 := h ⟨.mk "/" true [.mk "a" false [], .mk "a" true []], []⟩
    ⟨.mk "/" true [.mk "a" true []], []⟩ "a" (.mk "/" true [.mk "a" true []]) rfl rfl
    (.mk "a" true []) (by simp)
  exact h1 rfl

/-- C23, amended. With a valid current directory, `rm(name)` raises, leaving the
state as it was, when the current directory has no child of that name; when it
has one, `rm` returns, removes the first child of that name and keeps all others
in order, `ls` lists exactly the remaining children, and no child of that name is
left provided none followed the removed one. -/
theorem rm_first_child_named (fs : FileSystem) (cur : FileSystemNode) (name : String)
    (hcur : fs.current? = some cur) :
    ((∀ child ∈ cur.children, child.name ≠ name) →
      rm fs name = .raised fs "File or directory not found") ∧
    ((∃ child ∈ cur.children, child.name = name) →
      ∃ fs' before x after, rm fs name = .ok fs' ∧
        cur.children = before ++ x :: after ∧ x.name = name ∧
        (∀ b ∈ before, b.name ≠ name) ∧
        fs'.currentDirectory = fs.currentDirectory ∧
        fs'.current? = some (.mk cur.name cur.isDirectory (before ++ after)) ∧
        ls fs' = some (String.join ((before ++ after).map fun child =>
          child.name ++ (if child.isDirectory then "/" else "") ++ "\n")) ∧
        ((∀ a ∈ after, a.name ≠ name) → ∀ child ∈ before ++ after, child.name ≠ name)) := by
  constructor
  · intro hnone
    have hany : cur.children.any (fun child => child.name == name) = false :=
      any_eq_false_of_forall fun x hx => by simpa using hnone x hx
    simp [rm, hcur, hany]
  · intro hsome
    have hany : cur.children.any (fun child => child.name == name) = true :=
      any_eq_true_of_exists (by simpa using hsome)
    obtain ⟨before, x, after, e1, e2, e3, e4⟩ := eraseFirst_spec _ _ hany
    have hdesc := descend_updateAt (fun nd => FileSystemNode.mk nd.name nd.isDirectory
      (eraseFirst (fun child => child.name == name) nd.children)) _ _ _ hcur
    simp only [e4] at hdesc
    refine ⟨⟨fs.root.updateAt fs.currentDirectory (fun nd =>
        FileSystemNode.mk nd.name nd.isDirectory
          (eraseFirst (fun child => child.name == name) nd.children)), fs.currentDirectory⟩,
      before, x, after, by simp only [rm, hcur, hany, if_true], e1, by simpa using e2,
      fun b hb => by simpa using e3 b hb, rfl, hdesc, ?_, ?_⟩
    · simp only [ls, current?, hdesc, Option.map_some', children_mk]
    · intro hafter child hc
      rcases List.mem_append.1 hc with hc | hc
      · simpa using e3 child hc
      · exact hafter child hc

/-- Removing the file of the driver's `testRm`. -/
theorem rm_first_child_named_witness :
    ((∀ child ∈ (FileSystemNode.mk "/" true [.mk "rm_test_file.txt" false []]).children,
        child.name ≠ "rm_test_file.txt") →
      rm ⟨.mk "/" true [.mk "rm_test_file.txt" false []], []⟩ "rm_test_file.txt" =
        .raised ⟨.mk "/" true [.mk "rm_test_file.txt" false []], []⟩
          "File or directory not found") ∧
    ((∃ child ∈ (FileSystemNode.mk "/" true [.mk "rm_test_file.txt" false []]).children,
        child.name = "rm_test_file.txt") →
      ∃ fs' before x after,
        rm ⟨.mk "/" true [.mk "rm_test_file.txt" false []], []⟩ "rm_test_file.txt" = .ok fs' ∧
        (FileSystemNode.mk "/" true [.mk "rm_test_file.txt" false []]).children =
          before ++ x :: after ∧ x.name = "rm_test_file.txt" ∧
        (∀ b ∈ before, b.name ≠ "rm_test_file.txt") ∧
        fs'.currentDirectory =
          (⟨.mk "/" true [.mk "rm_test_file.txt" false []], []⟩ : FileSystem).currentDirectory ∧
        fs'.current? = some (.mk (FileSystemNode.mk "/" true
          [.mk "rm_test_file.txt" false []]).name (FileSystemNode.mk "/" true
          [.mk "rm_test_file.txt" false []]).isDirectory (before ++ after)) ∧
        ls fs' = some (String.join ((before ++ after).map fun child =>
          child.name ++ (if child.isDirectory then "/" else "") ++ "\n")) ∧
        ((∀ a ∈ after, a.name ≠ "rm_test_file.txt") →
          ∀ child ∈ before ++ after, child.name ≠ "rm_test_file.txt")) :=
  rm_first_child_named ⟨.mk "/" true [.mk "rm_test_file.txt" false []], []⟩
    (.mk "/" true [.mk "rm_test_file.txt" false []]) "rm_test_file.txt" rfl

/-- C24. Duplicate creation is rejected without side effect: with a valid current
directory, `mkdir(name)` raises exactly when the current directory holds a
directory of that name and `touch(name)` exactly when it holds a file of that
name; a call that raises leaves the state as it was, and a call that returns has
appended one childless nd of its kind as last child of the current directory
and changed nothing else. -/
theorem create_rejects_duplicates (fs : FileSystem) (cur : FileSystemNode) (name : String)
    (hcur : fs.current? = some cur) :
    ((∃ child ∈ cur.children, child.name = name ∧ child.isDirectory = true) →
      mkdir fs name = .raised fs "File already exists") ∧
    ((¬ ∃ child ∈ cur.children, child.name = name ∧ child.isDirectory = true) →
      ∃ fs', mkdir fs name = .ok fs' ∧ Added fs fs' cur (.mk name true [])) ∧
    ((∃ child ∈ cur.children, child.name = name ∧ child.isDirectory = false) →
      touch fs name = .raised fs "File already exists") ∧
    ((¬ ∃ child ∈ cur.children, child.name = name ∧ child.isDirectory = false) →
      ∃ fs', touch fs name = .ok fs' ∧ Added fs fs' cur (.mk name false [])) := by
  refine ⟨fun h => ?_, fun h => ?_, fun h => ?_, fun h => ?_⟩
  · have hany : cur.children.any (fun child => child.name == name && child.isDirectory) = true :=
      any_eq_true_of_exists (by simpa using h)
    simp [mkdir, hcur, hany]
  · have hany : cur.children.any (fun child => child.name == name && child.isDirectory) = false :=
      any_eq_false_of_forall fun x hx => by
        have := fun hc => h ⟨x, hx, hc⟩
        simpa using this
    exact ⟨_, by simp only [mkdir, hcur, hany]; rfl, added_of_pushChild fs cur _ hcur⟩
  · have hany : cur.children.any (fun child => child.name == name && !child.isDirectory) = true :=
      any_eq_true_of_exists (by simpa using h)
    simp [touch, hcur, hany]
  · have hany : cur.children.any (fun child => child.name == name && !child.isDirectory) = false :=
      any_eq_false_of_forall fun x hx => by
        have := fun hc => h ⟨x, hx, hc⟩
        simpa using this
    exact ⟨_, by simp only [touch, hcur, hany]; rfl, added_of_pushChild fs cur _ hcur⟩

/-- Creating `parent` in a fresh file system. -/
theorem create_rejects_duplicates_witness :
    ((∃ child ∈ (FileSystemNode.mk "/" true []).children,
        child.name = "parent" ∧ child.isDirectory = true) →
      mkdir fresh "parent" = .raised fresh "File already exists") ∧
    ((¬ ∃ child ∈ (FileSystemNode.mk "/" true []).children,
        child.name = "parent" ∧ child.isDirectory = true) →
      ∃ fs', mkdir fresh "parent" = .ok fs' ∧
        Added fresh fs' (.mk "/" true []) (.mk "parent" true [])) ∧
    ((∃ child ∈ (FileSystemNode.mk "/" true []).children,
        child.name = "parent" ∧ child.isDirectory = false) →
      touch fresh "parent" = .raised fresh "File already exists") ∧
    ((¬ ∃ child ∈ (FileSystemNode.mk "/" true []).children,
        child.name = "parent" ∧ child.isDirectory = false) →
      ∃ fs', touch fresh "parent" = .ok fs' ∧
        Added fresh fs' (.mk "/" true []) (.mk "parent" false [])) :=
  create_rejects_duplicates fresh (.mk "/" true []) "parent" rfl

end FileSystem

/-! ## The file system: the current directory stays a directory of the tree -/

namespace FileSystem
open FileSystemNode

theorem firstIndex_some (p : FileSystemNode → Bool) :
    ∀ (xs : List FileSystemNode) (i : Nat), firstIndex p xs = some i →
      ∃ c, xs[i]? = some c ∧ p c = true
  | [], i, h => by simp [firstIndex] at h
  | x :: xs, i, h => by
      rw [firstIndex] at h
      by_cases hx : p x = true
      · rw [if_pos hx] at h
        cases h
        exact ⟨x, by simp, hx⟩
      · rw [if_neg hx] at h
        cases hf : firstIndex p xs with
        | none => rw [hf] at h; cases h
        | some j =>
          rw [hf] at h
          cases h
          obtain ⟨c, hc, hpc⟩ := firstIndex_some p xs j hf
          exact ⟨c, by simpa using hc, hpc⟩

theorem directoryPath_current {fs : FileSystem} (h : DirectoryPath fs) :
    ∃ nd, fs.current? = some nd ∧ nd.isDirectory = true :=
  h fs.currentDirectory (List.prefix_refl _)

theorem directoryPath_fresh : DirectoryPath fresh := by
  intro q hq
  have hq' : q = [] := List.prefix_nil.1 hq
  subst hq'
  exact ⟨.mk "/" true [], rfl, rfl⟩

/-- Rewriting the current directory by a function that keeps the kind of a node
keeps the invariant. -/
theorem directoryPath_updateAt {fs : FileSystem} (h : DirectoryPath fs)
    (f : FileSystemNode → FileSystemNode) (hf : ∀ nd, (f nd).isDirectory = nd.isDirectory) :
    DirectoryPath ⟨fs.root.updateAt fs.currentDirectory f, fs.currentDirectory⟩ := by
  intro q hq
  obtain ⟨nd, hnd, hdir⟩ := h q hq
  by_cases hqc : q = fs.currentDirectory
  · subst hqc
    exact ⟨f nd, descend_updateAt f _ _ _ hnd, by rw [hf, hdir]⟩
  · obtain ⟨nd', h1, -, h2, -⟩ := descend_updateAt_of_prefix f _ q _ nd hq hqc hnd
    exact ⟨nd', h1, by rw [h2, hdir]⟩

theorem directoryPath_apply {fs : FileSystem} (h : DirectoryPath fs) (c : Call) :
    ∃ fs', (c.apply fs).state? = some fs' ∧ DirectoryPath fs' := by
  obtain ⟨cur, hcur, hdir⟩ := directoryPath_current h
  cases c with
  | mkdir name =>
    simp only [Call.apply, mkdir, hcur]
    split_ifs
    · exact ⟨fs, rfl, h⟩
    · exact ⟨_, rfl, directoryPath_updateAt h _ fun _ => rfl⟩
  | touch name =>
    simp only [Call.apply, touch, hcur]
    split_ifs
    · exact ⟨fs, rfl, h⟩
    · exact ⟨_, rfl, directoryPath_updateAt h _ fun _ => rfl⟩
  | rm name =>
    simp only [Call.apply, rm, hcur]
    split_ifs
    · exact ⟨_, rfl, directoryPath_updateAt h _ fun _ => rfl⟩
    · exact ⟨fs, rfl, h⟩
  | cd path =>
    simp only [Call.apply, cd]
    by_cases h1 : path = "/"
    · rw [if_pos h1]
      refine ⟨_, rfl, ?_⟩
      intro q hq
      exact h q (by rw [List.prefix_nil.1 hq]; exact List.nil_prefix)
    · rw [if_neg h1]
      simp only [hcur]
      by_cases h2 : path = ".."
      · rw [if_pos h2]
        refine ⟨_, rfl, ?_⟩
        intro q hq
        exact h q (List.IsPrefix.trans hq (List.dropLast_prefix _))
      · rw [if_neg h2]
        cases hidx : firstIndex (fun child => child.name == path && child.isDirectory)
            cur.children with
        | none => exact ⟨fs, rfl, h⟩
        | some i =>
          refine ⟨_, rfl, ?_⟩
          obtain ⟨child, hchild, hp⟩ := firstIndex_some _ _ _ hidx
          intro q hq
          rcases List.prefix_concat_iff.1 hq with hq | hq
          · subst hq
            refine ⟨child, ?_, by simp at hp; exact hp.2⟩
            show fs.root.descend (fs.currentDirectory ++ [i]) = some child
            rw [descend_append_singleton]
            have : fs.root.descend fs.currentDirectory = some cur := hcur
            rw [this]
            exact hchild
          · exact h q hq

theorem directoryPath_runCalls :
    ∀ (calls : List Call) {fs : FileSystem}, DirectoryPath fs →
      ∃ fs', runCalls calls fs = some fs' ∧ DirectoryPath fs'
  | [], fs, h => ⟨fs, rfl, h⟩
  | c :: cs, fs, h => by
      obtain ⟨fs1, h1, hd1⟩ := directoryPath_apply h c
      obtain ⟨fs2, h2, hd2⟩ := directoryPath_runCalls cs hd1
      exact ⟨fs2, by simp [runCalls, h1, h2], hd2⟩

/-- C31. Current-directory invariant: after every call of every sequence of
`mkdir`, `touch`, `cd` and `rm` calls on a fresh file system, raising calls
included, no call has dereferenced a dangling pointer, `currentDirectory` leads
from the root to a node of the tree, that node and every node above it is a
directory, and if it is the root then `cd("..")` returns and leaves it at the
root. -/
theorem current_directory_invariant (calls : List Call) (n : Nat) :
    ∃ fs, runCalls (calls.take n) fresh = some fs ∧
      (∃ nd, fs.root.descend fs.currentDirectory = some nd ∧ nd.isDirectory = true) ∧
      DirectoryPath fs ∧
      (fs.currentDirectory = [] → cd fs ".." = .ok fs) := by
  obtain ⟨fs, h1, h2⟩ := directoryPath_runCalls (calls.take n) directoryPath_fresh
  refine ⟨fs, h1, directoryPath_current h2, h2, ?_⟩
  intro hroot
  obtain ⟨cur, hcur, -⟩ := directoryPath_current h2
  obtain ⟨root, cd0⟩ := fs
  simp only at hroot
  subst hroot
  simp only [cd, hcur]
  rfl

end FileSystem
